import Mathlib

/-!
# sc::vector — a shallow embedding of `include/vector.h`

The development embeds the sequence container `sc::vector<T>` and its cursor
`sc::MyForwardIterator<T>` and proves the contracts of its operations.

Modelling conventions

* A heap block (`new value_type[n]`) is a `List T` whose length is the number of
  slots of the block.  The container state is the three data members
  `m_end`, `m_capacity`, `m_storage`.
* A cursor is the offset of its raw pointer from the first slot of the block it
  points into (`std::distance(m_storage, &*pos)` is that offset).
* `size_type` (a 64-bit `unsigned long`) is `Nat` and `long int` is `Int`.  The
  type `int` has 32 bits: `wrap_int` brings an integer into its range in two's
  complement, `static_cast<int>(m_end)` is `static_cast_int`, and a loop
  `for (auto i = 0; i < n; i++)` that compares its `int` counter with a
  `size_type` value makes `int_counter_iterations n` iterations.
* An argument passed as `const_reference` is a `const_reference`: a reference to
  an object outside the container, or to an element of the container itself;
  it is read when the source reads it, and a read through a reference into a
  block that a reallocation has released is indeterminate.
* The value of a slot that was never written, and the value produced by a read
  outside a block, is indeterminate.  Every operation that can allocate or read
  takes an oracle `u : Int → T` giving those values; theorems hold for every
  oracle.  A write outside a block leaves the block as it is.
* A pseudo-destructor call `m_storage[i].~value_type()` leaves the slot as it is.
* A counting loop is a recursion on the number of iterations it still has to
  make; the number is computed from the loop bounds at loop entry.
* The variants `reserve_logged`, `insert_logged` and `insert_range_logged` run
  the same statements and also record every access to a block of the container
  (slot count of the block, index, read or write); they are proved to return
  what the plain functions return.

For the operations whose loops count in `int` (`reserve` and its callers,
`shrink_to_fit`, `assign`, `operator==`, `operator!=`) and for the operations
that read a `const_reference` argument late (`insert`, `push_back`), the lemmas
named `*_contract` prove the contract inside the range where the code keeps it
(sizes below `2^31`, a value that is not an element of the container), and the
theorems named `*_departs` evaluate runs outside of that range.
-/

set_option autoImplicit false

namespace sc

universe v

/-! ## Memory blocks and counting loops -/

/-- Read of slot `i` of a block: the stored element inside the block, the
indeterminate value `u i` outside of it. -/
def load {T : Type} (u : Int → T) (blk : List T) (i : Int) : T :=
  if 0 ≤ i then (blk[i.toNat]?).getD (u i) else u i

/-- Write of slot `i` of a block (`blk[i] = x`). -/
def store {T : Type} (blk : List T) (i : Int) (x : T) : List T :=
  if 0 ≤ i then blk.set i.toNat x else blk

/-- The value a 32-bit `int` holds for the integer `x`: `x` modulo `2^32`, read
in two's complement. -/
def wrap_int (x : Int) : Int :=
  (x + 2 ^ 31) % 2 ^ 32 - 2 ^ 31

/-- The conversion `static_cast<int>(n)` of a `size_type` value. -/
def static_cast_int (n : Nat) : Int :=
  wrap_int (n : Int)

/-- The conversion of an `int` to `size_type`, as in the comparison of an `int`
counter with a `size_type` value: the integer modulo `2^64`. -/
def size_type_of_int (i : Int) : Nat :=
  (i % 2 ^ 64).toNat

/-- The number of iterations of a loop `for (auto i = 0; i < n; i++)` whose
counter is an `int` and whose bound `n` is a `size_type`: the counter takes the
values `0, 1, ...` while it is below `n`; after `2^31` iterations the increment
wraps it to `-2^31`, which converts to `2^64 - 2^31` and ends the loop. -/
def int_counter_iterations (n : Nat) : Nat :=
  min n (2 ^ 31)

/-- An argument passed as `const_reference`: a reference to an object that
lives outside the blocks of the container, or to the element in slot `i` of the
block the container has when the call is made. -/
inductive const_reference (T : Type) where
  | object (x : T)
  | element (i : Int)
deriving DecidableEq, Repr

/-- A read through a `const_reference` while `blk` is the block of the
container.  `released` tells that the block the container had when the call was
made has been released by a reallocation since: a reference into it dangles and
what the read gives is indeterminate. -/
def const_reference.read {T : Type} (u : Int → T) (blk : List T) (released : Bool) :
    const_reference T → T
  | .object x => x
  | .element i => if released then u i else load u blk i

/-- The block returned by `new value_type[n]`: `n` slots of indeterminate content. -/
def newArray {T : Type} (u : Int → T) (n : Nat) : List T :=
  (List.range n).map (fun (i : Nat) => u (i : Int))

/-- The loop `for (; i < hi; i++) body(i)`, given the number of iterations
`(hi - i).toNat` it makes from counter value `i`. -/
def forUp {σ : Type v} (body : Int → σ → σ) : Nat → Int → σ → σ
  | 0, _, s => s
  | n + 1, i, s => forUp body n (i + 1) (body i s)

/-- The loop `for (; i >= lo; i--) body(i)`, given the number of iterations
`(i - lo + 1).toNat` it makes from counter value `i`. -/
def forDown {σ : Type v} (body : Int → σ → σ) : Nat → Int → σ → σ
  | 0, _, s => s
  | n + 1, i, s => forDown body n (i - 1) (body i s)

/-- The algorithm `std::copy(first, last, d_first)` from a source block `src`,
offsets `[first, last)`, into the destination block at offset `d_first`. -/
def std_copy {T : Type} (u : Int → T) (src : List T) (first last : Int)
    (dst : List T) (d_first : Int) : List T :=
  forUp (fun i d => store d (d_first + (i - first)) (load u src i)) (last - first).toNat first dst

/-- The algorithm `std::fill(first, last, value)` on a block. -/
def std_fill {T : Type} (blk : List T) (first last : Int) (value : T) : List T :=
  forUp (fun i b => store b i value) (last - first).toNat first blk

/-! ## The cursor `MyForwardIterator` -/

/-- The cursor: `m_ptr` is the offset of the raw pointer in its block. -/
structure MyForwardIterator where
  m_ptr : Int
deriving DecidableEq, Repr

namespace MyForwardIterator

/-- The friend `operator+(MyForwardIterator lhs, difference_type rhs)`. -/
def add (lhs : MyForwardIterator) (rhs : Int) : MyForwardIterator :=
  ⟨lhs.m_ptr + rhs⟩

/-- The member `operator*()` applied in the block `blk` the cursor points into. -/
def deref {T : Type} (u : Int → T) (blk : List T) (it : MyForwardIterator) : T :=
  load u blk it.m_ptr

/-- The function `std::distance(first, last)` on two raw pointers into one block. -/
def distance (first last : Int) : Int := last - first

/-- The member `operator-(MyForwardIterator& obj)`, the subtraction of two cursors. -/
def sub (self obj : MyForwardIterator) : Int :=
  if self.m_ptr > obj.m_ptr then distance obj.m_ptr self.m_ptr
  else distance self.m_ptr obj.m_ptr

/-- The member `operator==(const MyForwardIterator& other)`. -/
def eq (self other : MyForwardIterator) : Bool := self.m_ptr == other.m_ptr

/-- The member `operator!=(const MyForwardIterator& other)`. -/
def ne (self other : MyForwardIterator) : Bool := !(eq self other)

end MyForwardIterator

/-! ## The container `vector` -/

/-- The data members of `sc::vector<T>`. -/
structure vector (T : Type) where
  m_end : Nat
  m_capacity : Nat
  m_storage : List T
deriving DecidableEq, Repr

/-- One access to a heap block: the number of slots of the block, the index
used, and whether the access is a write. -/
structure access where
  slots : Nat
  index : Int
  is_write : Bool
deriving DecidableEq, Repr

/-- The access uses an index of the block: `0 ≤ index < slots`. -/
def access.in_bounds (a : access) : Bool :=
  decide (0 ≤ a.index ∧ a.index < (a.slots : Int))

/-- The exceptions the container throws. -/
inductive exception where
  | length_error
  | out_of_range
deriving DecidableEq, Repr

namespace vector

variable {T : Type}

/-- The class invariant of a live container: the block has `m_capacity` slots
and the size does not exceed the capacity. -/
def Valid (s : vector T) : Prop :=
  s.m_storage.length = s.m_capacity ∧ s.m_end ≤ s.m_capacity

instance (s : vector T) : Decidable (Valid s) := by
  unfold Valid; exact inferInstance

/-- The logical contents: the elements at indices `[0, m_end)`. -/
def contents (s : vector T) : List T :=
  s.m_storage.take s.m_end

/-- The constructor `explicit vector(size_type new_cap = 0)`. -/
def mk_cap [Inhabited T] (u : Int → T) (new_cap : Nat) : vector T :=
  { m_capacity := new_cap
    m_end := new_cap
    m_storage := std_fill (newArray u new_cap) 0 new_cap default }

/-- The constructor `vector(std::initializer_list<value_type> il)`. -/
def mk_il (u : Int → T) (il : List T) : vector T :=
  { m_capacity := il.length
    m_end := il.length
    m_storage := std_copy u il 0 il.length (newArray u il.length) 0 }

/-- The member `begin()`. -/
def begin (_s : vector T) : MyForwardIterator := ⟨0⟩

/-- The member `end()` (the name `end` is reserved in Lean). -/
def end_ (s : vector T) : MyForwardIterator := ⟨s.m_end⟩

/-- The member `size()`. -/
def size (s : vector T) : Nat := s.m_end

/-- The member `capacity()`. -/
def capacity (s : vector T) : Nat := s.m_capacity

/-- The member `empty()`. -/
def empty (s : vector T) : Bool := s.m_end == 0

/-- The member `full()`. -/
def full (s : vector T) : Bool := s.m_end == s.m_capacity

/-- The member `reserve(size_type new_cap)`: when `new_cap > m_capacity` a block
of `new_cap` slots is allocated, the loop
`for (auto i{0}; i < static_cast<int>(m_end); i++)` copies slots from the old
block, the old block is released and the new one installed. -/
def reserve (u : Int → T) (s : vector T) (new_cap : Nat) : vector T :=
  if new_cap > s.m_capacity then
    let temp := newArray u new_cap
    let temp := forUp (fun i t => store t i (load u s.m_storage i))
      (static_cast_int s.m_end - 0).toNat 0 temp
    { m_end := s.m_end, m_capacity := new_cap, m_storage := temp }
  else s

/-- The member `push_back(const_reference value)`.  The `reserve` call asks for
more than the capacity, so it reallocates whenever it is made; `value` is read
after it. -/
def push_back (u : Int → T) (s : vector T) (value : const_reference T) : vector T :=
  let s1 := if s.m_end = s.m_capacity then
      reserve u s (s.m_capacity + (s.m_capacity / 2) + 1) else s
  let x := value.read u s1.m_storage (decide (s.m_end = s.m_capacity))
  { s1 with m_storage := store s1.m_storage s1.m_end x, m_end := s1.m_end + 1 }

/-- The state of `push_back` after the growth check, before the write (a name for
that intermediate state, used in the proofs). -/
def push_back_grown_state (u : Int → T) (s : vector T) : vector T :=
  if s.m_end = s.m_capacity then reserve u s (s.m_capacity + (s.m_capacity / 2) + 1) else s

/-- The member `pop_back()`: the outcome (normal return or the exception
thrown) and the state the container is left in. -/
def pop_back (s : vector T) : Except exception Unit × vector T :=
  if s.empty then (.error .length_error, s)
  else (.ok (), { s with m_end := s.m_end - 1 })

/-- The members `insert(iterator pos_, const_reference value_)` and
`insert(const_iterator pos_, const_reference value_)` (the two bodies are the
same text): the new state and the returned cursor.  The `reserve` call asks
for more than the capacity, so it reallocates whenever it is made; `value_` is
read after it and after the shift loop. -/
def insert (u : Int → T) (s : vector T) (pos_ : MyForwardIterator)
    (value_ : const_reference T) : vector T × MyForwardIterator :=
  let diff : Int := pos_.m_ptr
  let i : Int := (s.m_end : Int) - 1
  let s1 : vector T := { s with m_end := s.m_end + 1 }
  let s2 := if s1.m_end > s1.m_capacity then
      reserve u s1 (s1.m_capacity + (s1.m_capacity / 2) + 1) else s1
  let st := forDown (fun i st => store st (i + 1) (load u st i)) (i - diff + 1).toNat i s2.m_storage
  let st := store st diff (value_.read u st (decide (s1.m_end > s1.m_capacity)))
  ({ s2 with m_storage := st }, ⟨diff⟩)

/-- The state of `insert` after `m_end++` and the growth check, before the shift
loop (a name for that intermediate state, used in the proofs). -/
def insert_grown (u : Int → T) (s : vector T) : vector T :=
  if s.m_end + 1 > s.m_capacity then
    reserve u { s with m_end := s.m_end + 1 } (s.m_capacity + (s.m_capacity / 2) + 1)
  else { s with m_end := s.m_end + 1 }

/-- The block of `insert` after the shift loop, before the write of `value_` (a
name for that intermediate block, used in the proofs). -/
def insert_shifted (u : Int → T) (s : vector T) (diff : Int) : List T :=
  forDown (fun i st => store st (i + 1) (load u st i))
    ((s.m_end : Int) - 1 - diff + 1).toNat ((s.m_end : Int) - 1) (insert_grown u s).m_storage

/-- The members `erase(iterator pos)` and `erase(const_iterator pos)` (the two
bodies are the same text): the new state and the returned cursor.  The
decrement `m_end--` is the predecessor on `Nat`; the two agree on every
non-empty container, the only ones with a position to erase. -/
def erase (u : Int → T) (s : vector T) (pos : MyForwardIterator) :
    vector T × MyForwardIterator :=
  let diff : Int := pos.m_ptr
  let i : Int := diff
  let s1 : vector T := { s with m_end := s.m_end - 1 }
  let st := forUp (fun i st => store st i (load u st (i + 1)))
    ((s1.m_end : Int) - i).toNat i s1.m_storage
  ({ s1 with m_storage := st }, ⟨diff⟩)


/-- The member `operator[](size_type position)`, const and non-const. -/
def subscript (u : Int → T) (s : vector T) (position : Nat) : T :=
  load u s.m_storage (position : Int)

/-- The member `at(size_type position)`, const and non-const (the name `at` is
reserved in Lean). -/
def at_ (u : Int → T) (s : vector T) (position : Nat) : Except exception T :=
  if position ≥ s.m_end then .error .out_of_range
  else .ok (load u s.m_storage (position : Int))

/-- The friend `swap(vector& first_, vector& second_)`: the states of the two
arguments after the call. -/
def swap (first_ second_ : vector T) : vector T × vector T :=
  let (first1, second1) : vector T × vector T :=
    ({ first_ with m_end := second_.m_end }, { second_ with m_end := first_.m_end })
  let (first2, second2) : vector T × vector T :=
    ({ first1 with m_capacity := second1.m_capacity },
     { second1 with m_capacity := first1.m_capacity })
  ({ first2 with m_storage := second2.m_storage }, { second2 with m_storage := first2.m_storage })

/-- The loop of `operator==` from counter value `i`, given the number of
iterations left: it returns `false` at the first index where the element
comparison `ne` (the `!=` of `T`) answers `true`, and `true` when it runs out. -/
def operator_eq_loop (ne : T → T → Bool) (u : Int → T) (lhs rhs : vector T) :
    Nat → Int → Except exception Bool
  | 0, _ => .ok true
  | n + 1, i => do
    let a ← lhs.at_ u (size_type_of_int i)
    let b ← rhs.at_ u (size_type_of_int i)
    if ne a b then .ok false else operator_eq_loop ne u lhs rhs n (wrap_int (i + 1))

/-- The free function `operator==(const vector<T>& lhs, const vector<T>& rhs)`;
`ne` is the `!=` of the element type.  The loop counter `auto i = 0` is an
`int`. -/
def operator_eq (ne : T → T → Bool) (u : Int → T) (lhs rhs : vector T) :
    Except exception Bool :=
  if lhs.size ≠ rhs.size then .ok false
  else operator_eq_loop ne u lhs rhs (int_counter_iterations lhs.size) 0

/-- The default constructor `vector()`: the constructor
`explicit vector(size_type new_cap = 0)` with its default argument. -/
def mk_default [Inhabited T] (u : Int → T) : vector T := mk_cap u 0

/-- The copy constructor `vector(const vector& other)`. -/
def mk_copy (u : Int → T) (other : vector T) : vector T :=
  { m_capacity := other.m_capacity
    m_end := other.m_end
    m_storage := std_copy u other.m_storage 0 other.m_end (newArray u other.m_capacity) 0 }

/-- The copy assignment `operator=(const vector& other)` applied to the
container `x`; `same_object` is the outcome of the address test
`this == &other` (when it is `true` the argument `other` is `x` itself). -/
def operator_assign (u : Int → T) (x other : vector T) (same_object : Bool) : vector T :=
  let x1 : vector T :=
    if !same_object then
      let x2 : vector T :=
        if x.m_capacity ≠ other.m_end then { x with m_storage := newArray u other.m_end } else x
      { x2 with m_storage := std_copy u other.m_storage 0 other.m_end x2.m_storage 0 }
    else x
  { x1 with m_capacity := other.m_end, m_end := other.m_end }

/-- The member `clear()`. -/
def clear (s : vector T) : vector T :=
  { s with m_end := 0 }

/-- The member `shrink_to_fit()`; its copy loop is
`for (auto i{0}; i < static_cast<int>(m_end); i++)`. -/
def shrink_to_fit (u : Int → T) (s : vector T) : vector T :=
  if s.m_capacity ≠ s.m_end then
    let temp := newArray u s.m_end
    let temp := forUp (fun i t => store t i (load u s.m_storage i))
      (static_cast_int s.m_end - 0).toNat 0 temp
    { m_end := s.m_end, m_capacity := s.m_end, m_storage := temp }
  else s

/-- The member `assign(size_type count_, const_reference value_)`.  Its fill
loops are `for (auto i{0}; i < static_cast<int>(m_end); i++)` and
`for (auto i{0}; i < static_cast<int>(count_); i++)`; the `reserve` call
reallocates when `count_` exceeds the capacity, and `value_` is read in every
iteration. -/
def assign (u : Int → T) (s : vector T) (count_ : Nat) (value_ : const_reference T) :
    vector T :=
  if count_ ≥ s.m_capacity then
    let s1 := reserve u s count_
    let s2 : vector T := { s1 with m_end := count_ }
    let st := forUp (fun i st => store st i (value_.read u st (decide (count_ > s.m_capacity))))
      (static_cast_int s2.m_end - 0).toNat 0 s2.m_storage
    { s2 with m_storage := st }
  else
    let st := forUp (fun i st => store st i (value_.read u st false))
      (static_cast_int count_ - 0).toNat 0 s.m_storage
    { s with m_storage := st, m_end := count_ }

/-- The members `erase(iterator first, iterator last)` and
`erase(const_iterator first, const_iterator last)` (the two bodies are the same
text): the new state and the returned cursor.  `std::distance(first, last)` is
the difference of the two offsets, and `m_end -= len` is the difference brought
back to `size_type`; both agree with the source for a range inside `[0, size]`. -/
def erase_range (u : Int → T) (s : vector T) (first last : MyForwardIterator) :
    vector T × MyForwardIterator :=
  let len : Int := last.m_ptr - first.m_ptr
  let diff : Int := first.m_ptr
  let i : Int := diff
  let s1 : vector T := { s with m_end := ((s.m_end : Int) - len).toNat }
  let st := forUp (fun i st => store st i (load u st (i + len)))
    ((s1.m_end : Int) - i).toNat i s1.m_storage
  ({ s1 with m_storage := st }, ⟨diff⟩)

/-- The members `insert(iterator pos_, InputItr first_, InputItr last_)` and
`insert(const_iterator pos_, InputItr first_, InputItr last_)` (the two bodies
are the same text).  The range lives in a block `range` of its own and
`first_`, `last_` are offsets into it: the new state and the returned cursor. -/
def insert_range (u : Int → T) (s : vector T) (pos_ : MyForwardIterator)
    (range : List T) (first_ last_ : Int) : vector T × MyForwardIterator :=
  let len : Int := last_ - first_
  let diff : Int := pos_.m_ptr
  let i : Int := (s.m_end : Int) - 1
  let s1 : vector T := { s with m_end := ((s.m_end : Int) + len).toNat }
  let s2 := if s1.m_end > s1.m_capacity then
      reserve u s1 (s1.m_end + (s1.m_capacity / 2) + 1) else s1
  let st := forDown (fun i st => store st (i + len) (load u st i))
    (i - diff + 1).toNat i s2.m_storage
  let i : Int := diff
  let st := forUp (fun i st => store st i (load u range (first_ + i - diff)))
    ((diff + len) - i).toNat i st
  ({ s2 with m_storage := st }, ⟨diff⟩)

/-- The members `insert(iterator pos_, const std::initializer_list<value_type>& ilist_)`
and its `const_iterator` twin: the range insert from `ilist_.begin()` to
`ilist_.end()`. -/
def insert_il (u : Int → T) (s : vector T) (pos_ : MyForwardIterator) (ilist_ : List T) :
    vector T × MyForwardIterator :=
  insert_range u s pos_ ilist_ 0 ilist_.length

/-- The state of the range insert after `m_end += len` and the growth check,
before the two loops (a name for that intermediate state, used in the proofs). -/
def insert_range_grown (u : Int → T) (s : vector T) (m : Nat) : vector T :=
  if s.m_end + m > s.m_capacity then
    reserve u { s with m_end := s.m_end + m } (s.m_end + m + (s.m_capacity / 2) + 1)
  else { s with m_end := s.m_end + m }

/-- The container after `push_back(v)` for each `v` of `vs`, in order. -/
def push_back_all (u : Int → T) (s : vector T) (vs : List T) : vector T :=
  vs.foldl (fun s v => push_back u s (.object v)) s

/-- The number of calls, among the calls `push_back(v)` for each `v` of `vs` in
order, that change the capacity. -/
def reallocations (u : Int → T) : vector T → List T → Nat
  | _, [] => 0
  | s, v :: vs =>
    (if (push_back u s (.object v)).m_capacity ≠ s.m_capacity then 1 else 0) +
      reallocations u (push_back u s (.object v)) vs

/-- The capacity after `r` growth steps `c ↦ c + c/2 + 1` from capacity `0`. -/
def grown_capacity : Nat → Nat
  | 0 => 0
  | r + 1 => grown_capacity r + grown_capacity r / 2 + 1

/-- The constructor `vector(InputItr first, InputItr last)`.  The range lives in
a block `range` and `first`, `last` are offsets into it; the first loop counts
the range into `m_capacity`, the second copies it, with an `int` for the index
into the new block. -/
def mk_range (u : Int → T) (range : List T) (first last : Int) : vector T :=
  let m_capacity : Nat := forUp (fun _ c => c + 1) (last - first).toNat first 0
  let m_end : Nat := m_capacity
  let m_storage := newArray u m_capacity
  let m_storage := forUp (fun it st => store st (wrap_int (it - first)) (load u range it))
    (last - first).toNat first m_storage
  { m_end := m_end, m_capacity := m_capacity, m_storage := m_storage }

/-- The assignment `operator=(std::initializer_list<value_type> ilist)`. -/
def operator_assign_il (u : Int → T) (_x : vector T) (ilist : List T) : vector T :=
  { m_capacity := ilist.length
    m_end := ilist.length
    m_storage := std_copy u ilist 0 ilist.length (newArray u ilist.length) 0 }

/-- The member `assign(InputItr first, InputItr last)`; the range lives in a
block `range` and `first`, `last` are offsets into it.  The first fill loop
compares its `int` counter with `m_end`, the second with the `long`
`diff`. -/
def assign_range (u : Int → T) (s : vector T) (range : List T) (first last : Int) : vector T :=
  let diff : Int := last - first
  if diff.toNat ≥ s.m_capacity then
    let s1 := reserve u s diff.toNat
    let s2 : vector T := { s1 with m_end := diff.toNat }
    let st := forUp (fun i st => store st i (load u range (first + i)))
      (int_counter_iterations s2.m_end) 0 s2.m_storage
    { s2 with m_storage := st }
  else
    let st := forUp (fun i st => store st i (load u range (first + i)))
      (diff - 0).toNat 0 s.m_storage
    { s with m_storage := st, m_end := diff.toNat }

/-- The member `assign(const std::initializer_list<value_type>& il)`. -/
def assign_il (u : Int → T) (s : vector T) (il : List T) : vector T :=
  assign_range u s il 0 il.length

/-- The const member `back() const`. -/
def back_const (u : Int → T) (s : vector T) : Except exception T :=
  if s.empty then .error .length_error
  else .ok (load u s.m_storage ((s.m_end : Int) - 1))

/-- The const member `front() const`. -/
def front_const (u : Int → T) (s : vector T) : Except exception T :=
  if s.empty then .error .length_error
  else .ok (load u s.m_storage 0)

/-- The non-const member `back()`. -/
def back (u : Int → T) (s : vector T) : T :=
  load u s.m_storage ((s.m_end : Int) - 1)

/-- The non-const member `front()`. -/
def front (u : Int → T) (s : vector T) : T :=
  load u s.m_storage 0

/-- The loop of `operator!=` from counter value `i`, given the number of
iterations left: it returns `true` at the first index where the element
comparison `ne` answers `true`, and `false` when it runs out. -/
def operator_ne_loop (ne : T → T → Bool) (u : Int → T) (lhs rhs : vector T) :
    Nat → Int → Except exception Bool
  | 0, _ => .ok false
  | n + 1, i => do
    let a ← lhs.at_ u (size_type_of_int i)
    let b ← rhs.at_ u (size_type_of_int i)
    if ne a b then .ok true else operator_ne_loop ne u lhs rhs n (wrap_int (i + 1))

/-- The free function `operator!=(const vector<T>& lhs, const vector<T>& rhs)`;
`ne` is the `!=` of the element type.  The loop counter `auto i = 0` is an
`int`. -/
def operator_ne (ne : T → T → Bool) (u : Int → T) (lhs rhs : vector T) :
    Except exception Bool :=
  if lhs.size ≠ rhs.size then .ok true
  else operator_ne_loop ne u lhs rhs (int_counter_iterations lhs.size) 0

/-- The member `reserve` with the log of its block accesses: the copy loop
reads slot `i` of the old block and writes slot `i` of the new one. -/
def reserve_logged (u : Int → T) (s : vector T) (new_cap : Nat) : vector T × List access :=
  if new_cap > s.m_capacity then
    let temp := newArray u new_cap
    let r := forUp (fun i (p : List T × List access) =>
        (store p.1 i (load u s.m_storage i),
          p.2 ++ [⟨s.m_storage.length, i, false⟩, ⟨p.1.length, i, true⟩]))
      (static_cast_int s.m_end - 0).toNat 0 (temp, [])
    ({ m_end := s.m_end, m_capacity := new_cap, m_storage := r.1 }, r.2)
  else (s, [])

/-- The accesses to the blocks of the container made by a read through a
`const_reference`: none for an object outside the container, one read for an
element; a released block has no slot left. -/
def const_reference_log (blk : List T) (released : Bool) : const_reference T → List access
  | .object _ => []
  | .element i => [⟨if released then 0 else blk.length, i, false⟩]

/-- The member `insert(pos_, value_)` with the log of its block accesses, those
of the `reserve` call included. -/
def insert_logged (u : Int → T) (s : vector T) (pos_ : MyForwardIterator)
    (value_ : const_reference T) : (vector T × MyForwardIterator) × List access :=
  let diff : Int := pos_.m_ptr
  let i : Int := (s.m_end : Int) - 1
  let s1 : vector T := { s with m_end := s.m_end + 1 }
  let g : vector T × List access := if s1.m_end > s1.m_capacity then
      reserve_logged u s1 (s1.m_capacity + (s1.m_capacity / 2) + 1) else (s1, [])
  let r := forDown (fun i (p : List T × List access) =>
      (store p.1 (i + 1) (load u p.1 i),
        p.2 ++ [⟨p.1.length, i, false⟩, ⟨p.1.length, i + 1, true⟩]))
    (i - diff + 1).toNat i (g.1.m_storage, g.2)
  let st := store r.1 diff (value_.read u r.1 (decide (s1.m_end > s1.m_capacity)))
  (({ g.1 with m_storage := st }, ⟨diff⟩),
    r.2 ++ const_reference_log r.1 (decide (s1.m_end > s1.m_capacity)) value_ ++
      [⟨r.1.length, diff, true⟩])

/-- The member `insert(pos_, first_, last_)` with the log of its accesses to the
blocks of the container, those of the `reserve` call included (the reads of the
range block are not logged). -/
def insert_range_logged (u : Int → T) (s : vector T) (pos_ : MyForwardIterator)
    (range : List T) (first_ last_ : Int) : (vector T × MyForwardIterator) × List access :=
  let len : Int := last_ - first_
  let diff : Int := pos_.m_ptr
  let i : Int := (s.m_end : Int) - 1
  let s1 : vector T := { s with m_end := ((s.m_end : Int) + len).toNat }
  let g : vector T × List access := if s1.m_end > s1.m_capacity then
      reserve_logged u s1 (s1.m_end + (s1.m_capacity / 2) + 1) else (s1, [])
  let r := forDown (fun i (p : List T × List access) =>
      (store p.1 (i + len) (load u p.1 i),
        p.2 ++ [⟨p.1.length, i, false⟩, ⟨p.1.length, i + len, true⟩]))
    (i - diff + 1).toNat i (g.1.m_storage, g.2)
  let i : Int := diff
  let r := forUp (fun i (p : List T × List access) =>
      (store p.1 i (load u range (first_ + i - diff)), p.2 ++ [⟨p.1.length, i, true⟩]))
    ((diff + len) - i).toNat i r
  (({ g.1 with m_storage := r.1 }, ⟨diff⟩), r.2)

/-- The invariant `0 <= size() <= capacity()`. -/
def size_le_capacity (s : vector T) : Prop :=
  0 ≤ s.size ∧ s.size ≤ s.capacity

instance (s : vector T) : Decidable (size_le_capacity s) := by
  unfold size_le_capacity; exact inferInstance

end vector

/-! ## Data of the worked scenarios -/

/-- An oracle of indeterminate values that answers `0` everywhere. -/
def zeros : Int → Nat := fun _ => 0

/-- The `!=` of the element type of the worked scenarios. -/
def nat_ne : Nat → Nat → Bool := fun x y => x != y

/-- The container `{1, 2, 3}` built by the initializer-list constructor. -/
def v123 : vector Nat := vector.mk_il zeros [1, 2, 3]

/-- The external range `{7, 8}` of the range-insert scenarios. -/
def r78 : List Nat := [7, 8]

/-- The external range `{1, 2}`. -/
def r12 : List Nat := [1, 2]

/-- The container `{1, 2, 3}` with two spare slots: `{1, 2, 3}` after `reserve(5)`. -/
def v123_spare : vector Nat := vector.reserve zeros v123 5

/-- An oracle of indeterminate values that answers `7` everywhere. -/
def sevens : Int → Nat := fun _ => 7

/-- The container built by `vector(2147483647)`: `2^31 - 1` elements, all the
default value `0`. -/
def v_int_max : vector Nat := vector.mk_cap sevens 2147483647

/-- The container built by `vector(2147483648)`: `2^31` elements, all the
default value `0`. -/
def v_2_31 : vector Nat := vector.mk_cap sevens 2147483648

/-- The container built by `vector(2147483649)`: `2^31 + 1` elements, all the
default value `0`. -/
def v_2_31_succ : vector Nat := vector.mk_cap sevens 2147483649

/-- The container `v_2_31_succ` after `pop_back()` and `push_back(1)`: `2^31`
elements `0` followed by the element `1`. -/
def v_2_31_succ_last : vector Nat :=
  vector.push_back sevens (vector.pop_back v_2_31_succ).2 (.object 1)

/-- The container `v_2_31_succ` after `pop_back()`: `2^31` elements `0` and one
spare slot. -/
def v_2_31_spare : vector Nat := (vector.pop_back v_2_31_succ).2

/-! ## Blocks: reads, writes and loops -/

section blocks

variable {T : Type}

theorem load_natCast (u : Int → T) (blk : List T) (p : Nat) :
    load u blk (p : Int) = (blk[p]?).getD (u p) := by
  simp [load]

theorem load_of_lt (u : Int → T) (blk : List T) (p : Nat) (h : p < blk.length) :
    load u blk (p : Int) = blk[p] := by
  simp [load, h]

theorem store_natCast (blk : List T) (p : Nat) (x : T) :
    store blk (p : Int) x = blk.set p x := by
  simp [store]

theorem length_store (blk : List T) (i : Int) (x : T) :
    (store blk i x).length = blk.length := by
  unfold store; split <;> simp

theorem length_newArray (u : Int → T) (n : Nat) : (newArray u n).length = n := by
  unfold newArray; rw [List.length_map, List.length_range]

/-- A write at slot `q` does not change what a read of another slot gives. -/
theorem load_set_ne (u : Int → T) (blk : List T) (q p : Nat) (x : T) (h : p ≠ q) :
    load u (blk.set q x) (p : Int) = load u blk (p : Int) := by
  simp [load, List.getElem?_set, Ne.symm h]

theorem length_forUp (body : Int → List T → List T)
    (hb : ∀ i s, (body i s).length = s.length) (c : Nat) (i : Int) (s : List T) :
    (forUp body c i s).length = s.length := by
  induction c generalizing i s with
  | zero => rfl
  | succ c ih => rw [forUp, ih, hb]

theorem length_forDown (body : Int → List T → List T)
    (hb : ∀ i s, (body i s).length = s.length) (c : Nat) (i : Int) (s : List T) :
    (forDown body c i s).length = s.length := by
  induction c generalizing i s with
  | zero => rfl
  | succ c ih => rw [forDown, ih, hb]

/-- A loop writing `f i` into slot `i` for `i` in `[a, a + c)`, slot by slot. -/
theorem getElem?_forUp_write (f : Int → T) (c a : Nat) (t : List T) (p : Nat) :
    (forUp (fun i t => store t i (f i)) c (a : Int) t)[p]? =
      if a ≤ p ∧ p < a + c ∧ p < t.length then some (f (p : Int)) else t[p]? := by
  induction c generalizing a t with
  | zero => rw [forUp, if_neg (by omega)]
  | succ c ih =>
    have hcast : ((a : Int) + 1) = ((a + 1 : Nat) : Int) := by push_cast; rfl
    rw [forUp, hcast, ih, store_natCast, List.length_set, List.getElem?_set]
    by_cases hap : a = p
    · subst hap
      rw [if_neg (by omega), if_pos rfl]
      by_cases hl : a < t.length
      · rw [if_pos hl, if_pos (by omega)]
      · rw [if_neg hl, if_neg (by omega)]
        exact (List.getElem?_eq_none (by omega)).symm
    · by_cases h1 : a + 1 ≤ p ∧ p < a + 1 + c ∧ p < t.length
      · rw [if_pos h1, if_pos (by omega)]
      · rw [if_neg h1, if_neg hap, if_neg (by omega)]

/-- The loop `for (; i < hi; i++) st[i] = st[i + len]`, slot by slot. -/
theorem getElem?_forUp_shiftLeft (u : Int → T) (len c a : Nat) (t : List T) (p : Nat) :
    (forUp (fun i st => store st i (load u st (i + (len : Int)))) c (a : Int) t)[p]? =
      if a ≤ p ∧ p < a + c ∧ p < t.length then some (load u t ((p + len : Nat) : Int))
      else t[p]? := by
  induction c generalizing a t with
  | zero => rw [forUp, if_neg (by omega)]
  | succ c ih =>
    have hcast : ((a : Int) + 1) = ((a + 1 : Nat) : Int) := by push_cast; rfl
    have hcast2 : ((a : Int) + (len : Int)) = ((a + len : Nat) : Int) := by push_cast; rfl
    rw [forUp, hcast, ih, hcast2, store_natCast, List.length_set, List.getElem?_set]
    by_cases hap : a = p
    · subst hap
      rw [if_neg (by omega), if_pos rfl]
      by_cases hl : a < t.length
      · rw [if_pos hl, if_pos (by omega)]
      · rw [if_neg hl, if_neg (by omega)]
        exact (List.getElem?_eq_none (by omega)).symm
    · by_cases h1 : a + 1 ≤ p ∧ p < a + 1 + c ∧ p < t.length
      · have h3 : p + len ≠ a := by omega
        rw [if_pos h1, if_pos (by omega), load_set_ne u t a (p + len) _ h3]
      · rw [if_neg h1, if_neg hap, if_neg (by omega)]

/-- The loop `for (; i >= lo; i--) st[i + len] = st[i]`, slot by slot. -/
theorem getElem?_forDown_shiftRight (u : Int → T) (len c a : Nat) (t : List T) (p : Nat) :
    (forDown (fun i st => store st (i + (len : Int)) (load u st i)) c
        (((a + c : Nat) : Int) - 1) t)[p]? =
      if a + len ≤ p ∧ p < a + c + len ∧ p < t.length then some (load u t ((p - len : Nat) : Int))
      else t[p]? := by
  induction c generalizing t with
  | zero => rw [forDown, if_neg (by omega)]
  | succ c ih =>
    have hcast : (((a + (c + 1) : Nat) : Int) - 1) = ((a + c : Nat) : Int) := by push_cast; omega
    have hcast2 : (((a + c : Nat) : Int) + (len : Int)) = ((a + c + len : Nat) : Int) := by
      push_cast; rfl
    rw [forDown, hcast, ih, hcast2, store_natCast, List.length_set, List.getElem?_set]
    by_cases hap : a + c + len = p
    · subst hap
      rw [if_neg (by omega), if_pos rfl]
      by_cases hl : a + c + len < t.length
      · rw [if_pos hl, if_pos (by omega)]
        have h4 : a + c + len - len = a + c := by omega
        rw [h4]
      · rw [if_neg hl, if_neg (by omega)]
        exact (List.getElem?_eq_none (by omega)).symm
    · by_cases h1 : a + len ≤ p ∧ p < a + c + len ∧ p < t.length
      · have h3 : p - len ≠ a + c + len := by omega
        rw [if_pos h1, if_pos (by omega), load_set_ne u t (a + c + len) (p - len) _ h3]
      · rw [if_neg h1, if_neg hap, if_neg (by omega)]

/-- A loop writing `f i` into slot `i` for `i` in `[0, c)`, slot by slot. -/
theorem getElem?_forUp_write_zero (f : Int → T) (c : Nat) (t : List T) (p : Nat) :
    (forUp (fun i t => store t i (f i)) c 0 t)[p]? =
      if p < c ∧ p < t.length then some (f (p : Int)) else t[p]? := by
  have h0 : (0 : Int) = ((0 : Nat) : Int) := rfl
  rw [h0, getElem?_forUp_write f]
  by_cases h : p < c ∧ p < t.length
  · rw [if_pos h, if_pos (by omega)]
  · rw [if_neg h, if_neg (by omega)]

theorem getElem?_newArray (u : Int → T) (n p : Nat) :
    (newArray u n)[p]? = if p < n then some (u (p : Int)) else none := by
  unfold newArray
  rw [List.getElem?_map]
  by_cases h : p < n
  · rw [if_pos h, List.getElem?_range h]
    rfl
  · rw [if_neg h, List.getElem?_eq_none (by rw [List.length_range]; omega)]
    rfl

end blocks

/-! ## The 32-bit `int` -/

theorem wrap_int_of_mem (x : Int) (hlo : -(2 ^ 31) ≤ x) (hhi : x < 2 ^ 31) : wrap_int x = x := by
  unfold wrap_int
  omega

theorem static_cast_int_of_lt (n : Nat) (h : n < 2 ^ 31) : static_cast_int n = (n : Int) := by
  unfold static_cast_int
  exact wrap_int_of_mem _ (by omega) (by omega)

theorem static_cast_int_toNat_of_lt (n : Nat) (h : n < 2 ^ 31) :
    (static_cast_int n - 0).toNat = n := by
  rw [static_cast_int_of_lt n h]
  omega

theorem size_type_of_int_natCast (k : Nat) (h : k < 2 ^ 64) : size_type_of_int (k : Int) = k := by
  unfold size_type_of_int
  omega

/-- The count `int_counter_iterations n` is the number of iterations the loop
`for (auto i = 0; i < n; i++)` makes, for a `size_type` bound `n` below
`2^64 - 2^31`: before each of them the counter holds the number of iterations
made so far and is below `n`, and after the last one it is not below `n`. -/
theorem int_counter_iterations_spec (n : Nat) (hn : n ≤ 2 ^ 64 - 2 ^ 31) :
    (∀ k, k < int_counter_iterations n →
      wrap_int (k : Int) = (k : Int) ∧ size_type_of_int (wrap_int (k : Int)) = k ∧ k < n) ∧
    ¬ size_type_of_int (wrap_int ((int_counter_iterations n : Nat) : Int)) < n := by
  unfold int_counter_iterations wrap_int size_type_of_int
  refine ⟨?_, ?_⟩
  · intro k hk
    omega
  · omega

/-! ## reserve -/

namespace vector

variable {T : Type}

theorem reserve_of_le (u : Int → T) (s : vector T) (m : Nat) (h : m ≤ s.m_capacity) :
    reserve u s m = s := by
  unfold reserve
  rw [if_neg (by omega)]

theorem reserve_m_end (u : Int → T) (s : vector T) (m : Nat) :
    (reserve u s m).m_end = s.m_end := by
  unfold reserve; split <;> rfl

theorem reserve_m_capacity_of_lt (u : Int → T) (s : vector T) (m : Nat)
    (h : s.m_capacity < m) : (reserve u s m).m_capacity = m := by
  unfold reserve
  rw [if_pos h]

theorem length_reserve_of_lt (u : Int → T) (s : vector T) (m : Nat)
    (h : s.m_capacity < m) : (reserve u s m).m_storage.length = m := by
  unfold reserve
  rw [if_pos h]
  simp only []
  rw [length_forUp _ (fun i t => length_store t i _), length_newArray]

/-- The block a growing `reserve` installs, slot by slot: the slots below
`static_cast<int>(m_end)` hold what a read of the old block gave, the others
are as allocated. -/
theorem getElem?_reserve_grow (u : Int → T) (s : vector T) (m : Nat)
    (h : s.m_capacity < m) (p : Nat) :
    (reserve u s m).m_storage[p]? =
      if p < (static_cast_int s.m_end - 0).toNat ∧ p < m then
        some (load u s.m_storage (p : Int))
      else (newArray u m)[p]? := by
  unfold reserve
  rw [if_pos h]
  simp only []
  rw [getElem?_forUp_write_zero (fun i => load u s.m_storage i), length_newArray]

/-- After a growing `reserve` of a container with fewer than `2^31` elements,
slot `p` below the size holds what a read of slot `p` of the old block gave. -/
theorem getElem?_reserve_of_lt (u : Int → T) (s : vector T) (m : Nat)
    (h : s.m_capacity < m) (hb : s.m_end < 2 ^ 31) (p : Nat) (hp : p < s.m_end) (hpm : p < m) :
    (reserve u s m).m_storage[p]? = some (load u s.m_storage (p : Int)) := by
  rw [getElem?_reserve_grow u s m h, static_cast_int_toNat_of_lt s.m_end hb, if_pos ⟨hp, hpm⟩]

/-- A growing `reserve` of a container whose size converts to a non-positive
`int` copies nothing: the new block is as allocated. -/
theorem reserve_storage_of_nonpos (u : Int → T) (s : vector T) (m : Nat)
    (h : s.m_capacity < m) (hneg : static_cast_int s.m_end ≤ 0) :
    (reserve u s m).m_storage = newArray u m := by
  have hc : (static_cast_int s.m_end - 0).toNat = 0 := by omega
  unfold reserve
  rw [if_pos h]
  simp only []
  rw [hc]
  rfl

theorem getElem?_contents (s : vector T) (p : Nat) :
    s.contents[p]? = if p < s.m_end then s.m_storage[p]? else none := by
  unfold contents
  exact List.getElem?_take

theorem length_contents (s : vector T) (hv : Valid s) : s.contents.length = s.m_end := by
  unfold contents
  rw [List.length_take]
  have := hv.1
  have := hv.2
  omega

/-- Inside the size, `operator[]` reads the element of the logical contents. -/
theorem subscript_eq_contents (u : Int → T) (s : vector T) (hv : Valid s) (i : Nat)
    (hi : i < s.m_end) : some (subscript u s i) = s.contents[i]? := by
  have hl : i < s.m_storage.length := by have := hv.1; have := hv.2; omega
  rw [getElem?_contents, if_pos hi, subscript, load_of_lt u _ i hl, List.getElem?_eq_getElem hl]

theorem valid_reserve (u : Int → T) (s : vector T) (m : Nat) (hv : Valid s) :
    Valid (reserve u s m) := by
  by_cases h : s.m_capacity < m
  · refine ⟨?_, ?_⟩
    · rw [length_reserve_of_lt u s m h, reserve_m_capacity_of_lt u s m h]
    · rw [reserve_m_end, reserve_m_capacity_of_lt u s m h]
      have := hv.2
      omega
  · rw [reserve_of_le u s m (by omega)]
    exact hv

theorem contents_reserve (u : Int → T) (s : vector T) (m : Nat) (hv : Valid s)
    (hb : s.m_end < 2 ^ 31) : (reserve u s m).contents = s.contents := by
  by_cases h : s.m_capacity < m
  · apply List.ext_getElem?
    intro p
    rw [getElem?_contents, getElem?_contents, reserve_m_end]
    by_cases hp : p < s.m_end
    · have hl : p < s.m_storage.length := by have := hv.1; have := hv.2; omega
      have hpm : p < m := by have := hv.2; omega
      rw [if_pos hp, if_pos hp, getElem?_reserve_of_lt u s m h hb p hp hpm, load_of_lt u _ p hl,
        List.getElem?_eq_getElem hl]
    · rw [if_neg hp, if_neg hp]
  · rw [reserve_of_le u s m (by omega)]

/-! ## push_back -/

theorem push_back_eq (u : Int → T) (s : vector T) (value : const_reference T) :
    push_back u s value =
      { push_back_grown_state u s with
        m_storage := store (push_back_grown_state u s).m_storage (push_back_grown_state u s).m_end
          (value.read u (push_back_grown_state u s).m_storage (decide (s.m_end = s.m_capacity)))
        m_end := (push_back_grown_state u s).m_end + 1 } := rfl

/-- Writing `x` into the first spare slot and counting it in appends `x` to the
logical contents. -/
theorem contents_write_end (g : vector T) (x : T) (hv : Valid g) (hlt : g.m_end < g.m_capacity) :
    contents { g with m_storage := store g.m_storage g.m_end x, m_end := g.m_end + 1 } =
      g.contents ++ [x] := by
  have hl := hv.1
  apply List.ext_getElem?
  intro p
  rw [getElem?_contents, List.getElem?_append, length_contents g hv, getElem?_contents]
  simp only [store_natCast, List.getElem?_set]
  by_cases hp : p < g.m_end
  · rw [if_pos (by omega), if_neg (by omega), if_pos hp, if_pos hp]
  · rw [if_neg hp]
    by_cases hp2 : p = g.m_end
    · subst hp2
      rw [if_pos (by omega), if_pos rfl, if_pos (by omega)]
      simp
    · rw [if_neg (by omega)]
      have h1 : 1 ≤ p - g.m_end := by omega
      exact (List.getElem?_eq_none (by simpa using h1)).symm

theorem push_back_grown_sizes (u : Int → T) (s : vector T) (hv : Valid s) :
    Valid (push_back_grown_state u s) ∧
    (push_back_grown_state u s).m_end = s.m_end ∧
    s.m_end < (push_back_grown_state u s).m_capacity := by
  unfold push_back_grown_state
  by_cases h : s.m_end = s.m_capacity
  · rw [if_pos h]
    refine ⟨valid_reserve u s _ hv, reserve_m_end u s _, ?_⟩
    rw [reserve_m_capacity_of_lt u s _ (by omega)]
    omega
  · rw [if_neg h]
    have := hv.2
    exact ⟨hv, rfl, by omega⟩

theorem push_back_grown_contents (u : Int → T) (s : vector T) (hv : Valid s)
    (hb : s.m_end < 2 ^ 31) : (push_back_grown_state u s).contents = s.contents := by
  unfold push_back_grown_state
  by_cases h : s.m_end = s.m_capacity
  · rw [if_pos h]
    exact contents_reserve u s _ hv hb
  · rw [if_neg h]

theorem push_back_m_end (u : Int → T) (s : vector T) (value : const_reference T) :
    (push_back u s value).m_end = s.m_end + 1 := by
  rw [push_back_eq]
  unfold push_back_grown_state
  by_cases h : s.m_end = s.m_capacity
  · simp only [if_pos h, reserve_m_end]
  · simp only [if_neg h]

theorem push_back_m_capacity (u : Int → T) (s : vector T) (value : const_reference T) :
    (push_back u s value).m_capacity =
      if s.m_end = s.m_capacity then s.m_capacity + s.m_capacity / 2 + 1 else s.m_capacity := by
  rw [push_back_eq]
  unfold push_back_grown_state
  by_cases h : s.m_end = s.m_capacity
  · simp only [if_pos h]
    exact reserve_m_capacity_of_lt u s _ (by omega)
  · simp only [if_neg h]

theorem valid_push_back (u : Int → T) (s : vector T) (value : const_reference T)
    (hv : Valid s) : Valid (push_back u s value) := by
  obtain ⟨hg, he, hlt⟩ := push_back_grown_sizes u s hv
  rw [push_back_eq]
  refine ⟨?_, ?_⟩
  · simp only [length_store]
    exact hg.1
  · simp only [he]
    omega

/-- The contents after `push_back` of a container with fewer than `2^31`
elements: the old contents followed by what the read of `value` gave. -/
theorem contents_push_back_read (u : Int → T) (s : vector T) (value : const_reference T)
    (hv : Valid s) (hb : s.m_end < 2 ^ 31) :
    (push_back u s value).contents = s.contents ++
      [value.read u (push_back_grown_state u s).m_storage (decide (s.m_end = s.m_capacity))] := by
  obtain ⟨hg, he, hlt⟩ := push_back_grown_sizes u s hv
  rw [push_back_eq, contents_write_end _ _ hg (by omega), push_back_grown_contents u s hv hb]

theorem contents_push_back (u : Int → T) (s : vector T) (v : T) (hv : Valid s)
    (hb : s.m_end < 2 ^ 31) :
    (push_back u s (.object v)).contents = s.contents ++ [v] :=
  contents_push_back_read u s (.object v) hv hb

/-- On a full container whose size converts to a non-positive `int`, the
`reserve` call of `push_back` copies nothing: after the call every slot below
the old size holds an indeterminate value. -/
theorem getElem?_push_back_of_nonpos (u : Int → T) (s : vector T) (value : const_reference T)
    (hfull : s.m_end = s.m_capacity) (hneg : static_cast_int s.m_end ≤ 0)
    (p : Nat) (hp : p < s.m_end) :
    (push_back u s value).m_storage[p]? = some (u (p : Int)) := by
  have hg : (push_back_grown_state u s).m_storage =
      newArray u (s.m_capacity + (s.m_capacity / 2) + 1) := by
    unfold push_back_grown_state
    rw [if_pos hfull]
    exact reserve_storage_of_nonpos u _ _ (by omega) hneg
  have hge : (push_back_grown_state u s).m_end = s.m_end := by
    unfold push_back_grown_state
    rw [if_pos hfull]
    exact reserve_m_end u _ _
  rw [push_back_eq]
  simp only []
  rw [hg, hge, store_natCast, List.getElem?_set, if_neg (by omega), getElem?_newArray,
    if_pos (by omega)]

/-! ## insert -/

theorem insert_eq (u : Int → T) (s : vector T) (pos_ : MyForwardIterator)
    (value_ : const_reference T) :
    insert u s pos_ value_ =
      ({ insert_grown u s with
          m_storage := store (insert_shifted u s pos_.m_ptr) pos_.m_ptr
            (value_.read u (insert_shifted u s pos_.m_ptr)
              (decide (s.m_end + 1 > s.m_capacity))) }, ⟨pos_.m_ptr⟩) := rfl

theorem length_insert_shifted (u : Int → T) (s : vector T) (diff : Int) :
    (insert_shifted u s diff).length = (insert_grown u s).m_storage.length := by
  unfold insert_shifted
  exact length_forDown _ (fun i t => length_store t _ _) _ _ _

theorem insert_grown_sizes (u : Int → T) (s : vector T) (hv : Valid s) :
    (insert_grown u s).m_end = s.m_end + 1 ∧
    (insert_grown u s).m_storage.length = (insert_grown u s).m_capacity ∧
    s.m_end + 1 ≤ (insert_grown u s).m_capacity ∧
    (insert_grown u s).m_capacity =
      (if s.m_end = s.m_capacity then s.m_capacity + s.m_capacity / 2 + 1 else s.m_capacity) := by
  have hl := hv.1
  have hle := hv.2
  unfold insert_grown
  by_cases h : s.m_end + 1 > s.m_capacity
  · have hfull : s.m_end = s.m_capacity := by omega
    have hcap : ({ s with m_end := s.m_end + 1 } : vector T).m_capacity <
        s.m_capacity + (s.m_capacity / 2) + 1 := by
      show s.m_capacity < _
      omega
    rw [if_pos h, if_pos hfull]
    refine ⟨reserve_m_end u _ _, ?_, ?_, reserve_m_capacity_of_lt u _ _ hcap⟩
    · rw [length_reserve_of_lt u _ _ hcap, reserve_m_capacity_of_lt u _ _ hcap]
    · rw [reserve_m_capacity_of_lt u _ _ hcap]
      omega
  · have hnf : ¬ s.m_end = s.m_capacity := by omega
    rw [if_neg h, if_neg hnf]
    exact ⟨rfl, hl, (by show s.m_end + 1 ≤ s.m_capacity; omega), rfl⟩

/-- The growth step of `insert` keeps the slots below the size, when the size
after the insertion is below `2^31`. -/
theorem insert_grown_storage (u : Int → T) (s : vector T) (hv : Valid s)
    (hb : s.m_end + 1 < 2 ^ 31) (p : Nat) (hp : p < s.m_end) :
    (insert_grown u s).m_storage[p]? = s.m_storage[p]? := by
  have hl := hv.1
  have hle := hv.2
  unfold insert_grown
  by_cases h : s.m_end + 1 > s.m_capacity
  · have hcap : ({ s with m_end := s.m_end + 1 } : vector T).m_capacity <
        s.m_capacity + (s.m_capacity / 2) + 1 := by
      show s.m_capacity < _
      omega
    have hp1 : p < ({ s with m_end := s.m_end + 1 } : vector T).m_end := by
      show p < s.m_end + 1
      omega
    rw [if_pos h, getElem?_reserve_of_lt u _ _ hcap hb p hp1 (by omega)]
    show some (load u s.m_storage (p : Int)) = _
    rw [load_of_lt u _ p (by omega), List.getElem?_eq_getElem (by omega)]
  · rw [if_neg h]

/-- The block of `insert` after the shift loop, slot by slot, for a position `k`
inside `[0, size]`: slot `k` still holds the element the shift moved on. -/
theorem getElem?_insert_shifted (u : Int → T) (s : vector T) (k : Nat)
    (hv : Valid s) (hb : s.m_end + 1 < 2 ^ 31) (hk : k ≤ s.m_end) (p : Nat) (hp : p ≤ s.m_end) :
    (insert_shifted u s (k : Int))[p]? =
      if p ≤ k then (insert_grown u s).m_storage[p]? else s.m_storage[p - 1]? := by
  obtain ⟨he, hgl, hgc, _⟩ := insert_grown_sizes u s hv
  have hgs := insert_grown_storage u s hv hb
  have hl := hv.1
  have hle := hv.2
  unfold insert_shifted
  have hcount : ((s.m_end : Int) - 1 - (k : Int) + 1).toNat = s.m_end - k := by omega
  have hstart : ((s.m_end : Int) - 1) = ((k + (s.m_end - k) : Nat) : Int) - 1 := by omega
  have hshift := getElem?_forDown_shiftRight u 1 (s.m_end - k) k (insert_grown u s).m_storage
  simp only [Nat.cast_one] at hshift
  rw [hcount, hstart, hshift]
  by_cases hle2 : p ≤ k
  · rw [if_neg (by omega), if_pos hle2]
  · rw [if_pos (by omega), if_neg hle2, load_of_lt u _ (p - 1) (by omega),
      ← List.getElem?_eq_getElem (by omega)]
    exact hgs (p - 1) (by omega)

/-- The block `insert` leaves behind, slot by slot, for a position `k` inside
`[0, size]` and a size after the insertion below `2^31`; slot `k` holds what
the read of `value_` gave. -/
theorem getElem?_insert_storage (u : Int → T) (s : vector T) (k : Nat)
    (value_ : const_reference T) (hv : Valid s) (hb : s.m_end + 1 < 2 ^ 31) (hk : k ≤ s.m_end)
    (p : Nat) (hp : p ≤ s.m_end) :
    (insert u s ⟨(k : Int)⟩ value_).1.m_storage[p]? =
      if p = k then
        some (value_.read u (insert_shifted u s (k : Int)) (decide (s.m_end + 1 > s.m_capacity)))
      else if p < k then s.m_storage[p]? else s.m_storage[p - 1]? := by
  obtain ⟨he, hgl, hgc, _⟩ := insert_grown_sizes u s hv
  have hgs := insert_grown_storage u s hv hb
  rw [insert_eq]
  simp only []
  rw [store_natCast, List.getElem?_set, length_insert_shifted,
    getElem?_insert_shifted u s k hv hb hk p hp]
  by_cases hpk : p = k
  · subst hpk
    rw [if_pos rfl, if_pos (by omega), if_pos rfl]
  · rw [if_neg (Ne.symm hpk), if_neg hpk]
    by_cases hlt : p < k
    · rw [if_pos (by omega), if_pos hlt]
      exact hgs p (by omega)
    · rw [if_neg (by omega), if_neg hlt]

/-- What `insert` at a position `k` reads through a reference to the element at
index `j`, when the container has a spare slot: the element `a[j]` if
`j ≤ k`, and the element `a[j-1]`, which the shift loop has moved into slot
`j`, if `j > k`. -/
theorem insert_read_element (u : Int → T) (s : vector T) (k j : Nat) (hv : Valid s)
    (hb : s.m_end + 1 < 2 ^ 31) (hk : k ≤ s.m_end) (hspare : s.m_end < s.m_capacity)
    (hj : j < s.m_end) :
    (const_reference.element (j : Int)).read u (insert_shifted u s (k : Int))
        (decide (s.m_end + 1 > s.m_capacity)) =
      if j ≤ k then subscript u s j else subscript u s (j - 1) := by
  have hl := hv.1
  have hgs := insert_grown_storage u s hv hb
  rw [decide_eq_false (by omega)]
  simp only [const_reference.read]
  rw [if_neg (by simp), load_natCast, getElem?_insert_shifted u s k hv hb hk j (by omega)]
  unfold subscript
  by_cases hjk : j ≤ k
  · rw [if_pos hjk, if_pos hjk, hgs j hj, load_natCast]
  · rw [if_neg hjk, if_neg hjk, load_natCast, List.getElem?_eq_getElem (by omega)]
    rfl

theorem begin_add (s : vector T) (k : Nat) : s.begin.add (k : Int) = ⟨(k : Int)⟩ := by
  simp [begin, MyForwardIterator.add]

theorem insert_m_end (u : Int → T) (s : vector T) (pos_ : MyForwardIterator)
    (value_ : const_reference T) (hv : Valid s) :
    (insert u s pos_ value_).1.m_end = s.m_end + 1 := by
  rw [insert_eq]
  exact (insert_grown_sizes u s hv).1

theorem insert_m_capacity (u : Int → T) (s : vector T) (pos_ : MyForwardIterator)
    (value_ : const_reference T) (hv : Valid s) : (insert u s pos_ value_).1.m_capacity =
      if s.m_end = s.m_capacity then s.m_capacity + s.m_capacity / 2 + 1 else s.m_capacity := by
  rw [insert_eq]
  exact (insert_grown_sizes u s hv).2.2.2

theorem valid_insert (u : Int → T) (s : vector T) (pos_ : MyForwardIterator)
    (value_ : const_reference T) (hv : Valid s) : Valid (insert u s pos_ value_).1 := by
  obtain ⟨he, hgl, hgc, _⟩ := insert_grown_sizes u s hv
  rw [insert_eq]
  refine ⟨?_, ?_⟩
  · simp only [length_store]
    rw [length_insert_shifted]
    exact hgl
  · show (insert_grown u s).m_end ≤ (insert_grown u s).m_capacity
    omega

/-- The contents after `insert` at a position `k` inside `[0, size]`, for a size
after the insertion below `2^31`: what the read of `value_` gave, between the
elements before `k` and the elements from `k` on. -/
theorem contents_insert_read (u : Int → T) (s : vector T) (k : Nat) (value_ : const_reference T)
    (hv : Valid s) (hb : s.m_end + 1 < 2 ^ 31) (hk : k ≤ s.m_end) :
    (insert u s ⟨(k : Int)⟩ value_).1.contents =
      s.contents.take k ++
        value_.read u (insert_shifted u s (k : Int)) (decide (s.m_end + 1 > s.m_capacity)) ::
          s.contents.drop k := by
  have hlen := length_contents s hv
  apply List.ext_getElem?
  intro p
  rw [getElem?_contents, insert_m_end u s _ _ hv, List.getElem?_append, List.length_take, hlen,
    Nat.min_eq_left hk]
  by_cases hp : p < s.m_end + 1
  · rw [if_pos hp, getElem?_insert_storage u s k value_ hv hb hk p (by omega)]
    by_cases hpk : p = k
    · subst hpk
      rw [if_pos rfl, if_neg (by omega), Nat.sub_self, List.getElem?_cons_zero]
    · rw [if_neg hpk]
      by_cases hlt : p < k
      · rw [if_pos hlt, if_pos hlt, List.getElem?_take_of_lt hlt, getElem?_contents,
          if_pos (by omega)]
      · obtain ⟨d, hd⟩ : ∃ d, p - k = d + 1 := ⟨p - k - 1, by omega⟩
        rw [if_neg hlt, if_neg hlt, hd, List.getElem?_cons_succ, List.getElem?_drop,
          getElem?_contents, if_pos (by omega)]
        congr 1
        omega
  · obtain ⟨d, hd⟩ : ∃ d, p - k = d + 1 := ⟨p - k - 1, by omega⟩
    rw [if_neg hp, if_neg (by omega), hd, List.getElem?_cons_succ, List.getElem?_drop,
      getElem?_contents, if_neg (by omega)]

theorem contents_insert (u : Int → T) (s : vector T) (k : Nat) (v : T)
    (hv : Valid s) (hb : s.m_end + 1 < 2 ^ 31) (hk : k ≤ s.m_end) :
    (insert u s ⟨(k : Int)⟩ (.object v)).1.contents =
      s.contents.take k ++ v :: s.contents.drop k :=
  contents_insert_read u s k (.object v) hv hb hk

/-- On a full container whose size plus one converts to a non-positive `int`,
the `reserve` call of `insert` copies nothing: after an insertion at the end,
every slot below the old size holds an indeterminate value. -/
theorem getElem?_insert_end_of_nonpos (u : Int → T) (s : vector T) (value_ : const_reference T)
    (hfull : s.m_end = s.m_capacity) (hneg : static_cast_int (s.m_end + 1) ≤ 0)
    (p : Nat) (hp : p < s.m_end) :
    (insert u s ⟨(s.m_end : Int)⟩ value_).1.m_storage[p]? = some (u (p : Int)) := by
  have hcap : ({ s with m_end := s.m_end + 1 } : vector T).m_capacity <
      s.m_capacity + (s.m_capacity / 2) + 1 := by
    show s.m_capacity < _
    omega
  have hg : (insert_grown u s).m_storage = newArray u (s.m_capacity + (s.m_capacity / 2) + 1) := by
    unfold insert_grown
    rw [if_pos (by omega)]
    exact reserve_storage_of_nonpos u _ _ hcap hneg
  have hcount : ((s.m_end : Int) - 1 - (s.m_end : Int) + 1).toNat = 0 := by omega
  have hsh : insert_shifted u s (s.m_end : Int) =
      newArray u (s.m_capacity + (s.m_capacity / 2) + 1) := by
    unfold insert_shifted
    rw [hcount, hg]
    rfl
  rw [insert_eq]
  simp only []
  rw [hsh, store_natCast, List.getElem?_set, if_neg (by omega), getElem?_newArray,
    if_pos (by omega)]

/-! ## erase -/

theorem erase_eq (u : Int → T) (s : vector T) (pos : MyForwardIterator) :
    erase u s pos =
      ({ m_end := s.m_end - 1, m_capacity := s.m_capacity,
         m_storage := forUp (fun i st => store st i (load u st (i + 1)))
            (((s.m_end - 1 : Nat) : Int) - pos.m_ptr).toNat pos.m_ptr s.m_storage },
       ⟨pos.m_ptr⟩) := rfl

theorem valid_erase (u : Int → T) (s : vector T) (pos : MyForwardIterator) (hv : Valid s) :
    Valid (erase u s pos).1 := by
  have hl := hv.1
  have hle := hv.2
  rw [erase_eq]
  refine ⟨?_, ?_⟩
  · show List.length (forUp _ _ _ _) = s.m_capacity
    rw [length_forUp _ (fun i t => length_store t _ _)]
    exact hl
  · show s.m_end - 1 ≤ s.m_capacity
    omega

/-- The block `erase` leaves behind, slot by slot, for a position `k` inside `[0, size)`. -/
theorem getElem?_erase_storage (u : Int → T) (s : vector T) (k : Nat)
    (hv : Valid s) (hk : k < s.m_end) (p : Nat) (hp : p < s.m_end - 1) :
    (erase u s ⟨(k : Int)⟩).1.m_storage[p]? =
      if p < k then s.m_storage[p]? else s.m_storage[p + 1]? := by
  have hl := hv.1
  have hle := hv.2
  rw [erase_eq]
  simp only []
  have hcount : (((s.m_end - 1 : Nat) : Int) - (k : Int)).toNat = s.m_end - 1 - k := by omega
  have hshift := getElem?_forUp_shiftLeft u 1 (s.m_end - 1 - k) k s.m_storage p
  simp only [Nat.cast_one] at hshift
  rw [hcount, hshift]
  by_cases hlt : p < k
  · rw [if_neg (by omega), if_pos hlt]
  · rw [if_pos (by omega), if_neg hlt, load_of_lt u _ (p + 1) (by omega),
      List.getElem?_eq_getElem (by omega)]

theorem contents_erase (u : Int → T) (s : vector T) (k : Nat)
    (hv : Valid s) (hk : k < s.m_end) :
    (erase u s ⟨(k : Int)⟩).1.contents = s.contents.take k ++ s.contents.drop (k + 1) := by
  have hlen := length_contents s hv
  apply List.ext_getElem?
  intro p
  rw [getElem?_contents, List.getElem?_append, List.length_take, hlen,
    Nat.min_eq_left (by omega), List.getElem?_drop, getElem?_contents]
  show (if p < s.m_end - 1 then _ else _) = _
  by_cases hp : p < s.m_end - 1
  · rw [if_pos hp, getElem?_erase_storage u s k hv hk p hp]
    by_cases hlt : p < k
    · rw [if_pos hlt, if_pos hlt, List.getElem?_take_of_lt hlt, getElem?_contents,
        if_pos (by omega)]
    · rw [if_neg hlt, if_neg hlt, if_pos (by omega)]
      congr 1
      omega
  · rw [if_neg hp, if_neg (by omega), if_neg (by omega)]

/-! ## The contracts -/

theorem subscript_congr (u : Int → T) (r s : vector T) (i j : Nat)
    (h : r.m_storage[i]? = s.m_storage[j]?) (hj : j < s.m_storage.length) :
    subscript u r i = subscript u s j := by
  unfold subscript
  rw [load_natCast, load_natCast, h, List.getElem?_eq_getElem hj]
  rfl

theorem subscript_of_getElem? (u : Int → T) (r : vector T) (i : Nat) (x : T)
    (h : r.m_storage[i]? = some x) : subscript u r i = x := by
  unfold subscript
  rw [load_natCast, h]
  rfl

/-- The contract of `insert(begin()+k, v)` for a value `v` that is not an element
of the container and a size after the insertion below `2^31`: size `n+1`,
contents `a[0..k) ++ [v] ++ a[k..n)`, the elements before `k` unchanged and the
elements at or after `k` one slot to the right; the capacity is unchanged when
`n < capacity` and is `capacity + capacity/2 + 1` when `n = capacity`; the
returned cursor is at index `k` and dereferences to `v`. -/
theorem insert_contract (u : Int → T) (s : vector T) (k : Nat) (v : T)
    (hv : Valid s) (hb : s.size + 1 < 2 ^ 31) (hk : k ≤ s.size) :
    (insert u s (s.begin.add k) (.object v)).1.size = s.size + 1 ∧
    (insert u s (s.begin.add k) (.object v)).1.contents =
      s.contents.take k ++ [v] ++ s.contents.drop k ∧
    (∀ i, i < k →
      subscript u (insert u s (s.begin.add k) (.object v)).1 i = subscript u s i) ∧
    (∀ i, k ≤ i → i < s.size →
      subscript u (insert u s (s.begin.add k) (.object v)).1 (i + 1) = subscript u s i) ∧
    (s.size < s.capacity → (insert u s (s.begin.add k) (.object v)).1.capacity = s.capacity) ∧
    (s.size = s.capacity →
      (insert u s (s.begin.add k) (.object v)).1.capacity =
        s.capacity + s.capacity / 2 + 1) ∧
    (insert u s (s.begin.add k) (.object v)).2 =
      (insert u s (s.begin.add k) (.object v)).1.begin.add k ∧
    (insert u s (s.begin.add k) (.object v)).2.deref u
      (insert u s (s.begin.add k) (.object v)).1.m_storage = v := by
  have hl := hv.1
  have hle := hv.2
  unfold size at hk hb
  simp only [size, capacity, begin_add]
  refine ⟨insert_m_end u s _ _ hv, ?_, ?_, ?_, ?_, ?_, ?_, ?_⟩
  · rw [contents_insert u s k v hv hb hk, List.append_assoc, List.singleton_append]
  · intro i hi
    apply subscript_congr u _ s i i _ (by omega)
    rw [getElem?_insert_storage u s k _ hv hb hk i (by omega), if_neg (by omega), if_pos hi]
  · intro i hki hin
    apply subscript_congr u _ s (i + 1) i _ (by omega)
    rw [getElem?_insert_storage u s k _ hv hb hk (i + 1) (by omega), if_neg (by omega),
      if_neg (by omega), Nat.add_sub_cancel]
  · intro hlt
    rw [insert_m_capacity u s _ _ hv, if_neg (by omega)]
  · intro hfull
    rw [insert_m_capacity u s _ _ hv, if_pos hfull]
  · rfl
  · show load u _ (k : Int) = v
    have h := getElem?_insert_storage u s k (.object v) hv hb hk k hk
    rw [if_pos rfl] at h
    rw [load_natCast, h]
    rfl

/-- C2: for a container with contents `a[0..n)` and an index `k` with
`0 ≤ k < n`, `erase(begin()+k)` leaves size `n-1`, contents
`a[0..k) ++ a[k+1..n)` and the capacity unchanged, and returns a cursor at index
`k`: it refers to the old `a[k+1]` when `k < n-1` and it equals `end()` when
`k = n-1`. -/
theorem erase_spec (u : Int → T) (s : vector T) (k : Nat)
    (hv : Valid s) (hk : k < s.size) :
    (erase u s (s.begin.add k)).1.size = s.size - 1 ∧
    (erase u s (s.begin.add k)).1.contents = s.contents.take k ++ s.contents.drop (k + 1) ∧
    (erase u s (s.begin.add k)).1.capacity = s.capacity ∧
    (erase u s (s.begin.add k)).2 = (erase u s (s.begin.add k)).1.begin.add k ∧
    (k < s.size - 1 →
      (erase u s (s.begin.add k)).2.deref u (erase u s (s.begin.add k)).1.m_storage =
        subscript u s (k + 1)) ∧
    (k = s.size - 1 → (erase u s (s.begin.add k)).2 = (erase u s (s.begin.add k)).1.end_) := by
  have hl := hv.1
  have hle := hv.2
  unfold size at hk
  simp only [size, capacity, begin_add]
  refine ⟨rfl, contents_erase u s k hv hk, rfl, rfl, ?_, ?_⟩
  · intro hlt
    show load u _ (k : Int) = load u s.m_storage ((k + 1 : Nat) : Int)
    rw [load_natCast, getElem?_erase_storage u s k hv hk k hlt, if_neg (by omega), load_natCast,
      List.getElem?_eq_getElem (by omega)]
    rfl
  · intro heq
    show (⟨(k : Int)⟩ : MyForwardIterator) = ⟨((s.m_end - 1 : Nat) : Int)⟩
    rw [← heq]

/-- C2, on `{1, 2, 3}` with `k = 1`. -/
theorem erase_spec_witness :
    Valid v123 ∧ 1 < v123.size ∧
    (erase zeros v123 (v123.begin.add (1 : Nat))).1.size = v123.size - 1 ∧
    (erase zeros v123 (v123.begin.add (1 : Nat))).1.contents =
      v123.contents.take 1 ++ v123.contents.drop (1 + 1) ∧
    (erase zeros v123 (v123.begin.add (1 : Nat))).1.capacity = v123.capacity ∧
    (erase zeros v123 (v123.begin.add (1 : Nat))).2 =
      (erase zeros v123 (v123.begin.add (1 : Nat))).1.begin.add (1 : Nat) ∧
    (1 < v123.size - 1 →
      (erase zeros v123 (v123.begin.add (1 : Nat))).2.deref zeros
        (erase zeros v123 (v123.begin.add (1 : Nat))).1.m_storage = subscript zeros v123 (1 + 1)) ∧
    (1 = v123.size - 1 →
      (erase zeros v123 (v123.begin.add (1 : Nat))).2 =
        (erase zeros v123 (v123.begin.add (1 : Nat))).1.end_) :=
  ⟨by decide, by decide, erase_spec zeros v123 1 (by decide) (by decide)⟩

theorem mk_il_eq (u : Int → T) (il : List T) :
    mk_il u il = { m_end := il.length, m_capacity := il.length, m_storage := il } := by
  unfold mk_il std_copy
  congr 1
  apply List.ext_getElem?
  intro p
  simp only [Int.sub_zero, Int.zero_add, Int.toNat_ofNat]
  have h0 : (0 : Int) = ((0 : Nat) : Int) := rfl
  rw [h0, getElem?_forUp_write (fun i => load u il i), length_newArray]
  by_cases hp : p < il.length
  · rw [if_pos (by omega), load_of_lt u il p hp, List.getElem?_eq_getElem hp]
  · have h1 : il[p]? = none := List.getElem?_eq_none (by omega)
    have h2 : (newArray u il.length)[p]? = none :=
      List.getElem?_eq_none (by rw [length_newArray]; omega)
    rw [if_neg (by omega), h1, h2]

theorem valid_mk_il (u : Int → T) (il : List T) : Valid (mk_il u il) := by
  rw [mk_il_eq]
  exact ⟨rfl, Nat.le_refl _⟩

theorem contents_mk_il (u : Int → T) (il : List T) : (mk_il u il).contents = il := by
  rw [mk_il_eq]
  exact List.take_length il

/-- The round trip of `insert(begin()+k, v)` followed by `erase` on the returned
cursor, for a size after the insertion below `2^31`: size and contents are as
before, with a capacity that is at least the one before. -/
theorem insert_erase_contract (u : Int → T) (s : vector T) (k : Nat)
    (value_ : const_reference T) (hv : Valid s) (hb : s.size + 1 < 2 ^ 31) (hk : k ≤ s.size) :
    (erase u (insert u s (s.begin.add k) value_).1 (insert u s (s.begin.add k) value_).2).1.size
      = s.size ∧
    (erase u (insert u s (s.begin.add k) value_).1
      (insert u s (s.begin.add k) value_).2).1.contents = s.contents ∧
    s.capacity ≤
      (erase u (insert u s (s.begin.add k) value_).1
        (insert u s (s.begin.add k) value_).2).1.capacity := by
  unfold size at hk hb
  simp only [size, capacity, begin_add]
  have hvi := valid_insert u s ⟨(k : Int)⟩ value_ hv
  have hei := insert_m_end u s ⟨(k : Int)⟩ value_ hv
  have hlen := length_contents s hv
  have htk : (List.take k s.contents).length = k := by
    rw [List.length_take, hlen]; omega
  refine ⟨?_, ?_, ?_⟩
  · show (insert u s ⟨(k : Int)⟩ value_).1.m_end - 1 = s.m_end
    omega
  · show (erase u (insert u s ⟨(k : Int)⟩ value_).1 ⟨(k : Int)⟩).1.contents = s.contents
    rw [contents_erase u _ k hvi (by omega), contents_insert_read u s k value_ hv hb hk,
      List.take_left' htk, List.drop_append_eq_append_drop, htk,
      List.drop_of_length_le (by omega)]
    simp
  · show s.m_capacity ≤ (insert u s ⟨(k : Int)⟩ value_).1.m_capacity
    rw [insert_m_capacity u s _ _ hv]
    split <;> omega

/-- The contract of `push_back(v)` for a value `v` that is not an element of the
container and a size below `2^31`: size `n+1`, the element at index `n` equal
to `v`, the elements at indices `[0, n)` unchanged; the capacity is `c` when
`n < c` and `c + c/2 + 1` when `n = c`. -/
theorem push_back_contract (u : Int → T) (s : vector T) (v : T) (hv : Valid s)
    (hb : s.size < 2 ^ 31) :
    (push_back u s (.object v)).size = s.size + 1 ∧
    subscript u (push_back u s (.object v)) s.size = v ∧
    (∀ i, i < s.size → subscript u (push_back u s (.object v)) i = subscript u s i) ∧
    (push_back u s (.object v)).contents = s.contents ++ [v] ∧
    (s.size < s.capacity → (push_back u s (.object v)).capacity = s.capacity) ∧
    (s.size = s.capacity →
      (push_back u s (.object v)).capacity = s.capacity + s.capacity / 2 + 1) ∧
    (s.size = s.capacity → s.capacity < (push_back u s (.object v)).capacity) := by
  unfold size at hb
  have hvp := valid_push_back u s (.object v) hv
  have hc := contents_push_back u s v hv hb
  have he := push_back_m_end u s (.object v)
  have hlen := length_contents s hv
  simp only [size, capacity]
  refine ⟨he, ?_, ?_, hc, ?_, ?_, ?_⟩
  · have h := subscript_eq_contents u _ hvp s.m_end (by omega)
    rw [hc, List.getElem?_append_right (by omega), hlen, Nat.sub_self] at h
    exact Option.some.inj h
  · intro i hi
    have h := subscript_eq_contents u _ hvp i (by omega)
    rw [hc, List.getElem?_append_left (by omega), ← subscript_eq_contents u s hv i hi] at h
    exact Option.some.inj h
  · intro hlt
    rw [push_back_m_capacity, if_neg (by omega)]
  · intro hfull
    rw [push_back_m_capacity, if_pos hfull]
  · intro hfull
    rw [push_back_m_capacity, if_pos hfull]
    omega

/-- C5: `pop_back()` fails, with the underflow error, if and only if the
container is empty, and a failing call leaves the state as it was; on a
non-empty container with contents `a[0..n)` it succeeds and leaves size `n-1`,
contents `a[0..n-1)` and the capacity unchanged. -/
theorem pop_back_spec (s : vector T) :
    ((pop_back s).1 = .error .length_error ↔ s.empty = true) ∧
    ((∃ e, (pop_back s).1 = .error e) ↔ s.empty = true) ∧
    ((∃ e, (pop_back s).1 = .error e) → (pop_back s).2 = s) ∧
    (s.empty = false →
      (pop_back s).1 = .ok () ∧
      (pop_back s).2.size = s.size - 1 ∧
      (pop_back s).2.contents = s.contents.take (s.size - 1) ∧
      (pop_back s).2.capacity = s.capacity) := by
  unfold pop_back
  by_cases h : s.empty = true
  · simp [h]
  · rw [if_neg h]
    refine ⟨⟨fun hc => (by cases hc), fun hc => absurd hc h⟩,
      ⟨fun ⟨_, hc⟩ => (by cases hc), fun hc => absurd hc h⟩, fun ⟨_, hc⟩ => (by cases hc), ?_⟩
    intro _
    refine ⟨rfl, rfl, ?_, rfl⟩
    show List.take (s.m_end - 1) s.m_storage = List.take (s.m_end - 1) (List.take s.m_end _)
    rw [List.take_take, Nat.min_eq_left (Nat.sub_le _ _)]

/-- C5, on the non-empty container `{1, 2, 3}`. -/
theorem pop_back_spec_witness :
    v123.empty = false ∧ (pop_back v123).1 = .ok () ∧
    (pop_back v123).2.size = v123.size - 1 ∧
    (pop_back v123).2.contents = v123.contents.take (v123.size - 1) ∧
    (pop_back v123).2.capacity = v123.capacity :=
  ⟨by decide, (pop_back_spec v123).2.2.2 (by decide)⟩

/-- C6: `at(i)` fails, with the out-of-range error, if and only if
`i ≥ size()`, so `at(size())` always fails; for `i < size()` it succeeds and
returns the element `operator[](i)` returns. -/
theorem at_spec (u : Int → T) (s : vector T) (i : Nat) :
    (at_ u s i = .error .out_of_range ↔ i ≥ s.size) ∧
    ((∃ e, at_ u s i = .error e) ↔ i ≥ s.size) ∧
    at_ u s s.size = .error .out_of_range ∧
    (i < s.size → at_ u s i = .ok (subscript u s i)) := by
  unfold at_ size subscript
  by_cases h : i ≥ s.m_end
  · simp [h]
  · rw [if_neg h, if_pos (Nat.le_refl _)]
    exact ⟨⟨fun hc => (by cases hc), fun hc => absurd hc h⟩,
      ⟨fun ⟨_, hc⟩ => (by cases hc), fun hc => absurd hc h⟩, rfl, fun _ => rfl⟩

/-- C6, on `{1, 2, 3}` at index `2`. -/
theorem at_spec_witness :
    2 < v123.size ∧ at_ zeros v123 2 = .ok (subscript zeros v123 2) :=
  ⟨by decide, (at_spec zeros v123 2).2.2.2 (by decide)⟩

theorem mk_cap_eq [Inhabited T] (u : Int → T) (n : Nat) :
    mk_cap u n = { m_end := n, m_capacity := n, m_storage := List.replicate n default } := by
  unfold mk_cap std_fill
  congr 1
  apply List.ext_getElem?
  intro p
  simp only [Int.sub_zero, Int.toNat_ofNat]
  have h0 : (0 : Int) = ((0 : Nat) : Int) := rfl
  rw [h0, getElem?_forUp_write (fun _ => (default : T)), length_newArray,
    List.getElem?_replicate]
  by_cases hp : p < n
  · rw [if_pos (by omega), if_pos hp]
  · have h2 : (newArray u n)[p]? = none :=
      List.getElem?_eq_none (by rw [length_newArray]; omega)
    rw [if_neg (by omega), if_neg hp, h2]

/-- C7: the constructor `vector(n)` yields `size() = n` and `capacity() = n`: the
container is pre-filled, so it is empty only when `n = 0` and it is always
full, and every element at an index `i < n` is the default value of `T`; with
`n = 3` the size is `3`. -/
theorem mk_cap_spec [Inhabited T] (u : Int → T) (n : Nat) :
    (mk_cap u n).size = n ∧
    (mk_cap u n).capacity = n ∧
    ((mk_cap u n).empty = true ↔ n = 0) ∧
    (mk_cap u n).full = true ∧
    (∀ i, i < n → subscript u (mk_cap u n) i = default) ∧
    (mk_cap u n).contents = List.replicate n default ∧
    (mk_cap u 3).size = 3 := by
  simp only [mk_cap_eq, size, capacity, empty, full, contents, beq_self_eq_true,
    beq_iff_eq, true_and]
  refine ⟨?_, ?_⟩
  · intro i hi
    apply subscript_of_getElem?
    exact List.getElem?_replicate_of_lt hi
  · rw [List.take_replicate, Nat.min_self]
    exact ⟨rfl, trivial⟩

/-- C7, with `n = 3` and element type `Nat`. -/
theorem mk_cap_spec_witness :
    (2 < 3 → subscript zeros (mk_cap zeros 3) 2 = default) ∧ (mk_cap zeros 3).size = 3 :=
  ⟨(mk_cap_spec zeros 3).2.2.2.2.1 2, (mk_cap_spec zeros 3).1⟩

theorem valid_mk_cap [Inhabited T] (u : Int → T) (n : Nat) : Valid (mk_cap u n) := by
  rw [mk_cap_eq]
  exact ⟨List.length_replicate _ _, Nat.le_refl _⟩

theorem subscript_mk_cap [Inhabited T] (u : Int → T) (n i : Nat) (hi : i < n) :
    subscript u (mk_cap u n) i = default := by
  apply subscript_of_getElem?
  rw [mk_cap_eq]
  exact List.getElem?_replicate_of_lt hi

/-! ## Runs of insert and push_back that depart from the contracts -/

/-- C1 fails on the code, in two ways.  The argument `value_` is a reference
that `insert` reads after the shift loop: on `{1, 2, 3}` with capacity `5`,
`insert(begin(), v[1])`, whose argument is the element `2`, leaves
`{1, 1, 2, 3}` and not `{2, 1, 2, 3}`.  The copy loop of the `reserve` call
counts to `static_cast<int>(m_end)`: on the full container of `2^31 - 1`
elements `0`, `insert(end(), 9)` copies nothing, and the element at index `0`
becomes the indeterminate value (`7` here). -/
theorem insert_departs :
    subscript zeros v123_spare 1 = 2 ∧
    (insert zeros v123_spare (v123_spare.begin.add ((0 : Nat) : Int)) (.element 1)).1.contents =
      [1, 1, 2, 3] ∧
    v_int_max.size = 2147483647 ∧ v_int_max.capacity = 2147483647 ∧
    subscript sevens v_int_max 0 = 0 ∧
    subscript sevens
      (insert sevens v_int_max (v_int_max.begin.add ((2147483647 : Nat) : Int)) (.object 9)).1 0
      = 7 := by
  refine ⟨by decide, by decide, rfl, rfl, ?_, ?_⟩
  · exact subscript_mk_cap sevens 2147483647 0 (by omega)
  · apply subscript_of_getElem?
    rw [begin_add]
    have hneg : static_cast_int ((mk_cap sevens 2147483647).m_end + 1) ≤ 0 := by
      show static_cast_int (2147483647 + 1) ≤ 0
      unfold static_cast_int wrap_int
      omega
    exact getElem?_insert_end_of_nonpos sevens (mk_cap sevens 2147483647) (.object 9) rfl hneg 0
      (by show 0 < 2147483647; omega)

/-- C3 fails on the code: on the full container of `2^31 - 1` elements `0`,
`insert(end(), 9)` followed by `erase` on the returned cursor leaves the size
as it was, but the `reserve` call of `insert` has copied nothing (its loop
counts to `static_cast<int>(m_end)`), and the element at index `0` is the
indeterminate value (`7` here), not `0`. -/
theorem insert_erase_roundtrip_departs :
    subscript sevens v_int_max 0 = 0 ∧
    (erase sevens
      (insert sevens v_int_max (v_int_max.begin.add ((2147483647 : Nat) : Int)) (.object 9)).1
      (insert sevens v_int_max (v_int_max.begin.add ((2147483647 : Nat) : Int)) (.object 9)).2
      ).1.size = v_int_max.size ∧
    subscript sevens (erase sevens
      (insert sevens v_int_max (v_int_max.begin.add ((2147483647 : Nat) : Int)) (.object 9)).1
      (insert sevens v_int_max (v_int_max.begin.add ((2147483647 : Nat) : Int)) (.object 9)).2
      ).1 0 = 7 := by
  have hv : Valid (mk_cap sevens 2147483647) := valid_mk_cap sevens 2147483647
  have hvi := valid_insert sevens (mk_cap sevens 2147483647) ⟨((2147483647 : Nat) : Int)⟩
    (.object 9) hv
  have hei : (insert sevens (mk_cap sevens 2147483647) ⟨((2147483647 : Nat) : Int)⟩
      (.object 9)).1.m_end = 2147483647 + 1 :=
    insert_m_end sevens (mk_cap sevens 2147483647) ⟨((2147483647 : Nat) : Int)⟩ (.object 9) hv
  have hneg : static_cast_int ((mk_cap sevens 2147483647).m_end + 1) ≤ 0 := by
    show static_cast_int (2147483647 + 1) ≤ 0
    unfold static_cast_int wrap_int
    omega
  refine ⟨subscript_mk_cap sevens 2147483647 0 (by omega), ?_, ?_⟩
  · rw [begin_add]
    show (insert sevens (mk_cap sevens 2147483647) ⟨((2147483647 : Nat) : Int)⟩
      (.object 9)).1.m_end - 1 = 2147483647
    rw [hei]
  · apply subscript_of_getElem?
    rw [begin_add]
    show (erase sevens (insert sevens (mk_cap sevens 2147483647) ⟨((2147483647 : Nat) : Int)⟩
      (.object 9)).1 ⟨((2147483647 : Nat) : Int)⟩).1.m_storage[0]? = some (sevens ((0 : Nat) : Int))
    rw [getElem?_erase_storage sevens _ 2147483647 hvi (by rw [hei]; omega) 0
      (by rw [hei]; omega), if_pos (by omega)]
    exact getElem?_insert_end_of_nonpos sevens (mk_cap sevens 2147483647) (.object 9) rfl hneg 0
      (by show 0 < 2147483647; omega)

/-- C4 fails on the code, in two ways.  The copy loop of the `reserve` call
counts to `static_cast<int>(m_end)`: on the full container of `2^31` elements
`0`, `push_back(9)` copies nothing, and the element at index `0` becomes the
indeterminate value (`7` here).  The argument `value` is a reference that
`push_back` reads after the `reserve` call: on the full `{1, 2, 3}`,
`push_back(v[0])` reads the element `1` in the block `reserve` has released,
and the element appended is indeterminate. -/
theorem push_back_departs :
    v_2_31.size = 2147483648 ∧ v_2_31.capacity = 2147483648 ∧
    subscript sevens v_2_31 0 = 0 ∧
    subscript sevens (push_back sevens v_2_31 (.object 9)) 0 = 7 ∧
    (∀ u : Int → Nat, subscript u (mk_il u [1, 2, 3]) 0 = 1 ∧
      subscript u (push_back u (mk_il u [1, 2, 3]) (.element 0)) 3 = u 0) := by
  refine ⟨rfl, rfl, subscript_mk_cap sevens 2147483648 0 (by omega), ?_, ?_⟩
  · apply subscript_of_getElem?
    have hneg : static_cast_int (mk_cap sevens 2147483648).m_end ≤ 0 := by
      show static_cast_int 2147483648 ≤ 0
      unfold static_cast_int wrap_int
      omega
    exact getElem?_push_back_of_nonpos sevens (mk_cap sevens 2147483648) (.object 9) rfl hneg 0
      (by show 0 < 2147483648; omega)
  · intro u
    rw [mk_il_eq]
    exact ⟨rfl, rfl⟩

/-! ## operator== and swap -/

theorem at_of_lt (u : Int → T) (s : vector T) (i : Nat) (hi : i < s.m_end) :
    at_ u s i = .ok (subscript u s i) := by
  unfold at_
  rw [if_neg (by omega)]
  rfl

/-- Inside the size, `operator[]` depends on the logical contents only. -/
theorem subscript_eq_getD (u : Int → T) (s : vector T) (i : Nat) (hi : i < s.m_end) :
    subscript u s i = (s.contents[i]?).getD (u i) := by
  unfold subscript
  rw [load_natCast, getElem?_contents, if_pos hi]

/-- The loop of `operator==` never throws inside the two sizes, and answers
whether no compared pair is reported different, as long as its counter stays
an `int`. -/
theorem operator_eq_loop_eq (ne : T → T → Bool) (u : Int → T) (a b : vector T) (c i : Nat)
    (ha : i + c ≤ a.m_end) (hb : i + c ≤ b.m_end) (hi : i + c ≤ 2 ^ 31) :
    operator_eq_loop ne u a b c (i : Int) =
      .ok ((List.range' i c).all (fun j => !ne (subscript u a j) (subscript u b j))) := by
  induction c generalizing i with
  | zero => rfl
  | succ c ih =>
    have hnext : operator_eq_loop ne u a b c (wrap_int ((i : Int) + 1)) =
        operator_eq_loop ne u a b c ((i + 1 : Nat) : Int) := by
      cases c with
      | zero => simp only [operator_eq_loop]
      | succ c =>
        rw [wrap_int_of_mem _ (by omega) (by omega)]
        rfl
    rw [operator_eq_loop, size_type_of_int_natCast i (by omega), at_of_lt u a i (by omega),
      at_of_lt u b i (by omega), List.range'_succ, List.all_cons, hnext]
    show (if ne (subscript u a i) (subscript u b i) = true then Except.ok false
      else operator_eq_loop ne u a b c ((i + 1 : Nat) : Int)) = _
    by_cases hne : ne (subscript u a i) (subscript u b i) = true
    · rw [if_pos hne, hne]
      rfl
    · rw [if_neg hne, ih (i + 1) (by omega) (by omega) (by omega)]
      simp only [Bool.not_eq_true] at hne
      rw [hne]
      rfl

/-- What `operator==` computes: the sizes are compared, then the elements at the
indices below `2^31`; past that index the `int` counter has wrapped and the
loop has ended. -/
theorem operator_eq_eq (ne : T → T → Bool) (u : Int → T) (a b : vector T) :
    operator_eq ne u a b =
      .ok (decide (a.m_end = b.m_end) &&
        (List.range' 0 (min a.m_end (2 ^ 31))).all
          (fun j => !ne (subscript u a j) (subscript u b j))) := by
  unfold operator_eq size int_counter_iterations
  by_cases h : a.m_end = b.m_end
  · have h0 : (0 : Int) = ((0 : Nat) : Int) := rfl
    rw [if_neg (by simpa using h), h0,
      operator_eq_loop_eq ne u a b (min a.m_end (2 ^ 31)) 0 (by omega) (by omega) (by omega)]
    simp [h]
  · rw [if_pos h]
    simp [h]

/-- The contract of `a == b` for containers of at most `2^31` elements: the
answer is `true` if and only if the sizes are equal and at every index the
elements compare equal; the comparison always returns, and its result depends
on the two sizes and logical contents only. -/
theorem operator_eq_contract (ne : T → T → Bool) (u : Int → T) (a b : vector T)
    (hsmall : a.size ≤ 2 ^ 31) :
    (operator_eq ne u a b = .ok true ↔
      a.size = b.size ∧ ∀ i, i < a.size → ne (subscript u a i) (subscript u b i) = false) ∧
    (∃ r, operator_eq ne u a b = .ok r) ∧
    (∀ a2 b2 : vector T, a2.size = a.size → a2.contents = a.contents →
      b2.size = b.size → b2.contents = b.contents →
      operator_eq ne u a2 b2 = operator_eq ne u a b) := by
  unfold size at hsmall
  refine ⟨?_, ⟨_, operator_eq_eq ne u a b⟩, ?_⟩
  · rw [operator_eq_eq, Nat.min_eq_left hsmall]
    simp only [size, Except.ok.injEq, Bool.and_eq_true, decide_eq_true_eq, List.all_eq_true,
      List.mem_range'_1, Bool.not_eq_true', Nat.zero_le, Nat.zero_add, true_and]
  · intro a2 b2 ha hca hb hcb
    unfold size at ha hb
    rw [operator_eq_eq, operator_eq_eq, ha, hb, Nat.min_eq_left hsmall]
    by_cases hab : a.m_end = b.m_end
    · congr 2
      rw [Bool.eq_iff_iff]
      simp only [List.all_eq_true, List.mem_range'_1, Bool.not_eq_true', Nat.zero_le,
        Nat.zero_add, true_and]
      constructor
      · intro h j hj
        rw [subscript_eq_getD u a j hj, subscript_eq_getD u b j (by omega), ← hca, ← hcb,
          ← subscript_eq_getD u a2 j (by omega), ← subscript_eq_getD u b2 j (by omega)]
        exact h j hj
      · intro h j hj
        rw [subscript_eq_getD u a2 j (by omega), subscript_eq_getD u b2 j (by omega), hca, hcb,
          ← subscript_eq_getD u a j hj, ← subscript_eq_getD u b j (by omega)]
        exact h j hj
    · rw [decide_eq_false hab, Bool.false_and, Bool.false_and]

/-- Two containers of the same size whose elements compare equal at every index
below `2^31` are reported equal, whatever the elements past that index are. -/
theorem operator_eq_of_agree_below (ne : T → T → Bool) (u : Int → T) (a b : vector T)
    (hsz : a.m_end = b.m_end)
    (h : ∀ j, j < 2 ^ 31 → j < a.m_end → ne (subscript u a j) (subscript u b j) = false) :
    operator_eq ne u a b = .ok true := by
  rw [operator_eq_eq, decide_eq_true hsz, Bool.true_and]
  congr 1
  rw [List.all_eq_true]
  intro j hj
  rw [List.mem_range'_1] at hj
  rw [h j (by omega) (by omega)]
  rfl

theorem pop_back_of_pos (s : vector T) (h : s.m_end ≠ 0) :
    pop_back s = (.ok (), { s with m_end := s.m_end - 1 }) := by
  unfold pop_back empty
  rw [if_neg (by simpa using h)]

/-- With a spare slot `push_back` writes into the block the container has. -/
theorem push_back_of_spare (u : Int → T) (s : vector T) (value : const_reference T)
    (h : s.m_end ≠ s.m_capacity) :
    push_back u s value =
      { s with m_storage := store s.m_storage s.m_end (value.read u s.m_storage false)
               m_end := s.m_end + 1 } := by
  have hg : push_back_grown_state u s = s := by
    unfold push_back_grown_state
    rw [if_neg h]
  rw [push_back_eq, hg, decide_eq_false h]

/-- After `pop_back()` and `push_back(x)` a non-empty container has the size it
had, the elements it had below the last index, and `x` at the last index. -/
theorem pop_back_push_back (u : Int → T) (s : vector T) (x : T) (hv : Valid s)
    (hpos : s.m_end ≠ 0) :
    (push_back u (pop_back s).2 (.object x)).m_end = s.m_end ∧
    (∀ j, j < s.m_end - 1 →
      subscript u (push_back u (pop_back s).2 (.object x)) j = subscript u s j) ∧
    subscript u (push_back u (pop_back s).2 (.object x)) (s.m_end - 1) = x := by
  have hl := hv.1
  have hle := hv.2
  have hp : (pop_back s).2 = { s with m_end := s.m_end - 1 } := by
    rw [pop_back_of_pos s hpos]
  have hspare : ({ s with m_end := s.m_end - 1 } : vector T).m_end ≠
      ({ s with m_end := s.m_end - 1 } : vector T).m_capacity := by
    show s.m_end - 1 ≠ s.m_capacity
    omega
  rw [hp, push_back_of_spare u _ _ hspare]
  refine ⟨?_, ?_, ?_⟩
  · show s.m_end - 1 + 1 = s.m_end
    omega
  · intro j hj
    apply subscript_congr u _ s j j _ (by omega)
    show (store s.m_storage ((s.m_end - 1 : Nat) : Int) x)[j]? = s.m_storage[j]?
    rw [store_natCast, List.getElem?_set, if_neg (by omega)]
  · apply subscript_of_getElem?
    show (store s.m_storage ((s.m_end - 1 : Nat) : Int) x)[s.m_end - 1]? = some x
    rw [store_natCast, List.getElem?_set, if_pos rfl, if_pos (by omega)]

/-- C8 fails on the code: the loop counter of `operator==` is an `int`
(`auto i = 0`), and after the index `2^31 - 1` it wraps and ends the loop.  The
two containers of `2^31 + 1` elements `v_2_31_succ` (all `0`) and
`v_2_31_succ_last` (the last element `1`) have the same size and differ at
index `2^31`, and `a == b` returns `true`. -/
theorem operator_eq_departs :
    v_2_31_succ.size = v_2_31_succ_last.size ∧
    2147483648 < v_2_31_succ.size ∧
    subscript sevens v_2_31_succ 2147483648 = 0 ∧
    subscript sevens v_2_31_succ_last 2147483648 = 1 ∧
    nat_ne (subscript sevens v_2_31_succ 2147483648)
      (subscript sevens v_2_31_succ_last 2147483648) = true ∧
    operator_eq nat_ne sevens v_2_31_succ v_2_31_succ_last = .ok true := by
  have hpos : (mk_cap sevens 2147483649).m_end ≠ 0 := by
    show 2147483649 ≠ 0
    omega
  obtain ⟨he, hlow, hlast⟩ :=
    pop_back_push_back sevens (mk_cap sevens 2147483649) 1 (valid_mk_cap sevens 2147483649) hpos
  have hidx : (mk_cap sevens 2147483649).m_end - 1 = 2147483648 := rfl
  rw [hidx] at hlow hlast
  have h0 : subscript sevens (mk_cap sevens 2147483649) 2147483648 = 0 :=
    subscript_mk_cap sevens 2147483649 2147483648 (by omega)
  unfold v_2_31_succ_last v_2_31_succ size
  refine ⟨he.symm, by show 2147483648 < 2147483649; omega, h0, hlast, ?_, ?_⟩
  · rw [h0, hlast]
    rfl
  · apply operator_eq_of_agree_below nat_ne sevens _ _ he.symm
    intro j hj _
    rw [hlow j (by omega)]
    simp [nat_ne]

/-- A container compares equal to itself when every element compares equal to itself. -/
theorem operator_eq_self (ne : T → T → Bool) (u : Int → T) (a : vector T)
    (hrefl : ∀ x, ne x x = false) : operator_eq ne u a a = .ok true :=
  operator_eq_of_agree_below ne u a a rfl (fun _ _ _ => hrefl _)

/-- C9: after `swap(a, b)` the state of `a` is the original state of `b` (same
size, capacity and storage) and the state of `b` is the original state of `a`;
hence, for an element comparison under which every value compares equal to
itself, `a == b0` and `b == a0`; swapping twice restores both states. -/
theorem swap_spec (ne : T → T → Bool) (u : Int → T) (a b : vector T) :
    (swap a b).1 = b ∧ (swap a b).2 = a ∧
    (swap a b).1.size = b.size ∧ (swap a b).1.capacity = b.capacity ∧
    (swap a b).1.m_storage = b.m_storage ∧
    (swap a b).2.size = a.size ∧ (swap a b).2.capacity = a.capacity ∧
    (swap a b).2.m_storage = a.m_storage ∧
    swap (swap a b).1 (swap a b).2 = (a, b) ∧
    ((∀ x, ne x x = false) →
      operator_eq ne u (swap a b).1 b = .ok true ∧ operator_eq ne u (swap a b).2 a = .ok true) := by
  have h1 : (swap a b).1 = b := rfl
  have h2 : (swap a b).2 = a := rfl
  refine ⟨h1, h2, rfl, rfl, rfl, rfl, rfl, rfl, rfl, ?_⟩
  intro hrefl
  rw [h1, h2]
  exact ⟨operator_eq_self ne u b hrefl, operator_eq_self ne u a hrefl⟩

/-- C9, on `{1, 2, 3}` and `{1, 2, 3}` with capacity 5. -/
theorem swap_spec_witness :
    (∀ x, nat_ne x x = false) ∧
    operator_eq nat_ne zeros (swap v123 v123_spare).1 v123_spare = .ok true ∧
    operator_eq nat_ne zeros (swap v123 v123_spare).2 v123 = .ok true :=
  ⟨fun x => by simp [nat_ne],
    (swap_spec nat_ne zeros v123 v123_spare).2.2.2.2.2.2.2.2.2 (fun x => by simp [nat_ne])⟩

/-- The contract of `reserve(m)` for a container with fewer than `2^31`
elements: the capacity is `m` if `m > c` and `c` otherwise, so it never
decreases and equals `max(c, m)`; the size and the contents are as before. -/
theorem reserve_contract (u : Int → T) (s : vector T) (m : Nat) (hv : Valid s)
    (hb : s.size < 2 ^ 31) :
    (m > s.capacity → (reserve u s m).capacity = m) ∧
    (¬ m > s.capacity → (reserve u s m).capacity = s.capacity) ∧
    s.capacity ≤ (reserve u s m).capacity ∧
    (reserve u s m).capacity = max s.capacity m ∧
    (reserve u s m).size = s.size ∧
    (reserve u s m).contents = s.contents := by
  simp only [size, capacity]
  refine ⟨fun h => reserve_m_capacity_of_lt u s m h, ?_, ?_, ?_, reserve_m_end u s m,
    contents_reserve u s m hv hb⟩
  · intro h
    rw [reserve_of_le u s m (by omega)]
  · by_cases h : s.m_capacity < m
    · rw [reserve_m_capacity_of_lt u s m h]
      omega
    · rw [reserve_of_le u s m (by omega)]
  · by_cases h : s.m_capacity < m
    · rw [reserve_m_capacity_of_lt u s m h]
      omega
    · rw [reserve_of_le u s m (by omega)]
      omega

/-- C10 fails on the code: the copy loop of `reserve` counts to
`static_cast<int>(m_end)`, which is `-2^31` for a size of `2^31`.  On the
container of `2^31` elements `0`, `reserve(2^31 + 1)` sets the capacity and
keeps the size, but copies nothing: the new block is as allocated, and the
element at index `0` is the indeterminate value (`7` here), not `0`. -/
theorem reserve_departs :
    v_2_31.size = 2147483648 ∧ v_2_31.capacity = 2147483648 ∧
    subscript sevens v_2_31 0 = 0 ∧
    (reserve sevens v_2_31 2147483649).capacity = 2147483649 ∧
    (reserve sevens v_2_31 2147483649).size = 2147483648 ∧
    (reserve sevens v_2_31 2147483649).m_storage = newArray sevens 2147483649 ∧
    subscript sevens (reserve sevens v_2_31 2147483649) 0 = 7 := by
  have hcap : (mk_cap sevens 2147483648).m_capacity < 2147483649 := by
    show 2147483648 < 2147483649
    omega
  have hneg : static_cast_int (mk_cap sevens 2147483648).m_end ≤ 0 := by
    show static_cast_int 2147483648 ≤ 0
    unfold static_cast_int wrap_int
    omega
  have hst := reserve_storage_of_nonpos sevens (mk_cap sevens 2147483648) 2147483649 hcap hneg
  refine ⟨rfl, rfl, subscript_mk_cap sevens 2147483648 0 (by omega),
    reserve_m_capacity_of_lt sevens _ _ hcap, reserve_m_end sevens _ _, hst, ?_⟩
  apply subscript_of_getElem?
  show (reserve sevens (mk_cap sevens 2147483648) 2147483649).m_storage[0]? = some 7
  rw [hst, getElem?_newArray, if_pos (by omega)]
  rfl

/-! ## Copies of a block -/

/-- The copy loop `for (i = 0; i < n; i++) dst[i] = src[i]`, slot by slot. -/
theorem getElem?_copy_loop (u : Int → T) (src : List T) (n : Nat) (dst : List T) (p : Nat) :
    (forUp (fun i t => store t i (load u src i)) ((n : Int) - 0).toNat 0 dst)[p]? =
      if p < n ∧ p < dst.length then some (load u src (p : Int)) else dst[p]? := by
  simp only [Int.sub_zero, Int.toNat_ofNat]
  have h0 : (0 : Int) = ((0 : Nat) : Int) := rfl
  rw [h0, getElem?_forUp_write (fun i => load u src i)]
  by_cases h : p < n ∧ p < dst.length
  · rw [if_pos h, if_pos (by omega)]
  · rw [if_neg h, if_neg (by omega)]

/-- The algorithm `std::copy` from the start of a block to the start of a block,
slot by slot. -/
theorem getElem?_std_copy (u : Int → T) (src : List T) (n : Nat) (dst : List T) (p : Nat) :
    (std_copy u src 0 (n : Int) dst 0)[p]? =
      if p < n ∧ p < dst.length then some (load u src (p : Int)) else dst[p]? := by
  have h := getElem?_copy_loop u src n dst p
  unfold std_copy
  simp only [Int.zero_add, Int.sub_zero, Int.toNat_ofNat] at h ⊢
  exact h

theorem length_std_copy (u : Int → T) (src : List T) (first last : Int) (dst : List T)
    (d_first : Int) : (std_copy u src first last dst d_first).length = dst.length := by
  unfold std_copy
  exact length_forUp _ (fun i t => length_store t _ _) _ _ _

/-- Two containers of the same size whose blocks agree below the size have the
same logical contents. -/
theorem contents_eq_of_getElem? (r s : vector T) (he : r.m_end = s.m_end)
    (hp : ∀ p, p < s.m_end → r.m_storage[p]? = s.m_storage[p]?) : r.contents = s.contents := by
  apply List.ext_getElem?
  intro p
  rw [getElem?_contents, getElem?_contents, he]
  by_cases h : p < s.m_end
  · rw [if_pos h, if_pos h, hp p h]
  · rw [if_neg h, if_neg h]

/-! ## shrink_to_fit -/

theorem shrink_to_fit_of_eq (u : Int → T) (s : vector T) (h : s.m_capacity = s.m_end) :
    shrink_to_fit u s = s := by
  unfold shrink_to_fit
  rw [if_neg (by simpa using h)]

theorem shrink_to_fit_m_end (u : Int → T) (s : vector T) : (shrink_to_fit u s).m_end = s.m_end := by
  unfold shrink_to_fit; split <;> rfl

theorem shrink_to_fit_m_capacity (u : Int → T) (s : vector T) :
    (shrink_to_fit u s).m_capacity = s.m_end := by
  unfold shrink_to_fit
  split
  · rfl
  · rename_i h
    simpa using h

theorem contents_shrink_to_fit (u : Int → T) (s : vector T) (hv : Valid s)
    (hb : s.m_end < 2 ^ 31) : (shrink_to_fit u s).contents = s.contents := by
  have hl := hv.1
  have hle := hv.2
  by_cases h : s.m_capacity = s.m_end
  · rw [shrink_to_fit_of_eq u s h]
  · apply contents_eq_of_getElem? _ s (shrink_to_fit_m_end u s)
    intro p hp
    unfold shrink_to_fit
    rw [if_pos h]
    simp only []
    rw [getElem?_forUp_write_zero (fun i => load u s.m_storage i),
      static_cast_int_toNat_of_lt s.m_end hb, length_newArray, if_pos ⟨hp, hp⟩,
      load_of_lt u _ p (by omega), List.getElem?_eq_getElem (by omega)]

/-- A `shrink_to_fit` of a container with spare capacity whose size converts to
a non-positive `int` copies nothing: the new block is as allocated. -/
theorem shrink_to_fit_storage_of_nonpos (u : Int → T) (s : vector T)
    (h : s.m_capacity ≠ s.m_end) (hneg : static_cast_int s.m_end ≤ 0) :
    (shrink_to_fit u s).m_storage = newArray u s.m_end := by
  have hc : (static_cast_int s.m_end - 0).toNat = 0 := by omega
  unfold shrink_to_fit
  rw [if_pos h]
  simp only []
  rw [hc]
  rfl

theorem pop_back_m_capacity (s : vector T) : (pop_back s).2.m_capacity = s.m_capacity := by
  unfold pop_back
  split <;> rfl

theorem pop_back_m_storage (s : vector T) : (pop_back s).2.m_storage = s.m_storage := by
  unfold pop_back
  split <;> rfl

theorem pop_back_m_end (s : vector T) : (pop_back s).2.m_end = s.m_end - 1 := by
  unfold pop_back empty
  split
  · rename_i h
    have h0 : s.m_end = 0 := by simpa using h
    show s.m_end = s.m_end - 1
    omega
  · rfl

theorem valid_shrink_to_fit (u : Int → T) (s : vector T) (hv : Valid s) :
    Valid (shrink_to_fit u s) := by
  by_cases h : s.m_capacity = s.m_end
  · rw [shrink_to_fit_of_eq u s h]
    exact hv
  · unfold shrink_to_fit
    rw [if_pos h]
    refine ⟨?_, Nat.le_refl _⟩
    simp only []
    rw [length_forUp _ (fun i t => length_store t _ _), length_newArray]

/-- The contract of `shrink_to_fit()` for a container with fewer than `2^31`
elements: the capacity equals the size, the size and the contents are as
before; a second call changes nothing. -/
theorem shrink_to_fit_contract (u : Int → T) (s : vector T) (hv : Valid s)
    (hb : s.size < 2 ^ 31) :
    (shrink_to_fit u s).capacity = s.size ∧
    (shrink_to_fit u s).size = s.size ∧
    (shrink_to_fit u s).contents = s.contents ∧
    shrink_to_fit u (shrink_to_fit u s) = shrink_to_fit u s := by
  refine ⟨shrink_to_fit_m_capacity u s, shrink_to_fit_m_end u s,
    contents_shrink_to_fit u s hv hb, ?_⟩
  apply shrink_to_fit_of_eq
  rw [shrink_to_fit_m_capacity, shrink_to_fit_m_end]

/-- C11 fails on the code: the copy loop of `shrink_to_fit` counts to
`static_cast<int>(m_end)`, which is `-2^31` for a size of `2^31`.  On the
container of `2^31` elements `0` with capacity `2^31 + 1`, `shrink_to_fit()`
sets the capacity to the size but copies nothing: the new block is as
allocated, and the element at index `0` is the indeterminate value (`7` here),
not `0`. -/
theorem shrink_to_fit_departs :
    v_2_31_spare.size = 2147483648 ∧ v_2_31_spare.capacity = 2147483649 ∧
    subscript sevens v_2_31_spare 0 = 0 ∧
    (shrink_to_fit sevens v_2_31_spare).capacity = 2147483648 ∧
    (shrink_to_fit sevens v_2_31_spare).size = 2147483648 ∧
    (shrink_to_fit sevens v_2_31_spare).m_storage = newArray sevens 2147483648 ∧
    subscript sevens (shrink_to_fit sevens v_2_31_spare) 0 = 7 := by
  have he : (pop_back (mk_cap sevens 2147483649)).2.m_end = 2147483648 :=
    pop_back_m_end (mk_cap sevens 2147483649)
  have hc : (pop_back (mk_cap sevens 2147483649)).2.m_capacity = 2147483649 :=
    pop_back_m_capacity (mk_cap sevens 2147483649)
  have hne : (pop_back (mk_cap sevens 2147483649)).2.m_capacity ≠
      (pop_back (mk_cap sevens 2147483649)).2.m_end := by
    rw [he, hc]
    omega
  have hneg : static_cast_int (pop_back (mk_cap sevens 2147483649)).2.m_end ≤ 0 := by
    rw [he]
    unfold static_cast_int wrap_int
    omega
  have hst := shrink_to_fit_storage_of_nonpos sevens _ hne hneg
  rw [he] at hst
  have h0 : subscript sevens (pop_back (mk_cap sevens 2147483649)).2 0 = 0 := by
    unfold subscript
    rw [pop_back_m_storage]
    exact subscript_mk_cap sevens 2147483649 0 (by omega)
  unfold v_2_31_spare v_2_31_succ size capacity
  refine ⟨he, hc, h0, ?_, ?_, hst, ?_⟩
  · rw [shrink_to_fit_m_capacity, he]
  · rw [shrink_to_fit_m_end, he]
  · apply subscript_of_getElem?
    rw [hst, getElem?_newArray, if_pos (by omega)]
    rfl

/-! ## erase of a range -/

/-- The range erase at offsets `i ≤ j ≤ size`, with the distance and the new
size written as natural numbers. -/
theorem erase_range_eq (u : Int → T) (s : vector T) (i j : Nat) (hij : i ≤ j)
    (hjn : j ≤ s.m_end) :
    erase_range u s ⟨(i : Int)⟩ ⟨(j : Int)⟩ =
      ({ m_end := s.m_end - (j - i), m_capacity := s.m_capacity,
         m_storage := forUp (fun k st => store st k (load u st (k + ((j - i : Nat) : Int))))
            (s.m_end - (j - i) - i) (i : Int) s.m_storage },
       ⟨(i : Int)⟩) := by
  have hlen : (j : Int) - (i : Int) = ((j - i : Nat) : Int) := by omega
  have hend : ((s.m_end : Int) - ((j - i : Nat) : Int)).toNat = s.m_end - (j - i) := by omega
  have hcount : (((s.m_end - (j - i) : Nat) : Int) - (i : Int)).toNat = s.m_end - (j - i) - i := by
    omega
  unfold erase_range
  simp only []
  rw [hlen, hend, hcount]

theorem getElem?_erase_range_storage (u : Int → T) (s : vector T) (i j : Nat)
    (hv : Valid s) (hij : i ≤ j) (hjn : j ≤ s.m_end) (p : Nat) (hp : p < s.m_end - (j - i)) :
    (erase_range u s ⟨(i : Int)⟩ ⟨(j : Int)⟩).1.m_storage[p]? =
      if p < i then s.m_storage[p]? else s.m_storage[p + (j - i)]? := by
  have hl := hv.1
  have hle := hv.2
  rw [erase_range_eq u s i j hij hjn]
  simp only []
  rw [getElem?_forUp_shiftLeft u (j - i) (s.m_end - (j - i) - i) i s.m_storage p]
  by_cases hlt : p < i
  · rw [if_neg (by omega), if_pos hlt]
  · rw [if_pos (by omega), if_neg hlt, load_of_lt u _ (p + (j - i)) (by omega),
      List.getElem?_eq_getElem (by omega)]

theorem contents_erase_range (u : Int → T) (s : vector T) (i j : Nat)
    (hv : Valid s) (hij : i ≤ j) (hjn : j ≤ s.m_end) :
    (erase_range u s ⟨(i : Int)⟩ ⟨(j : Int)⟩).1.contents =
      s.contents.take i ++ s.contents.drop j := by
  have hlen := length_contents s hv
  have he : (erase_range u s ⟨(i : Int)⟩ ⟨(j : Int)⟩).1.m_end = s.m_end - (j - i) := by
    rw [erase_range_eq u s i j hij hjn]
  apply List.ext_getElem?
  intro p
  rw [getElem?_contents, he, List.getElem?_append, List.length_take, hlen,
    Nat.min_eq_left (by omega), List.getElem?_drop, getElem?_contents]
  by_cases hp : p < s.m_end - (j - i)
  · rw [if_pos hp, getElem?_erase_range_storage u s i j hv hij hjn p hp]
    by_cases hlt : p < i
    · rw [if_pos hlt, if_pos hlt, List.getElem?_take_of_lt hlt, getElem?_contents,
        if_pos (by omega)]
    · rw [if_neg hlt, if_neg hlt, if_pos (by omega)]
      congr 1
      omega
  · rw [if_neg hp, if_neg (by omega), if_neg (by omega)]

theorem valid_erase_range (u : Int → T) (s : vector T) (i j : Nat)
    (hv : Valid s) (hij : i ≤ j) (hjn : j ≤ s.m_end) :
    Valid (erase_range u s ⟨(i : Int)⟩ ⟨(j : Int)⟩).1 := by
  have hl := hv.1
  have hle := hv.2
  rw [erase_range_eq u s i j hij hjn]
  refine ⟨?_, ?_⟩
  · show List.length (forUp _ _ _ _) = s.m_capacity
    rw [length_forUp _ (fun i t => length_store t _ _)]
    exact hl
  · show s.m_end - (j - i) ≤ s.m_capacity
    omega

/-- Erasing an empty range leaves the whole state as it is. -/
theorem erase_range_empty (u : Int → T) (s : vector T) (i : Nat)
    (hv : Valid s) (hin : i ≤ s.m_end) :
    (erase_range u s ⟨(i : Int)⟩ ⟨(i : Int)⟩).1 = s := by
  have hl := hv.1
  have hle := hv.2
  rw [erase_range_eq u s i i (Nat.le_refl _) hin]
  have hst : forUp (fun k st => store st k (load u st (k + ((i - i : Nat) : Int))))
      (s.m_end - (i - i) - i) (i : Int) s.m_storage = s.m_storage := by
    apply List.ext_getElem?
    intro p
    rw [getElem?_forUp_shiftLeft u (i - i) (s.m_end - (i - i) - i) i s.m_storage p]
    by_cases h : i ≤ p ∧ p < i + (s.m_end - (i - i) - i) ∧ p < s.m_storage.length
    · rw [if_pos h, Nat.sub_self, Nat.add_zero, load_of_lt u _ p h.2.2,
        List.getElem?_eq_getElem h.2.2]
    · rw [if_neg h]
  show ({ m_end := s.m_end - (i - i), m_capacity := s.m_capacity, m_storage := _ } : vector T) = s
  rw [hst, Nat.sub_self, Nat.sub_zero]

/-- The range erase of `[i, i+1)` is the single-element erase at `i`. -/
theorem erase_range_single (u : Int → T) (s : vector T) (i : Nat) (hin : i < s.m_end) :
    erase_range u s ⟨(i : Int)⟩ ⟨((i + 1 : Nat) : Int)⟩ = erase u s ⟨(i : Int)⟩ := by
  rw [erase_range_eq u s i (i + 1) (by omega) (by omega), erase_eq]
  simp only [Nat.add_sub_cancel_left, Nat.cast_one]
  have hcount : (((s.m_end - 1 : Nat) : Int) - (i : Int)).toNat = s.m_end - 1 - i := by omega
  rw [hcount]

/-- C12: for a container with contents `a[0..n)` and indices `i ≤ j ≤ n`,
`erase(begin()+i, begin()+j)` leaves size `n-(j-i)`, contents
`a[0..i) ++ a[j..n)` and the capacity unchanged, and returns a cursor at index
`i`, which is `end()` when `j = n`; with `i = j` the container is unchanged, and
with `j = i+1` the result is that of the single-element `erase(begin()+i)`. -/
theorem erase_range_spec (u : Int → T) (s : vector T) (i j : Nat)
    (hv : Valid s) (hij : i ≤ j) (hjn : j ≤ s.size) :
    (erase_range u s (s.begin.add i) (s.begin.add j)).1.size = s.size - (j - i) ∧
    (erase_range u s (s.begin.add i) (s.begin.add j)).1.contents =
      s.contents.take i ++ s.contents.drop j ∧
    (erase_range u s (s.begin.add i) (s.begin.add j)).1.capacity = s.capacity ∧
    (erase_range u s (s.begin.add i) (s.begin.add j)).2 =
      (erase_range u s (s.begin.add i) (s.begin.add j)).1.begin.add i ∧
    (j = s.size → (erase_range u s (s.begin.add i) (s.begin.add j)).2 =
      (erase_range u s (s.begin.add i) (s.begin.add j)).1.end_) ∧
    (i = j → (erase_range u s (s.begin.add i) (s.begin.add j)).1 = s) ∧
    (j = i + 1 →
      erase_range u s (s.begin.add i) (s.begin.add j) = erase u s (s.begin.add i)) := by
  unfold size at hjn
  simp only [size, capacity, begin_add]
  have he : (erase_range u s ⟨(i : Int)⟩ ⟨(j : Int)⟩).1.m_end = s.m_end - (j - i) := by
    rw [erase_range_eq u s i j hij hjn]
  refine ⟨he, contents_erase_range u s i j hv hij hjn, ?_, ?_, ?_, ?_, ?_⟩
  · rw [erase_range_eq u s i j hij hjn]
  · rw [erase_range_eq u s i j hij hjn]
  · intro hj
    unfold end_
    rw [he]
    rw [erase_range_eq u s i j hij hjn]
    show (⟨(i : Int)⟩ : MyForwardIterator) = ⟨((s.m_end - (j - i) : Nat) : Int)⟩
    congr 1
    omega
  · intro hieq
    subst hieq
    exact erase_range_empty u s i hv hjn
  · intro hj
    subst hj
    exact erase_range_single u s i (by omega)

/-- C12, on `{1, 2, 3}` with `i = 0` and `j = 2`. -/
theorem erase_range_spec_witness :
    Valid v123 ∧ 0 ≤ 2 ∧ 2 ≤ v123.size ∧
    (erase_range zeros v123 (v123.begin.add (0 : Nat)) (v123.begin.add (2 : Nat))).1.size =
      v123.size - (2 - 0) ∧
    (erase_range zeros v123 (v123.begin.add (0 : Nat)) (v123.begin.add (2 : Nat))).1.contents =
      v123.contents.take 0 ++ v123.contents.drop 2 ∧
    (erase_range zeros v123 (v123.begin.add (0 : Nat)) (v123.begin.add (2 : Nat))).1.capacity =
      v123.capacity ∧
    (erase_range zeros v123 (v123.begin.add (0 : Nat)) (v123.begin.add (2 : Nat))).2 =
      (erase_range zeros v123 (v123.begin.add (0 : Nat))
        (v123.begin.add (2 : Nat))).1.begin.add (0 : Nat) ∧
    (2 = v123.size →
      (erase_range zeros v123 (v123.begin.add (0 : Nat)) (v123.begin.add (2 : Nat))).2 =
        (erase_range zeros v123 (v123.begin.add (0 : Nat)) (v123.begin.add (2 : Nat))).1.end_) ∧
    (0 = 2 →
      (erase_range zeros v123 (v123.begin.add (0 : Nat)) (v123.begin.add (2 : Nat))).1 = v123) ∧
    (2 = 0 + 1 →
      erase_range zeros v123 (v123.begin.add (0 : Nat)) (v123.begin.add (2 : Nat)) =
        erase zeros v123 (v123.begin.add (0 : Nat))) :=
  ⟨by decide, by decide, by decide, erase_range_spec zeros v123 0 2 (by decide) (by decide)
    (by decide)⟩

/-! ## insert of a range -/

/-- The range insert at offset `k ≤ size` of a whole block `r`, with the
distance, the new size and the loop counts written as natural numbers. -/
theorem insert_range_eq (u : Int → T) (s : vector T) (k : Nat) (r : List T)
    (hk : k ≤ s.m_end) :
    insert_range u s ⟨(k : Int)⟩ r 0 (r.length : Int) =
      ({ insert_range_grown u s r.length with
          m_storage :=
            forUp (fun i st => store st i (load u r (0 + i - (k : Int)))) r.length (k : Int)
              (forDown (fun i st => store st (i + (r.length : Int)) (load u st i))
                (s.m_end - k) (((k + (s.m_end - k) : Nat) : Int) - 1)
                (insert_range_grown u s r.length).m_storage) },
       ⟨(k : Int)⟩) := by
  have hend : ((s.m_end : Int) + (r.length : Int)).toNat = s.m_end + r.length := by omega
  have hc1 : ((s.m_end : Int) - 1 - (k : Int) + 1).toNat = s.m_end - k := by omega
  have hstart : ((s.m_end : Int) - 1) = ((k + (s.m_end - k) : Nat) : Int) - 1 := by omega
  have hc2 : ((k : Int) + (r.length : Int) - (k : Int)).toNat = r.length := by omega
  unfold insert_range insert_range_grown
  simp only [Int.sub_zero]
  rw [hend, hc1, hc2, hstart]

theorem insert_range_grown_sizes (u : Int → T) (s : vector T) (m : Nat) (hv : Valid s) :
    (insert_range_grown u s m).m_end = s.m_end + m ∧
    (insert_range_grown u s m).m_storage.length = (insert_range_grown u s m).m_capacity ∧
    s.m_end + m ≤ (insert_range_grown u s m).m_capacity ∧
    (insert_range_grown u s m).m_capacity =
      (if s.m_end + m > s.m_capacity then s.m_end + m + s.m_capacity / 2 + 1
        else s.m_capacity) := by
  have hl := hv.1
  have hle := hv.2
  unfold insert_range_grown
  by_cases h : s.m_end + m > s.m_capacity
  · have hcap : ({ s with m_end := s.m_end + m } : vector T).m_capacity <
        s.m_end + m + (s.m_capacity / 2) + 1 := by
      show s.m_capacity < _
      omega
    rw [if_pos h, if_pos h]
    refine ⟨reserve_m_end u _ _, ?_, ?_, reserve_m_capacity_of_lt u _ _ hcap⟩
    · rw [length_reserve_of_lt u _ _ hcap, reserve_m_capacity_of_lt u _ _ hcap]
    · rw [reserve_m_capacity_of_lt u _ _ hcap]
      omega
  · rw [if_neg h, if_neg h]
    exact ⟨rfl, hl, (by show s.m_end + m ≤ s.m_capacity; omega), rfl⟩

/-- The growth step of the range insert keeps the slots below the size, when the
size after the insertion is below `2^31`. -/
theorem insert_range_grown_storage (u : Int → T) (s : vector T) (m : Nat) (hv : Valid s)
    (hb : s.m_end + m < 2 ^ 31) (p : Nat) (hp : p < s.m_end) :
    (insert_range_grown u s m).m_storage[p]? = s.m_storage[p]? := by
  have hl := hv.1
  have hle := hv.2
  unfold insert_range_grown
  by_cases h : s.m_end + m > s.m_capacity
  · have hcap : ({ s with m_end := s.m_end + m } : vector T).m_capacity <
        s.m_end + m + (s.m_capacity / 2) + 1 := by
      show s.m_capacity < _
      omega
    have hp1 : p < ({ s with m_end := s.m_end + m } : vector T).m_end := by
      show p < s.m_end + m
      omega
    rw [if_pos h, getElem?_reserve_of_lt u _ _ hcap hb p hp1 (by omega)]
    show some (load u s.m_storage (p : Int)) = _
    rw [load_of_lt u _ p (by omega), List.getElem?_eq_getElem (by omega)]
  · rw [if_neg h]

/-- The block the range insert leaves behind, slot by slot, for a size after the
insertion below `2^31`. -/
theorem getElem?_insert_range_storage (u : Int → T) (s : vector T) (k : Nat) (r : List T)
    (hv : Valid s) (hb : s.m_end + r.length < 2 ^ 31) (hk : k ≤ s.m_end) (p : Nat)
    (hp : p < s.m_end + r.length) :
    (insert_range u s ⟨(k : Int)⟩ r 0 (r.length : Int)).1.m_storage[p]? =
      if p < k then s.m_storage[p]?
      else if p < k + r.length then r[p - k]? else s.m_storage[p - r.length]? := by
  obtain ⟨he, hgl, hgc, _⟩ := insert_range_grown_sizes u s r.length hv
  have hgs := insert_range_grown_storage u s r.length hv hb
  have hl := hv.1
  have hle := hv.2
  rw [insert_range_eq u s k r hk]
  simp only []
  rw [getElem?_forUp_write (fun i => load u r (0 + i - (k : Int))),
    length_forDown _ (fun i t => length_store t _ _),
    getElem?_forDown_shiftRight u r.length (s.m_end - k) k]
  by_cases hlt : p < k
  · rw [if_neg (by omega), if_neg (by omega), if_pos hlt]
    exact hgs p (by omega)
  · rw [if_neg hlt]
    by_cases hmid : p < k + r.length
    · have hidx : (0 + (p : Int) - (k : Int)) = ((p - k : Nat) : Int) := by omega
      rw [if_pos (by omega), if_pos hmid, hidx, load_of_lt u r (p - k) (by omega),
        List.getElem?_eq_getElem (by omega)]
    · rw [if_neg (by omega), if_pos (by omega), if_neg hmid,
        load_of_lt u _ (p - r.length) (by omega), ← List.getElem?_eq_getElem (by omega)]
      exact hgs (p - r.length) (by omega)

theorem insert_range_m_end (u : Int → T) (s : vector T) (k : Nat) (r : List T)
    (hv : Valid s) (hk : k ≤ s.m_end) :
    (insert_range u s ⟨(k : Int)⟩ r 0 (r.length : Int)).1.m_end = s.m_end + r.length := by
  rw [insert_range_eq u s k r hk]
  exact (insert_range_grown_sizes u s r.length hv).1

theorem insert_range_m_capacity (u : Int → T) (s : vector T) (k : Nat) (r : List T)
    (hv : Valid s) (hk : k ≤ s.m_end) :
    (insert_range u s ⟨(k : Int)⟩ r 0 (r.length : Int)).1.m_capacity =
      (if s.m_end + r.length > s.m_capacity then s.m_end + r.length + s.m_capacity / 2 + 1
        else s.m_capacity) := by
  rw [insert_range_eq u s k r hk]
  exact (insert_range_grown_sizes u s r.length hv).2.2.2

theorem valid_insert_range (u : Int → T) (s : vector T) (k : Nat) (r : List T)
    (hv : Valid s) (hk : k ≤ s.m_end) :
    Valid (insert_range u s ⟨(k : Int)⟩ r 0 (r.length : Int)).1 := by
  obtain ⟨he, hgl, hgc, _⟩ := insert_range_grown_sizes u s r.length hv
  rw [insert_range_eq u s k r hk]
  refine ⟨?_, ?_⟩
  · show List.length (forUp _ _ _ _) = _
    rw [length_forUp _ (fun i t => length_store t _ _),
      length_forDown _ (fun i t => length_store t _ _)]
    exact hgl
  · show (insert_range_grown u s r.length).m_end ≤ (insert_range_grown u s r.length).m_capacity
    omega

theorem contents_insert_range (u : Int → T) (s : vector T) (k : Nat) (r : List T)
    (hv : Valid s) (hb : s.m_end + r.length < 2 ^ 31) (hk : k ≤ s.m_end) :
    (insert_range u s ⟨(k : Int)⟩ r 0 (r.length : Int)).1.contents =
      s.contents.take k ++ (r ++ s.contents.drop k) := by
  have hlen := length_contents s hv
  apply List.ext_getElem?
  intro p
  rw [getElem?_contents, insert_range_m_end u s k r hv hk, List.getElem?_append,
    List.length_take, hlen, Nat.min_eq_left hk, List.getElem?_append, List.getElem?_drop,
    getElem?_contents]
  by_cases hp : p < s.m_end + r.length
  · rw [if_pos hp, getElem?_insert_range_storage u s k r hv hb hk p hp]
    by_cases hlt : p < k
    · rw [if_pos hlt, if_pos hlt, List.getElem?_take_of_lt hlt, getElem?_contents,
        if_pos (by omega)]
    · rw [if_neg hlt, if_neg hlt]
      by_cases hmid : p < k + r.length
      · rw [if_pos hmid, if_pos (by omega)]
      · rw [if_neg hmid, if_neg (by omega), if_pos (by omega)]
        congr 1
        omega
  · rw [if_neg hp, if_neg (by omega), if_neg (by omega), if_neg (by omega)]

/-- The contract of the range insert of an external range `r` of length `m` at
an index `k` with `0 ≤ k ≤ n`, for a size after the insertion below `2^31`:
size `n+m`, contents `a[0..k) ++ r[0..m) ++ a[k..n)`, the elements before `k`
unchanged and those at or after `k` moved by `m`; the returned cursor is at
index `k`; with `m = 0` the contents and the size are unchanged.  The
initializer-list insert is the range insert of the list. -/
theorem insert_range_contract (u : Int → T) (s : vector T) (k : Nat) (r : List T)
    (hv : Valid s) (hb : s.size + r.length < 2 ^ 31) (hk : k ≤ s.size) :
    (insert_range u s (s.begin.add k) r 0 r.length).1.size = s.size + r.length ∧
    (insert_range u s (s.begin.add k) r 0 r.length).1.contents =
      s.contents.take k ++ r ++ s.contents.drop k ∧
    (∀ i, i < k → subscript u (insert_range u s (s.begin.add k) r 0 r.length).1 i =
      subscript u s i) ∧
    (∀ i, k ≤ i → i < s.size →
      subscript u (insert_range u s (s.begin.add k) r 0 r.length).1 (i + r.length) =
        subscript u s i) ∧
    (insert_range u s (s.begin.add k) r 0 r.length).2 =
      (insert_range u s (s.begin.add k) r 0 r.length).1.begin.add k ∧
    (r.length = 0 →
      (insert_range u s (s.begin.add k) r 0 r.length).1.contents = s.contents ∧
      (insert_range u s (s.begin.add k) r 0 r.length).1.size = s.size) ∧
    insert_il u s (s.begin.add k) r = (insert_range u s (s.begin.add k) r 0 r.length) := by
  have hl := hv.1
  have hle := hv.2
  unfold size at hk hb
  simp only [size, begin_add]
  have hc := contents_insert_range u s k r hv hb hk
  have he := insert_range_m_end u s k r hv hk
  refine ⟨he, ?_, ?_, ?_, ?_, ?_, rfl⟩
  · rw [hc, List.append_assoc]
  · intro i hi
    apply subscript_congr u _ s i i _ (by omega)
    rw [getElem?_insert_range_storage u s k r hv hb hk i (by omega), if_pos hi]
  · intro i hki hin
    apply subscript_congr u _ s (i + r.length) i _ (by omega)
    rw [getElem?_insert_range_storage u s k r hv hb hk (i + r.length) (by omega),
      if_neg (by omega), if_neg (by omega), Nat.add_sub_cancel]
  · rw [insert_range_eq u s k r hk]
  · intro hm
    refine ⟨?_, by rw [he, hm]; rfl⟩
    rw [hc, List.length_eq_zero.mp hm, List.nil_append, List.take_append_drop]

/-- When the size after a range insert at the end exceeds the capacity and
converts to a non-positive `int`, the `reserve` call of the range insert copies
nothing: every slot below the old size holds an indeterminate value. -/
theorem getElem?_insert_range_end_of_nonpos (u : Int → T) (s : vector T) (r : List T)
    (hgrow : s.m_end + r.length > s.m_capacity)
    (hneg : static_cast_int (s.m_end + r.length) ≤ 0) (p : Nat) (hp : p < s.m_end) :
    (insert_range u s ⟨(s.m_end : Int)⟩ r 0 (r.length : Int)).1.m_storage[p]? =
      some (u (p : Int)) := by
  have hcap : ({ s with m_end := s.m_end + r.length } : vector T).m_capacity <
      s.m_end + r.length + (s.m_capacity / 2) + 1 := by
    show s.m_capacity < _
    omega
  have hg : (insert_range_grown u s r.length).m_storage =
      newArray u (s.m_end + r.length + (s.m_capacity / 2) + 1) := by
    unfold insert_range_grown
    rw [if_pos hgrow]
    exact reserve_storage_of_nonpos u _ _ hcap hneg
  rw [insert_range_eq u s s.m_end r (Nat.le_refl _)]
  simp only []
  rw [getElem?_forUp_write (fun i => load u r (0 + i - (s.m_end : Int))), if_neg (by omega),
    Nat.sub_self, forDown, hg, getElem?_newArray, if_pos (by omega)]

/-- C13 fails on the code: the copy loop of the `reserve` call counts to
`static_cast<int>(m_end)`, where `m_end` is already the size after the
insertion.  On the full container of `2^31 - 1` elements `0`, the insertion of
the range `{1, 2}` at `end()` gives the size `2^31 + 1` but copies nothing,
and the element at index `0` is the indeterminate value (`7` here), not `0`. -/
theorem insert_range_departs :
    subscript sevens v_int_max 0 = 0 ∧
    (insert_range sevens v_int_max (v_int_max.begin.add ((2147483647 : Nat) : Int)) r12 0
      r12.length).1.size = 2147483649 ∧
    subscript sevens (insert_range sevens v_int_max
      (v_int_max.begin.add ((2147483647 : Nat) : Int)) r12 0 r12.length).1 0 = 7 := by
  have hv : Valid (mk_cap sevens 2147483647) := valid_mk_cap sevens 2147483647
  have hgrow : (mk_cap sevens 2147483647).m_end + r12.length >
      (mk_cap sevens 2147483647).m_capacity := by
    show 2147483647 + 2 > 2147483647
    omega
  have hneg : static_cast_int ((mk_cap sevens 2147483647).m_end + r12.length) ≤ 0 := by
    show static_cast_int (2147483647 + 2) ≤ 0
    unfold static_cast_int wrap_int
    omega
  unfold v_int_max size
  rw [begin_add]
  refine ⟨subscript_mk_cap sevens 2147483647 0 (by omega), ?_, ?_⟩
  · exact insert_range_m_end sevens (mk_cap sevens 2147483647) 2147483647 r12 hv (Nat.le_refl _)
  · apply subscript_of_getElem?
    exact getElem?_insert_range_end_of_nonpos sevens (mk_cap sevens 2147483647) r12 hgrow hneg 0
      (by show 0 < 2147483647; omega)

/-- C14, as stated, fails: the full container `{1, 2, 3}` (capacity 3) after the
range insert of `{7, 8}` at index 1 has capacity `5 + 3/2 + 1 = 7`, not
`3 + 3/2 + 1 = 5`. -/
theorem insert_range_capacity_counterexample :
    Valid v123 ∧ 1 ≤ v123.size ∧ v123.size + r78.length > v123.capacity ∧
    (insert_range zeros v123 (v123.begin.add (1 : Nat)) r78 0 r78.length).1.capacity = 7 ∧
    v123.capacity + v123.capacity / 2 + 1 = 5 ∧
    (insert_range zeros v123 (v123.begin.add (1 : Nat)) r78 0 r78.length).1.capacity ≠
      v123.capacity + v123.capacity / 2 + 1 := by
  decide

/-- C14, amended: for a container with size `n` and capacity `c` and a range
insert of `m` elements with `n + m > c`, the capacity after the insert is
exactly `(n + m) + c/2 + 1`, the new size plus half the old capacity plus one;
this is strictly more than the `c + c/2 + 1` of the append and of the
single-element insert. -/
theorem insert_range_capacity (u : Int → T) (s : vector T) (k : Nat) (r : List T)
    (hv : Valid s) (hk : k ≤ s.size) (hgrow : s.size + r.length > s.capacity) :
    (insert_range u s (s.begin.add k) r 0 r.length).1.capacity =
      s.size + r.length + s.capacity / 2 + 1 ∧
    s.capacity + s.capacity / 2 + 1 <
      (insert_range u s (s.begin.add k) r 0 r.length).1.capacity := by
  unfold size at hk
  unfold size capacity at hgrow
  simp only [size, capacity, begin_add]
  rw [insert_range_m_capacity u s k r hv hk, if_pos hgrow]
  exact ⟨rfl, by omega⟩

/-- C14 amended, on the full container `{1, 2, 3}` with the range `{7, 8}` at index 1. -/
theorem insert_range_capacity_witness :
    Valid v123 ∧ 1 ≤ v123.size ∧ v123.size + r78.length > v123.capacity ∧
    (insert_range zeros v123 (v123.begin.add (1 : Nat)) r78 0 r78.length).1.capacity =
      v123.size + r78.length + v123.capacity / 2 + 1 ∧
    v123.capacity + v123.capacity / 2 + 1 <
      (insert_range zeros v123 (v123.begin.add (1 : Nat)) r78 0 r78.length).1.capacity :=
  ⟨by decide, by decide, by decide,
    insert_range_capacity zeros v123 1 r78 (by decide) (by decide) (by decide)⟩

/-! ## assign -/

theorem assign_m_end (u : Int → T) (s : vector T) (k : Nat) (value_ : const_reference T) :
    (assign u s k value_).m_end = k := by
  unfold assign; split <;> rfl

theorem assign_m_capacity (u : Int → T) (s : vector T) (k : Nat) (value_ : const_reference T) :
    (assign u s k value_).m_capacity = max s.m_capacity k := by
  unfold assign
  by_cases h : k ≥ s.m_capacity
  · rw [if_pos h]
    show (reserve u s k).m_capacity = _
    by_cases hlt : s.m_capacity < k
    · rw [reserve_m_capacity_of_lt u s k hlt]
      omega
    · rw [reserve_of_le u s k (by omega)]
      omega
  · rw [if_neg h]
    show s.m_capacity = _
    omega

theorem length_assign (u : Int → T) (s : vector T) (k : Nat) (value_ : const_reference T)
    (hv : Valid s) : (assign u s k value_).m_storage.length = (assign u s k value_).m_capacity := by
  unfold assign
  by_cases h : k ≥ s.m_capacity
  · rw [if_pos h]
    simp only []
    rw [length_forUp _ (fun i t => length_store t _ _)]
    exact (valid_reserve u s k hv).1
  · rw [if_neg h]
    simp only []
    rw [length_forUp _ (fun i t => length_store t _ _)]
    exact hv.1

/-- The block `assign(k, v)` leaves behind for a value `v` that is not an element
of the container and a count below `2^31`: every slot below `k` holds `v`. -/
theorem getElem?_assign_storage (u : Int → T) (s : vector T) (k : Nat) (x : T) (hv : Valid s)
    (hb : k < 2 ^ 31) (p : Nat) (hp : p < k) :
    (assign u s k (.object x)).m_storage[p]? = some x := by
  have hl := hv.1
  have hcount : (static_cast_int k - 0).toNat = k := static_cast_int_toNat_of_lt k hb
  unfold assign
  by_cases h : k ≥ s.m_capacity
  · rw [if_pos h]
    simp only [const_reference.read]
    have hrl : (reserve u s k).m_storage.length = k := by
      rw [(valid_reserve u s k hv).1]
      by_cases hlt : s.m_capacity < k
      · rw [reserve_m_capacity_of_lt u s k hlt]
      · rw [reserve_of_le u s k (by omega)]
        omega
    rw [hcount, getElem?_forUp_write_zero (fun _ => x), if_pos ⟨hp, by omega⟩]
  · rw [if_neg h]
    simp only [const_reference.read]
    rw [hcount, getElem?_forUp_write_zero (fun _ => x), if_pos ⟨hp, by omega⟩]

theorem valid_assign (u : Int → T) (s : vector T) (k : Nat) (value_ : const_reference T)
    (hv : Valid s) : Valid (assign u s k value_) := by
  refine ⟨length_assign u s k value_ hv, ?_⟩
  rw [assign_m_end, assign_m_capacity]
  omega

theorem contents_assign (u : Int → T) (s : vector T) (k : Nat) (x : T) (hv : Valid s)
    (hb : k < 2 ^ 31) : (assign u s k (.object x)).contents = List.replicate k x := by
  apply List.ext_getElem?
  intro p
  rw [getElem?_contents, assign_m_end, List.getElem?_replicate]
  by_cases hp : p < k
  · rw [if_pos hp, if_pos hp, getElem?_assign_storage u s k x hv hb p hp]
  · rw [if_neg hp, if_neg hp]

/-- The contract of `assign(k, v)` for a value `v` that is not an element of the
container and a count `k` below `2^31`: size `k`, every element at an index
`i < k` equal to `v`, and capacity `max(c, k)`. -/
theorem assign_contract (u : Int → T) (s : vector T) (k : Nat) (v : T) (hv : Valid s)
    (hb : k < 2 ^ 31) :
    (assign u s k (.object v)).size = k ∧
    (∀ i, i < k → subscript u (assign u s k (.object v)) i = v) ∧
    (assign u s k (.object v)).contents = List.replicate k v ∧
    (assign u s k (.object v)).capacity = max s.capacity k ∧
    (k > s.capacity → (assign u s k (.object v)).capacity = k) ∧
    (k ≤ s.capacity → (assign u s k (.object v)).capacity = s.capacity) := by
  simp only [size, capacity]
  refine ⟨assign_m_end u s k _, ?_, contents_assign u s k v hv hb, assign_m_capacity u s k _,
    ?_, ?_⟩
  · intro i hi
    exact subscript_of_getElem? u _ i v (getElem?_assign_storage u s k v hv hb i hi)
  · intro h
    rw [assign_m_capacity]
    omega
  · intro h
    rw [assign_m_capacity]
    omega

/-- When the count is at least the capacity and converts to a non-positive
`int`, the fill loop of `assign` writes nothing: the block is the one the
`reserve` call left. -/
theorem assign_storage_of_nonpos (u : Int → T) (s : vector T) (k : Nat)
    (value_ : const_reference T) (h : k ≥ s.m_capacity) (hneg : static_cast_int k ≤ 0) :
    (assign u s k value_).m_storage = (reserve u s k).m_storage := by
  have hc : (static_cast_int k - 0).toNat = 0 := by omega
  unfold assign
  rw [if_pos h]
  simp only []
  rw [hc]
  rfl

/-- C15 fails on the code: the fill loop of `assign` counts to
`static_cast<int>(m_end)`, which is `-2^31` for a count of `2^31`.  On
`{1, 2, 3}`, `assign(2147483648, 9)` gives the size `2^31` and the capacity
`2^31` but writes no element: the element at index `0` is still `1`, not
`9`. -/
theorem assign_departs :
    (assign zeros v123 2147483648 (.object 9)).size = 2147483648 ∧
    (assign zeros v123 2147483648 (.object 9)).capacity = 2147483648 ∧
    subscript zeros (assign zeros v123 2147483648 (.object 9)) 0 = 1 := by
  have hge : 2147483648 ≥ v123.m_capacity := by
    show 2147483648 ≥ 3
    omega
  have hneg : static_cast_int 2147483648 ≤ 0 := by
    unfold static_cast_int wrap_int
    omega
  have hlt : v123.m_capacity < 2147483648 := by
    show 3 < 2147483648
    omega
  refine ⟨assign_m_end zeros v123 2147483648 _, ?_, ?_⟩
  · show (assign zeros v123 2147483648 (.object 9)).m_capacity = 2147483648
    rw [assign_m_capacity]
    exact Nat.max_eq_right (Nat.le_of_lt hlt)
  · apply subscript_of_getElem?
    rw [assign_storage_of_nonpos zeros v123 2147483648 _ hge hneg,
      getElem?_reserve_of_lt zeros v123 2147483648 hlt (by show 3 < 2 ^ 31; omega) 0
        (by show 0 < 3; omega) (by omega)]
    rfl

/-! ## Copy construction, copy assignment and clear -/

/-- Two containers with the same size and the same logical contents compare
equal, when every element compares equal to itself. -/
theorem operator_eq_of_contents_eq (ne : T → T → Bool) (u : Int → T) (a b : vector T)
    (hs : a.m_end = b.m_end) (hc : a.contents = b.contents) (hrefl : ∀ x, ne x x = false) :
    operator_eq ne u a b = .ok true := by
  rw [operator_eq_eq, decide_eq_true hs, Bool.true_and]
  congr 1
  rw [List.all_eq_true]
  intro j hj
  rw [List.mem_range'_1] at hj
  rw [subscript_eq_getD u a j (by omega), subscript_eq_getD u b j (by omega), hc, hrefl]
  rfl

theorem mk_copy_eq (u : Int → T) (other : vector T) :
    mk_copy u other =
      { m_end := other.m_end, m_capacity := other.m_capacity,
        m_storage := std_copy u other.m_storage 0 (other.m_end : Int)
          (newArray u other.m_capacity) 0 } := rfl

theorem contents_mk_copy (u : Int → T) (other : vector T) (hv : Valid other) :
    (mk_copy u other).contents = other.contents := by
  have hl := hv.1
  have hle := hv.2
  apply contents_eq_of_getElem? (mk_copy u other) other rfl
  intro p hp
  rw [mk_copy_eq]
  simp only []
  rw [getElem?_std_copy, length_newArray, if_pos ⟨hp, by omega⟩, load_of_lt u _ p (by omega),
    List.getElem?_eq_getElem (by omega)]

theorem valid_mk_copy (u : Int → T) (other : vector T) (hv : Valid other) :
    Valid (mk_copy u other) := by
  rw [mk_copy_eq]
  refine ⟨?_, hv.2⟩
  show List.length (std_copy _ _ _ _ _ _) = other.m_capacity
  rw [length_std_copy, length_newArray]

/-- C16: for a container `other` with size `n`, capacity `c` and contents
`a[0..n)`, the copy-constructed container has size `n`, capacity `c` (the
capacity of the source, not its size) and contents `a[0..n)`, and it compares
equal to `other` when every element compares equal to itself; the constructor
reads `other` and builds a new object, so `other` is as it was. -/
theorem mk_copy_spec (ne : T → T → Bool) (u : Int → T) (other : vector T) (hv : Valid other) :
    (mk_copy u other).size = other.size ∧
    (mk_copy u other).capacity = other.capacity ∧
    (mk_copy u other).contents = other.contents ∧
    ((∀ x, ne x x = false) → operator_eq ne u (mk_copy u other) other = .ok true) := by
  refine ⟨rfl, rfl, contents_mk_copy u other hv, ?_⟩
  intro hrefl
  exact operator_eq_of_contents_eq ne u _ other rfl (contents_mk_copy u other hv) hrefl

/-- C16, on `{1, 2, 3}` with capacity 5. -/
theorem mk_copy_spec_witness :
    Valid v123_spare ∧
    (mk_copy zeros v123_spare).size = v123_spare.size ∧
    (mk_copy zeros v123_spare).capacity = v123_spare.capacity ∧
    (mk_copy zeros v123_spare).contents = v123_spare.contents ∧
    ((∀ x, nat_ne x x = false) →
      operator_eq nat_ne zeros (mk_copy zeros v123_spare) v123_spare = .ok true) :=
  ⟨by decide, mk_copy_spec nat_ne zeros v123_spare (by decide)⟩

theorem operator_assign_m_end (u : Int → T) (x other : vector T) (b : Bool) :
    (operator_assign u x other b).m_end = other.m_end := rfl

theorem operator_assign_m_capacity (u : Int → T) (x other : vector T) (b : Bool) :
    (operator_assign u x other b).m_capacity = other.m_end := rfl

theorem operator_assign_self (u : Int → T) (x : vector T) :
    operator_assign u x x true =
      { m_end := x.m_end, m_capacity := x.m_end, m_storage := x.m_storage } := rfl

theorem contents_operator_assign (u : Int → T) (x other : vector T)
    (hvx : Valid x) (hvo : Valid other) :
    (operator_assign u x other false).contents = other.contents := by
  have hl := hvo.1
  have hle := hvo.2
  have hlx := hvx.1
  apply contents_eq_of_getElem? (operator_assign u x other false) other rfl
  intro p hp
  unfold operator_assign
  simp only [Bool.not_false, if_true]
  by_cases h : x.m_capacity ≠ other.m_end
  · rw [if_pos h]
    simp only []
    rw [getElem?_std_copy, length_newArray, if_pos ⟨hp, hp⟩, load_of_lt u _ p (by omega),
      List.getElem?_eq_getElem (by omega)]
  · rw [if_neg h]
    rw [getElem?_std_copy, if_pos ⟨hp, by omega⟩, load_of_lt u _ p (by omega),
      List.getElem?_eq_getElem (by omega)]

/-- C17: after the copy assignment `x = other`, with `other` of size `n` and
contents `a[0..n)`, the container `x` has size `n`, contents `a[0..n)` and
capacity exactly `n`, whatever the capacity of `other` and the previous capacity
of `x`, so `x == other` holds when every element compares equal to itself; the
self-assignment `x = x` leaves the contents unchanged and sets the capacity to
the size, and `x == x` holds. -/
theorem operator_assign_spec (ne : T → T → Bool) (u : Int → T) (x other : vector T)
    (hvx : Valid x) (hvo : Valid other) :
    (operator_assign u x other false).size = other.size ∧
    (operator_assign u x other false).contents = other.contents ∧
    (operator_assign u x other false).capacity = other.size ∧
    ((∀ e, ne e e = false) →
      operator_eq ne u (operator_assign u x other false) other = .ok true) ∧
    (operator_assign u x x true).size = x.size ∧
    (operator_assign u x x true).contents = x.contents ∧
    (operator_assign u x x true).capacity = x.size ∧
    ((∀ e, ne e e = false) → operator_eq ne u (operator_assign u x x true) x = .ok true) := by
  have hc := contents_operator_assign u x other hvx hvo
  refine ⟨rfl, hc, rfl, ?_, rfl, rfl, rfl, ?_⟩
  · intro hrefl
    exact operator_eq_of_contents_eq ne u _ other rfl hc hrefl
  · intro hrefl
    exact operator_eq_of_contents_eq ne u _ x rfl rfl hrefl

/-- C17, assigning `{1, 2, 3}` with capacity 5 to `{1, 2, 3}`, and `{1, 2, 3}` to itself. -/
theorem operator_assign_spec_witness :
    Valid v123 ∧ Valid v123_spare ∧
    (operator_assign zeros v123 v123_spare false).size = v123_spare.size ∧
    (operator_assign zeros v123 v123_spare false).contents = v123_spare.contents ∧
    (operator_assign zeros v123 v123_spare false).capacity = v123_spare.size ∧
    ((∀ e, nat_ne e e = false) →
      operator_eq nat_ne zeros (operator_assign zeros v123 v123_spare false) v123_spare
        = .ok true) ∧
    (operator_assign zeros v123 v123 true).size = v123.size ∧
    (operator_assign zeros v123 v123 true).contents = v123.contents ∧
    (operator_assign zeros v123 v123 true).capacity = v123.size ∧
    ((∀ e, nat_ne e e = false) →
      operator_eq nat_ne zeros (operator_assign zeros v123 v123 true) v123 = .ok true) :=
  ⟨by decide, by decide,
    operator_assign_spec nat_ne zeros v123 v123_spare (by decide) (by decide)⟩

/-- C18: for a container with capacity `c`, after `clear()` the size is `0`,
`empty()` is `true` and the capacity is still `c`. -/
theorem clear_spec (s : vector T) :
    (clear s).size = 0 ∧ (clear s).empty = true ∧ (clear s).capacity = s.capacity ∧
    (clear s).contents = [] :=
  ⟨rfl, rfl, rfl, rfl⟩

/-! ## Repeated push_back -/

theorem mk_default_eq [Inhabited T] (u : Int → T) :
    mk_default u = { m_end := 0, m_capacity := 0, m_storage := [] } := by
  unfold mk_default
  rw [mk_cap_eq]
  rfl

theorem valid_mk_default [Inhabited T] (u : Int → T) : Valid (mk_default u) := by
  rw [mk_default_eq]
  exact ⟨rfl, Nat.le_refl _⟩

theorem push_back_all_cons (u : Int → T) (s : vector T) (v : T) (vs : List T) :
    push_back_all u s (v :: vs) = push_back_all u (push_back u s (.object v)) vs := rfl

theorem push_back_all_append (u : Int → T) (s : vector T) (xs ys : List T) :
    push_back_all u s (xs ++ ys) = push_back_all u (push_back_all u s xs) ys := by
  unfold push_back_all
  exact List.foldl_append _ _ _ _

theorem push_back_all_singleton (u : Int → T) (s : vector T) (v : T) :
    push_back_all u s [v] = push_back u s (.object v) := rfl

theorem push_back_all_m_end (u : Int → T) (vs : List T) (s : vector T) :
    (push_back_all u s vs).m_end = s.m_end + vs.length := by
  induction vs generalizing s with
  | nil => rfl
  | cons v vs ih =>
    rw [push_back_all_cons, ih, push_back_m_end, List.length_cons]
    omega

theorem valid_push_back_all (u : Int → T) (vs : List T) (s : vector T) (hv : Valid s) :
    Valid (push_back_all u s vs) := by
  induction vs generalizing s with
  | nil => exact hv
  | cons v vs ih =>
    rw [push_back_all_cons]
    exact ih _ (valid_push_back u s _ hv)

/-- Repeated `push_back` appends the pushed values, as long as every call finds a
size below `2^31`. -/
theorem push_back_all_contents (u : Int → T) (vs : List T) (s : vector T) (hv : Valid s)
    (hb : s.m_end + vs.length ≤ 2 ^ 31) :
    (push_back_all u s vs).contents = s.contents ++ vs := by
  induction vs generalizing s with
  | nil => exact (List.append_nil _).symm
  | cons v vs ih =>
    rw [List.length_cons] at hb
    rw [push_back_all_cons, ih _ (valid_push_back u s _ hv)
      (by rw [push_back_m_end]; omega), contents_push_back u s v hv (by omega),
      List.append_assoc, List.singleton_append]

/-- The contract of `N ≤ 2^31` calls `push_back(v_1)`, ..., `push_back(v_N)` on
the default-constructed container: `size() = N`, `capacity() ≥ N` and the
element `v_(i+1)` at every index `i < N`. -/
theorem push_back_all_contract [Inhabited T] (u : Int → T) (vs : List T)
    (hb : vs.length ≤ 2 ^ 31) :
    (mk_default u).size = 0 ∧ (mk_default u).capacity = 0 ∧
    (push_back_all u (mk_default u) vs).size = vs.length ∧
    (push_back_all u (mk_default u) vs).capacity ≥ vs.length ∧
    (push_back_all u (mk_default u) vs).contents = vs ∧
    (∀ i, i < vs.length → some (subscript u (push_back_all u (mk_default u) vs) i) = vs[i]?) ∧
    (1 ≤ vs.length →
      some (subscript u (push_back_all u (mk_default u) vs) (vs.length - 1)) = vs.getLast?) := by
  have hv := valid_push_back_all u vs (mk_default u) (valid_mk_default u)
  have he0 : (mk_default u).m_end = 0 := by rw [mk_default_eq]
  have hc := push_back_all_contents u vs (mk_default u) (valid_mk_default u)
    (by rw [he0]; omega)
  have hc0 : (mk_default u).contents = [] := by rw [mk_default_eq]; rfl
  rw [hc0, List.nil_append] at hc
  have hlen := length_contents _ hv
  rw [hc] at hlen
  have hget : ∀ i, i < vs.length →
      some (subscript u (push_back_all u (mk_default u) vs) i) = vs[i]? := by
    intro i hi
    rw [subscript_eq_contents u _ hv i (by omega), hc]
  refine ⟨by rw [mk_default_eq]; rfl, by rw [mk_default_eq]; rfl, hlen.symm, ?_, hc, hget, ?_⟩
  · show vs.length ≤ (push_back_all u (mk_default u) vs).m_capacity
    have := hv.2
    omega
  · intro h1
    rw [hget (vs.length - 1) (by omega), List.getLast?_eq_getElem?]

theorem grown_capacity_succ (r : Nat) :
    grown_capacity (r + 1) = grown_capacity r + grown_capacity r / 2 + 1 := rfl

theorem grown_capacity_lt (q r : Nat) (h : q < r) : grown_capacity q < grown_capacity r := by
  induction r with
  | zero => omega
  | succ r ih =>
    rw [grown_capacity_succ]
    by_cases hq : q < r
    · have := ih hq
      omega
    · have hqr : q = r := by omega
      rw [hqr]
      omega

/-- The capacity after 52 growth steps from capacity `0`. -/
theorem grown_capacity_52 : grown_capacity 52 = 2327387740 := by
  have h0 : grown_capacity 0 = 0 := rfl
  have h1 : grown_capacity 1 = 1 := by
    rw [grown_capacity_succ 0, h0]
  have h2 : grown_capacity 2 = 2 := by
    rw [grown_capacity_succ 1, h1]
  have h3 : grown_capacity 3 = 4 := by
    rw [grown_capacity_succ 2, h2]
  have h4 : grown_capacity 4 = 7 := by
    rw [grown_capacity_succ 3, h3]
  have h5 : grown_capacity 5 = 11 := by
    rw [grown_capacity_succ 4, h4]
  have h6 : grown_capacity 6 = 17 := by
    rw [grown_capacity_succ 5, h5]
  have h7 : grown_capacity 7 = 26 := by
    rw [grown_capacity_succ 6, h6]
  have h8 : grown_capacity 8 = 40 := by
    rw [grown_capacity_succ 7, h7]
  have h9 : grown_capacity 9 = 61 := by
    rw [grown_capacity_succ 8, h8]
  have h10 : grown_capacity 10 = 92 := by
    rw [grown_capacity_succ 9, h9]
  have h11 : grown_capacity 11 = 139 := by
    rw [grown_capacity_succ 10, h10]
  have h12 : grown_capacity 12 = 209 := by
    rw [grown_capacity_succ 11, h11]
  have h13 : grown_capacity 13 = 314 := by
    rw [grown_capacity_succ 12, h12]
  have h14 : grown_capacity 14 = 472 := by
    rw [grown_capacity_succ 13, h13]
  have h15 : grown_capacity 15 = 709 := by
    rw [grown_capacity_succ 14, h14]
  have h16 : grown_capacity 16 = 1064 := by
    rw [grown_capacity_succ 15, h15]
  have h17 : grown_capacity 17 = 1597 := by
    rw [grown_capacity_succ 16, h16]
  have h18 : grown_capacity 18 = 2396 := by
    rw [grown_capacity_succ 17, h17]
  have h19 : grown_capacity 19 = 3595 := by
    rw [grown_capacity_succ 18, h18]
  have h20 : grown_capacity 20 = 5393 := by
    rw [grown_capacity_succ 19, h19]
  have h21 : grown_capacity 21 = 8090 := by
    rw [grown_capacity_succ 20, h20]
  have h22 : grown_capacity 22 = 12136 := by
    rw [grown_capacity_succ 21, h21]
  have h23 : grown_capacity 23 = 18205 := by
    rw [grown_capacity_succ 22, h22]
  have h24 : grown_capacity 24 = 27308 := by
    rw [grown_capacity_succ 23, h23]
  have h25 : grown_capacity 25 = 40963 := by
    rw [grown_capacity_succ 24, h24]
  have h26 : grown_capacity 26 = 61445 := by
    rw [grown_capacity_succ 25, h25]
  have h27 : grown_capacity 27 = 92168 := by
    rw [grown_capacity_succ 26, h26]
  have h28 : grown_capacity 28 = 138253 := by
    rw [grown_capacity_succ 27, h27]
  have h29 : grown_capacity 29 = 207380 := by
    rw [grown_capacity_succ 28, h28]
  have h30 : grown_capacity 30 = 311071 := by
    rw [grown_capacity_succ 29, h29]
  have h31 : grown_capacity 31 = 466607 := by
    rw [grown_capacity_succ 30, h30]
  have h32 : grown_capacity 32 = 699911 := by
    rw [grown_capacity_succ 31, h31]
  have h33 : grown_capacity 33 = 1049867 := by
    rw [grown_capacity_succ 32, h32]
  have h34 : grown_capacity 34 = 1574801 := by
    rw [grown_capacity_succ 33, h33]
  have h35 : grown_capacity 35 = 2362202 := by
    rw [grown_capacity_succ 34, h34]
  have h36 : grown_capacity 36 = 3543304 := by
    rw [grown_capacity_succ 35, h35]
  have h37 : grown_capacity 37 = 5314957 := by
    rw [grown_capacity_succ 36, h36]
  have h38 : grown_capacity 38 = 7972436 := by
    rw [grown_capacity_succ 37, h37]
  have h39 : grown_capacity 39 = 11958655 := by
    rw [grown_capacity_succ 38, h38]
  have h40 : grown_capacity 40 = 17937983 := by
    rw [grown_capacity_succ 39, h39]
  have h41 : grown_capacity 41 = 26906975 := by
    rw [grown_capacity_succ 40, h40]
  have h42 : grown_capacity 42 = 40360463 := by
    rw [grown_capacity_succ 41, h41]
  have h43 : grown_capacity 43 = 60540695 := by
    rw [grown_capacity_succ 42, h42]
  have h44 : grown_capacity 44 = 90811043 := by
    rw [grown_capacity_succ 43, h43]
  have h45 : grown_capacity 45 = 136216565 := by
    rw [grown_capacity_succ 44, h44]
  have h46 : grown_capacity 46 = 204324848 := by
    rw [grown_capacity_succ 45, h45]
  have h47 : grown_capacity 47 = 306487273 := by
    rw [grown_capacity_succ 46, h46]
  have h48 : grown_capacity 48 = 459730910 := by
    rw [grown_capacity_succ 47, h47]
  have h49 : grown_capacity 49 = 689596366 := by
    rw [grown_capacity_succ 48, h48]
  have h50 : grown_capacity 50 = 1034394550 := by
    rw [grown_capacity_succ 49, h49]
  have h51 : grown_capacity 51 = 1551591826 := by
    rw [grown_capacity_succ 50, h50]
  have h52 : grown_capacity 52 = 2327387740 := by
    rw [grown_capacity_succ 51, h51]
  exact h52

/-- The capacities of repeated `push_back` are the values of `grown_capacity`,
and every capacity the container has left behind is below its size. -/
theorem push_back_all_capacity_inv (u : Int → T) (vs : List T) (s : vector T) (r : Nat)
    (hv : Valid s) (hcap : s.m_capacity = grown_capacity r)
    (hlow : ∀ q, q < r → grown_capacity q < s.m_end) :
    ∃ r2, (push_back_all u s vs).m_capacity = grown_capacity r2 ∧
      ∀ q, q < r2 → grown_capacity q < (push_back_all u s vs).m_end := by
  induction vs generalizing s r with
  | nil => exact ⟨r, hcap, hlow⟩
  | cons v vs ih =>
    have hle := hv.2
    have hvp := valid_push_back u s (.object v) hv
    have hme := push_back_m_end u s (.object v)
    have hmc := push_back_m_capacity u s (.object v)
    rw [push_back_all_cons]
    by_cases hfull : s.m_end = s.m_capacity
    · rw [if_pos hfull] at hmc
      apply ih (push_back u s (.object v)) (r + 1) hvp
      · rw [hmc, hcap]
        rfl
      · intro q hq
        by_cases hqr : q < r
        · have := hlow q hqr
          omega
        · have hq2 : q = r := by omega
          rw [hq2, ← hcap, hme]
          omega
    · rw [if_neg hfull] at hmc
      apply ih (push_back u s (.object v)) r hvp (by rw [hmc, hcap])
      intro q hq
      have := hlow q hq
      omega

/-- After exactly `grown_capacity r` calls of `push_back` on the
default-constructed container, the container is full. -/
theorem push_back_all_full [Inhabited T] (u : Int → T) (vs : List T) (r : Nat)
    (h : vs.length = grown_capacity r) :
    (push_back_all u (mk_default u) vs).m_capacity = vs.length := by
  have hv := valid_push_back_all u vs (mk_default u) (valid_mk_default u)
  have he0 : (mk_default u).m_end = 0 := by rw [mk_default_eq]
  have he := push_back_all_m_end u vs (mk_default u)
  rw [he0, Nat.zero_add] at he
  obtain ⟨r2, hc2, hlow2⟩ := push_back_all_capacity_inv u vs (mk_default u) 0
    (valid_mk_default u) (by rw [mk_default_eq]; rfl) (fun q hq => absurd hq (Nat.not_lt_zero q))
  have hle := hv.2
  rw [he] at hle hlow2
  rw [hc2] at hle ⊢
  rw [h] at hle hlow2 ⊢
  by_cases h1 : r2 < r
  · have := grown_capacity_lt r2 r h1
    omega
  · by_cases h2 : r < r2
    · have := hlow2 r h2
      omega
    · have h3 : r2 = r := by omega
      rw [h3]

/-- C19 fails on the code: the copy loop of the `reserve` call of `push_back`
counts to `static_cast<int>(m_end)`.  After `2327387740` calls of
`push_back(1)` on the default-constructed container the container is full
(`2327387740` is the capacity after 52 growth steps); that size converts to a
negative `int`, so the next call copies nothing into the new block: after
`N = 2327387741` calls the size is `N`, and the element at index `0` is the
indeterminate value (`7` here), not the first pushed value `1`. -/
theorem push_back_all_departs :
    (List.replicate 2327387741 1)[0]? = some 1 ∧
    (push_back_all sevens (mk_default sevens) (List.replicate 2327387741 1)).size =
      2327387741 ∧
    subscript sevens (push_back_all sevens (mk_default sevens) (List.replicate 2327387741 1)) 0
      = 7 := by
  have hlen : (List.replicate 2327387740 1).length = grown_capacity 52 := by
    rw [List.length_replicate, grown_capacity_52]
  have hcap := push_back_all_full sevens (List.replicate 2327387740 1) 52 hlen
  have hend := push_back_all_m_end sevens (List.replicate 2327387740 1) (mk_default sevens)
  have he0 : (mk_default sevens).m_end = 0 := by rw [mk_default_eq]
  rw [he0, Nat.zero_add] at hend
  rw [List.length_replicate] at hcap hend
  have hneg : static_cast_int
      (push_back_all sevens (mk_default sevens) (List.replicate 2327387740 1)).m_end ≤ 0 := by
    rw [hend]
    unfold static_cast_int wrap_int
    omega
  have hsplit : List.replicate 2327387741 1 = List.replicate 2327387740 1 ++ [1] :=
    List.replicate_succ' 2327387740 1
  refine ⟨List.getElem?_replicate_of_lt (by omega), ?_, ?_⟩
  · rw [size, push_back_all_m_end, he0, Nat.zero_add, List.length_replicate]
  · apply subscript_of_getElem?
    have hfull :
        (push_back_all sevens (mk_default sevens) (List.replicate 2327387740 1)).m_end =
          (push_back_all sevens (mk_default sevens) (List.replicate 2327387740 1)).m_capacity := by
      rw [hend, hcap]
    have hp : 0 <
        (push_back_all sevens (mk_default sevens) (List.replicate 2327387740 1)).m_end := by
      rw [hend]
      omega
    rw [hsplit, push_back_all_append, push_back_all_singleton,
      getElem?_push_back_of_nonpos sevens _ (.object 1) hfull hneg 0 hp]
    rfl

/-- Two growth steps at least double the capacity plus one. -/
theorem two_pow_le_grown_capacity (j : Nat) : 2 ^ j ≤ grown_capacity (2 * j) + 1 := by
  induction j with
  | zero => simp [grown_capacity]
  | succ j ih =>
    have h2 : 2 * (j + 1) = 2 * j + 1 + 1 := by omega
    rw [h2, Nat.pow_succ]
    simp only [grown_capacity]
    omega

/-- Every capacity the container has left behind is below its size: `r` counts
the growth steps so far. -/
theorem reallocations_inv (u : Int → T) (vs : List T) (s : vector T) (r : Nat)
    (hv : Valid s) (hcap : s.m_capacity = grown_capacity r)
    (hlow : ∀ q, q < r → grown_capacity q < s.m_end) :
    ∀ q, q < r + reallocations u s vs → grown_capacity q < s.m_end + vs.length := by
  induction vs generalizing s r with
  | nil =>
    intro q hq
    have := hlow q (by simpa [reallocations] using hq)
    simpa using this
  | cons v vs ih =>
    intro q hq
    have hle := hv.2
    have hvp := valid_push_back u s (.object v) hv
    have hme := push_back_m_end u s (.object v)
    have hmc := push_back_m_capacity u s (.object v)
    rw [reallocations] at hq
    by_cases hfull : s.m_end = s.m_capacity
    · rw [if_pos hfull] at hmc
      have hne : (push_back u s (.object v)).m_capacity ≠ s.m_capacity := by omega
      rw [if_pos hne] at hq
      have hcap2 : (push_back u s (.object v)).m_capacity = grown_capacity (r + 1) := by
        rw [hmc, hcap]
        rfl
      have hlow2 : ∀ q, q < r + 1 → grown_capacity q < (push_back u s (.object v)).m_end := by
        intro q hq
        by_cases hqr : q < r
        · have := hlow q hqr
          omega
        · have hq2 : q = r := by omega
          rw [hq2, ← hcap, hme]
          omega
      have := ih (push_back u s (.object v)) (r + 1) hvp hcap2 hlow2 q (by omega)
      rw [hme] at this
      rw [List.length_cons]
      omega
    · rw [if_neg hfull] at hmc
      have hne : ¬ (push_back u s (.object v)).m_capacity ≠ s.m_capacity := by omega
      rw [if_neg hne] at hq
      have hlow2 : ∀ q, q < r → grown_capacity q < (push_back u s (.object v)).m_end := by
        intro q hq
        have := hlow q hq
        omega
      have := ih (push_back u s (.object v)) r hvp (by rw [hmc, hcap]) hlow2 q (by omega)
      rw [hme] at this
      rw [List.length_cons]
      omega

theorem reallocations_le [Inhabited T] (u : Int → T) (vs : List T) :
    reallocations u (mk_default u) vs ≤ 2 * (Nat.log2 vs.length + 1) := by
  by_contra hcon
  have hinv := reallocations_inv u vs (mk_default u) 0 (valid_mk_default u)
    (by rw [mk_default_eq]; rfl) (fun q hq => absurd hq (Nat.not_lt_zero q))
    (2 * (Nat.log2 vs.length + 1)) (by omega)
  have hpow := two_pow_le_grown_capacity (Nat.log2 vs.length + 1)
  have hlog : vs.length < 2 ^ (Nat.log2 vs.length + 1) := Nat.lt_log2_self
  have h0 : (mk_default u).m_end = 0 := by rw [mk_default_eq]
  rw [h0] at hinv
  omega

/-- C20: starting from the default-constructed container (capacity 0), the
number of calls among `N` consecutive `push_back` calls that change the
capacity is at most `2 * (log2(N) + 1)`: there is a constant `C` with at most
`C * (log2(N) + 1)` reallocations for every `N ≥ 1`. -/
theorem reallocations_log :
    (∀ (T : Type) [Inhabited T] (u : Int → T) (vs : List T), 1 ≤ vs.length →
      reallocations u (mk_default u) vs ≤ 2 * (Nat.log2 vs.length + 1)) ∧
    (∃ C : Nat, ∀ (T : Type) [Inhabited T] (u : Int → T) (vs : List T), 1 ≤ vs.length →
      reallocations u (mk_default u) vs ≤ C * (Nat.log2 vs.length + 1)) :=
  ⟨fun _ _ u vs _ => reallocations_le u vs, 2, fun _ _ u vs _ => reallocations_le u vs⟩

/-- C20, on nine consecutive calls. -/
theorem reallocations_log_witness :
    1 ≤ ([1, 2, 3, 4, 5, 6, 7, 8, 9] : List Nat).length ∧
    reallocations zeros (mk_default zeros) [1, 2, 3, 4, 5, 6, 7, 8, 9] ≤
      2 * (Nat.log2 ([1, 2, 3, 4, 5, 6, 7, 8, 9] : List Nat).length + 1) :=
  ⟨by decide, reallocations_log.1 Nat zeros [1, 2, 3, 4, 5, 6, 7, 8, 9] (by decide)⟩

/-! ## The const accessors and operator!= -/

/-- C22: the const accessors `front()` and `back()` fail, with the
empty-container error, if and only if the container is empty; on a non-empty
container with contents `a[0..n)` the const `front()` returns `a[0]` and the
const `back()` returns `a[n-1]`.  Both are const members that only read: they
return a value and no new state. -/
theorem front_back_const_spec (u : Int → T) (s : vector T) (hv : Valid s) :
    (front_const u s = .error .length_error ↔ s.empty = true) ∧
    ((∃ e, front_const u s = .error e) ↔ s.empty = true) ∧
    (back_const u s = .error .length_error ↔ s.empty = true) ∧
    ((∃ e, back_const u s = .error e) ↔ s.empty = true) ∧
    (s.empty = false →
      front_const u s = .ok (subscript u s 0) ∧
      some (subscript u s 0) = s.contents[0]? ∧
      back_const u s = .ok (subscript u s (s.size - 1)) ∧
      some (subscript u s (s.size - 1)) = s.contents[s.size - 1]?) := by
  unfold front_const back_const
  by_cases h : s.empty = true
  · simp [h]
  · rw [if_neg h, if_neg h]
    have hpos : 0 < s.m_end := by
      unfold empty at h
      simp only [beq_iff_eq] at h
      omega
    refine ⟨⟨fun hc => (by cases hc), fun hc => absurd hc h⟩,
      ⟨fun ⟨_, hc⟩ => (by cases hc), fun hc => absurd hc h⟩,
      ⟨fun hc => (by cases hc), fun hc => absurd hc h⟩,
      ⟨fun ⟨_, hc⟩ => (by cases hc), fun hc => absurd hc h⟩, ?_⟩
    intro _
    have hidx : ((s.m_end : Int) - 1) = ((s.m_end - 1 : Nat) : Int) := by omega
    refine ⟨rfl, subscript_eq_contents u s hv 0 hpos, ?_,
      subscript_eq_contents u s hv (s.m_end - 1) (by omega)⟩
    rw [hidx]
    rfl

/-- C22, on the non-empty container `{1, 2, 3}`. -/
theorem front_back_const_spec_witness :
    Valid v123 ∧ v123.empty = false ∧
    front_const zeros v123 = .ok (subscript zeros v123 0) ∧
    some (subscript zeros v123 0) = v123.contents[0]? ∧
    back_const zeros v123 = .ok (subscript zeros v123 (v123.size - 1)) ∧
    some (subscript zeros v123 (v123.size - 1)) = v123.contents[v123.size - 1]? :=
  ⟨by decide, by decide, (front_back_const_spec zeros v123 (by decide)).2.2.2.2 (by decide)⟩

/-- The loop of `operator!=` never throws inside the two sizes, and answers
whether some compared pair is reported different, as long as its counter stays
an `int`. -/
theorem operator_ne_loop_eq (ne : T → T → Bool) (u : Int → T) (a b : vector T) (c i : Nat)
    (ha : i + c ≤ a.m_end) (hb : i + c ≤ b.m_end) (hi : i + c ≤ 2 ^ 31) :
    operator_ne_loop ne u a b c (i : Int) =
      .ok (!(List.range' i c).all (fun j => !ne (subscript u a j) (subscript u b j))) := by
  induction c generalizing i with
  | zero => rfl
  | succ c ih =>
    have hnext : operator_ne_loop ne u a b c (wrap_int ((i : Int) + 1)) =
        operator_ne_loop ne u a b c ((i + 1 : Nat) : Int) := by
      cases c with
      | zero => simp only [operator_ne_loop]
      | succ c =>
        rw [wrap_int_of_mem _ (by omega) (by omega)]
        rfl
    rw [operator_ne_loop, size_type_of_int_natCast i (by omega), at_of_lt u a i (by omega),
      at_of_lt u b i (by omega), List.range'_succ, List.all_cons, hnext]
    show (if ne (subscript u a i) (subscript u b i) = true then Except.ok true
      else operator_ne_loop ne u a b c ((i + 1 : Nat) : Int)) = _
    by_cases hne : ne (subscript u a i) (subscript u b i) = true
    · rw [if_pos hne, hne]
      rfl
    · rw [if_neg hne, ih (i + 1) (by omega) (by omega) (by omega)]
      simp only [Bool.not_eq_true] at hne
      rw [hne]
      rfl

/-- What `operator!=` computes: the sizes are compared, then the elements at the
indices below `2^31`; past that index the `int` counter has wrapped and the
loop has ended. -/
theorem operator_ne_eq (ne : T → T → Bool) (u : Int → T) (a b : vector T) :
    operator_ne ne u a b =
      .ok (!(decide (a.m_end = b.m_end) &&
        (List.range' 0 (min a.m_end (2 ^ 31))).all
          (fun j => !ne (subscript u a j) (subscript u b j)))) := by
  unfold operator_ne size int_counter_iterations
  by_cases h : a.m_end = b.m_end
  · have h0 : (0 : Int) = ((0 : Nat) : Int) := rfl
    rw [if_neg (by simpa using h), h0,
      operator_ne_loop_eq ne u a b (min a.m_end (2 ^ 31)) 0 (by omega) (by omega) (by omega)]
    simp [h]
  · rw [if_pos h]
    simp [h]

/-- The two comparisons always return, with opposite answers. -/
theorem operator_ne_negates (ne : T → T → Bool) (u : Int → T) (a b : vector T) :
    (∃ r, operator_eq ne u a b = .ok r ∧ operator_ne ne u a b = .ok (!r)) ∧
    (operator_ne ne u a b = .ok true ↔ operator_eq ne u a b = .ok false) ∧
    (operator_ne ne u a b = .ok false ↔ operator_eq ne u a b = .ok true) := by
  rw [operator_ne_eq, operator_eq_eq]
  refine ⟨⟨_, rfl, rfl⟩, ?_, ?_⟩
  · simp only [Except.ok.injEq, Bool.not_eq_true']
  · simp only [Except.ok.injEq, Bool.not_eq_false']

/-- The contract of `a != b` for containers of at most `2^31` elements: it
returns `true` exactly when `a == b` returns `false`; it is `true` when the
sizes differ or when at some index the elements compare different, and `false`
otherwise. -/
theorem operator_ne_contract (ne : T → T → Bool) (u : Int → T) (a b : vector T)
    (hsmall : a.size ≤ 2 ^ 31) :
    (∃ r, operator_eq ne u a b = .ok r ∧ operator_ne ne u a b = .ok (!r)) ∧
    (operator_ne ne u a b = .ok true ↔ operator_eq ne u a b = .ok false) ∧
    (operator_ne ne u a b = .ok false ↔ operator_eq ne u a b = .ok true) ∧
    (operator_ne ne u a b = .ok true ↔
      (a.size ≠ b.size ∨ ∃ i, i < a.size ∧ ne (subscript u a i) (subscript u b i) = true)) ∧
    (operator_ne ne u a b = .ok false ↔
      ¬ (a.size ≠ b.size ∨ ∃ i, i < a.size ∧ ne (subscript u a i) (subscript u b i) = true)) := by
  unfold size at hsmall
  have hall : ((List.range' 0 a.m_end).all
      (fun j => !ne (subscript u a j) (subscript u b j)) = true) ↔
      ∀ i, i < a.m_end → ne (subscript u a i) (subscript u b i) = false := by
    simp only [List.all_eq_true, List.mem_range'_1, Bool.not_eq_true', Nat.zero_le,
      Nat.zero_add, true_and]
  rw [operator_ne_eq, operator_eq_eq, Nat.min_eq_left hsmall]
  simp only [size]
  by_cases hs : a.m_end = b.m_end
  · by_cases hx : (List.range' 0 a.m_end).all
        (fun j => !ne (subscript u a j) (subscript u b j)) = true
    · have hno : ¬ ∃ i, i < a.m_end ∧ ne (subscript u a i) (subscript u b i) = true := by
        rintro ⟨i, hi, hne⟩
        have := hall.mp hx i hi
        rw [this] at hne
        cases hne
      simp [hs, hx, hno]
    · have hex : ∃ i, i < a.m_end ∧ ne (subscript u a i) (subscript u b i) = true := by
        by_contra hcon
        apply hx
        rw [hall]
        intro i hi
        by_contra hne
        exact hcon ⟨i, hi, by simpa using hne⟩
      simp only [Bool.not_eq_true] at hx
      simp [hs, hx, hex]
  · simp [hs]

/-- Two containers of the same size whose elements compare equal at every index
below `2^31` are not reported different, whatever the elements past that index
are. -/
theorem operator_ne_of_agree_below (ne : T → T → Bool) (u : Int → T) (a b : vector T)
    (hsz : a.m_end = b.m_end)
    (h : ∀ j, j < 2 ^ 31 → j < a.m_end → ne (subscript u a j) (subscript u b j) = false) :
    operator_ne ne u a b = .ok false := by
  have heq := operator_eq_of_agree_below ne u a b hsz h
  exact (operator_ne_negates ne u a b).2.2.mpr heq

/-- C24 fails on the code: the loop counter of `operator!=` is an `int`
(`auto i = 0`), and after the index `2^31 - 1` it wraps and ends the loop.  The
two containers of `2^31 + 1` elements `v_2_31_succ` (all `0`) and
`v_2_31_succ_last` (the last element `1`) have the same size and differ at
index `2^31`, and `a != b` returns `false`. -/
theorem operator_ne_departs :
    v_2_31_succ.size = v_2_31_succ_last.size ∧
    (2147483648 < v_2_31_succ.size ∧
      nat_ne (subscript sevens v_2_31_succ 2147483648)
        (subscript sevens v_2_31_succ_last 2147483648) = true) ∧
    operator_ne nat_ne sevens v_2_31_succ v_2_31_succ_last = .ok false := by
  have hpos : (mk_cap sevens 2147483649).m_end ≠ 0 := by
    show 2147483649 ≠ 0
    omega
  obtain ⟨he, hlow, hlast⟩ :=
    pop_back_push_back sevens (mk_cap sevens 2147483649) 1 (valid_mk_cap sevens 2147483649) hpos
  have hidx : (mk_cap sevens 2147483649).m_end - 1 = 2147483648 := rfl
  rw [hidx] at hlow hlast
  have h0 : subscript sevens (mk_cap sevens 2147483649) 2147483648 = 0 :=
    subscript_mk_cap sevens 2147483649 2147483648 (by omega)
  unfold v_2_31_succ_last v_2_31_succ size
  refine ⟨he.symm, ⟨by show 2147483648 < 2147483649; omega, ?_⟩, ?_⟩
  · rw [h0, hlast]
    rfl
  · apply operator_ne_of_agree_below nat_ne sevens _ _ he.symm
    intro j hj _
    rw [hlow j (by omega)]
    simp [nat_ne]

end vector

/-! ## The cursor -/

namespace MyForwardIterator

/-- C21: for two cursors `p` and `q` at positions `i` and `j` of one storage,
the subtraction `p - q` is the absolute distance `|i - j|`: it is never
negative, it is symmetric, and it is `0` exactly when `p == q`. -/
theorem sub_spec (p q : MyForwardIterator) :
    p.sub q = |p.m_ptr - q.m_ptr| ∧
    0 ≤ p.sub q ∧
    p.sub q = q.sub p ∧
    (p.sub q = 0 ↔ p.eq q = true) ∧
    (p.sub q = 0 ↔ p = q) := by
  have hsub : ∀ a b : MyForwardIterator,
      a.sub b = if a.m_ptr > b.m_ptr then a.m_ptr - b.m_ptr else b.m_ptr - a.m_ptr := by
    intro a b
    rfl
  have hpq : p = q ↔ p.m_ptr = q.m_ptr := by
    cases p; cases q; simp
  rw [hsub p q, hsub q p, Int.abs_eq_natAbs, hpq]
  unfold eq
  simp only [beq_iff_eq]
  refine ⟨?_, ?_, ?_, ?_, ?_⟩ <;> split <;> omega

end MyForwardIterator

/-! ## The invariant `0 <= size() <= capacity()` -/

namespace vector

variable {T : Type}

theorem size_le_capacity_iff (s : vector T) : size_le_capacity s ↔ s.m_end ≤ s.m_capacity := by
  unfold size_le_capacity size capacity
  exact ⟨fun h => h.2, fun h => ⟨Nat.zero_le _, h⟩⟩

theorem slc_reserve (u : Int → T) (s : vector T) (m : Nat) (hs : s.m_end ≤ s.m_capacity) :
    (reserve u s m).m_end ≤ (reserve u s m).m_capacity := by
  by_cases h : s.m_capacity < m
  · rw [reserve_m_end, reserve_m_capacity_of_lt u s m h]
    omega
  · rw [reserve_of_le u s m (by omega)]
    exact hs

theorem slc_push_back (u : Int → T) (s : vector T) (v : const_reference T)
    (hs : s.m_end ≤ s.m_capacity) :
    (push_back u s v).m_end ≤ (push_back u s v).m_capacity := by
  rw [push_back_m_end, push_back_m_capacity]
  split <;> omega

theorem slc_insert_grown (u : Int → T) (s : vector T) (hs : s.m_end ≤ s.m_capacity) :
    (insert_grown u s).m_end ≤ (insert_grown u s).m_capacity := by
  unfold insert_grown
  by_cases h : s.m_end + 1 > s.m_capacity
  · rw [if_pos h, reserve_m_end, reserve_m_capacity_of_lt u _ _ (by show s.m_capacity < _; omega)]
    show s.m_end + 1 ≤ _
    omega
  · rw [if_neg h]
    show s.m_end + 1 ≤ s.m_capacity
    omega

theorem slc_insert (u : Int → T) (s : vector T) (pos_ : MyForwardIterator)
    (v : const_reference T) (hs : s.m_end ≤ s.m_capacity) :
    (insert u s pos_ v).1.m_end ≤ (insert u s pos_ v).1.m_capacity := by
  rw [insert_eq]
  exact slc_insert_grown u s hs

theorem slc_insert_range_grown (u : Int → T) (s : vector T) (m : Nat)
    (hs : s.m_end ≤ s.m_capacity) :
    (insert_range_grown u s m).m_end ≤ (insert_range_grown u s m).m_capacity := by
  unfold insert_range_grown
  by_cases h : s.m_end + m > s.m_capacity
  · rw [if_pos h, reserve_m_end, reserve_m_capacity_of_lt u _ _ (by show s.m_capacity < _; omega)]
    show s.m_end + m ≤ _
    omega
  · rw [if_neg h]
    show s.m_end + m ≤ s.m_capacity
    omega

theorem insert_range_sizes (u : Int → T) (s : vector T) (pos_ : MyForwardIterator) (r : List T) :
    (insert_range u s pos_ r 0 (r.length : Int)).1.m_end = (insert_range_grown u s r.length).m_end ∧
    (insert_range u s pos_ r 0 (r.length : Int)).1.m_capacity =
      (insert_range_grown u s r.length).m_capacity := by
  have hend : ((s.m_end : Int) + (r.length : Int)).toNat = s.m_end + r.length := by omega
  unfold insert_range insert_range_grown
  simp only [Int.sub_zero]
  rw [hend]
  exact ⟨rfl, rfl⟩

theorem slc_insert_range (u : Int → T) (s : vector T) (pos_ : MyForwardIterator) (r : List T)
    (hs : s.m_end ≤ s.m_capacity) :
    (insert_range u s pos_ r 0 (r.length : Int)).1.m_end ≤
      (insert_range u s pos_ r 0 (r.length : Int)).1.m_capacity := by
  rw [(insert_range_sizes u s pos_ r).1, (insert_range_sizes u s pos_ r).2]
  exact slc_insert_range_grown u s r.length hs

theorem slc_erase_range (u : Int → T) (s : vector T) (i j : Nat) (hij : i ≤ j)
    (hjn : j ≤ s.m_end) (hs : s.m_end ≤ s.m_capacity) :
    (erase_range u s ⟨(i : Int)⟩ ⟨(j : Int)⟩).1.m_end ≤
      (erase_range u s ⟨(i : Int)⟩ ⟨(j : Int)⟩).1.m_capacity := by
  rw [erase_range_eq u s i j hij hjn]
  show s.m_end - (j - i) ≤ s.m_capacity
  omega

theorem slc_assign (u : Int → T) (s : vector T) (k : Nat) (v : const_reference T) :
    (assign u s k v).m_end ≤ (assign u s k v).m_capacity := by
  rw [assign_m_end, assign_m_capacity]
  omega

theorem slc_assign_range (u : Int → T) (s : vector T) (r : List T) (first last : Int) :
    (assign_range u s r first last).m_end ≤ (assign_range u s r first last).m_capacity := by
  unfold assign_range
  by_cases h : (last - first).toNat ≥ s.m_capacity
  · simp only [if_pos h]
    show (last - first).toNat ≤ (reserve u s (last - first).toNat).m_capacity
    by_cases hlt : s.m_capacity < (last - first).toNat
    · rw [reserve_m_capacity_of_lt u s _ hlt]
    · rw [reserve_of_le u s _ (by omega)]
      omega
  · simp only [if_neg h]
    show (last - first).toNat ≤ s.m_capacity
    omega

theorem mk_range_sizes (u : Int → T) (r : List T) (first last : Int) :
    (mk_range u r first last).m_end = (mk_range u r first last).m_capacity := rfl

/-- C23: the invariant `0 ≤ size() ≤ capacity()` holds after every constructor
(after the copy constructor when it holds for the source) and is preserved by
every mutating operation called within its preconditions: `push_back`,
`pop_back` (whether it fails or not), `insert` at a position in `[0, size]`, the
range and initializer-list inserts, `erase` at a position in `[0, size)`,
`erase` of a range within `[0, size]`, `reserve`, `shrink_to_fit`, the three
`assign`, `clear`, the two assignments and `swap`. -/
theorem size_le_capacity_spec [Inhabited T] (u : Int → T) (s t : vector T)
    (hs : size_le_capacity s) (ht : size_le_capacity t) :
    (∀ n, size_le_capacity (mk_cap u n)) ∧
    (∀ il, size_le_capacity (mk_il u il)) ∧
    (∀ r first last, size_le_capacity (mk_range u r first last)) ∧
    size_le_capacity (mk_copy u t) ∧
    (∀ v, size_le_capacity (push_back u s v)) ∧
    size_le_capacity (pop_back s).2 ∧
    (∀ k v, k ≤ s.size → size_le_capacity (insert u s (s.begin.add k) v).1) ∧
    (∀ k r, k ≤ s.size →
      size_le_capacity (insert_range u s (s.begin.add k) r 0 r.length).1) ∧
    (∀ k r, k ≤ s.size → size_le_capacity (insert_il u s (s.begin.add k) r).1) ∧
    (∀ k, k < s.size → size_le_capacity (erase u s (s.begin.add k)).1) ∧
    (∀ i j, i ≤ j → j ≤ s.size →
      size_le_capacity (erase_range u s (s.begin.add i) (s.begin.add j)).1) ∧
    (∀ m, size_le_capacity (reserve u s m)) ∧
    size_le_capacity (shrink_to_fit u s) ∧
    (∀ k v, size_le_capacity (assign u s k v)) ∧
    (∀ r first last, size_le_capacity (assign_range u s r first last)) ∧
    (∀ il, size_le_capacity (assign_il u s il)) ∧
    size_le_capacity (clear s) ∧
    (∀ b, size_le_capacity (operator_assign u s t b)) ∧
    (∀ il, size_le_capacity (operator_assign_il u s il)) ∧
    size_le_capacity (swap s t).1 ∧ size_le_capacity (swap s t).2 := by
  rw [size_le_capacity_iff] at hs ht
  simp only [size_le_capacity_iff, begin_add, size]
  refine ⟨?_, ?_, ?_, ht, ?_, ?_, ?_, ?_, ?_, ?_, ?_, ?_, ?_, ?_, ?_, ?_, ?_, ?_, ?_, ht, hs⟩
  · intro n
    rw [mk_cap_eq]
  · intro il
    rw [mk_il_eq]
  · intro r first last
    rw [mk_range_sizes]
  · intro v
    exact slc_push_back u s v hs
  · unfold pop_back
    split
    · exact hs
    · show s.m_end - 1 ≤ s.m_capacity
      omega
  · intro k v _
    exact slc_insert u s _ v hs
  · intro k r _
    exact slc_insert_range u s _ r hs
  · intro k r _
    exact slc_insert_range u s _ r hs
  · intro k _
    rw [erase_eq]
    show s.m_end - 1 ≤ s.m_capacity
    omega
  · intro i j hij hjn
    exact slc_erase_range u s i j hij hjn hs
  · intro m
    exact slc_reserve u s m hs
  · rw [shrink_to_fit_m_capacity, shrink_to_fit_m_end]
  · intro k v
    exact slc_assign u s k v
  · intro r first last
    exact slc_assign_range u s r first last
  · intro il
    exact slc_assign_range u s il 0 il.length
  · exact Nat.zero_le _
  · intro b
    exact Nat.le_refl _
  · intro il
    exact Nat.le_refl _

/-- C23, on `{1, 2, 3}` and `{1, 2, 3}` with capacity 5. -/
theorem size_le_capacity_spec_witness :
    size_le_capacity v123 ∧ size_le_capacity v123_spare ∧
    (∀ n, size_le_capacity (mk_cap zeros n)) ∧
    (∀ il, size_le_capacity (mk_il zeros il)) ∧
    (∀ r first last, size_le_capacity (mk_range zeros r first last)) ∧
    size_le_capacity (mk_copy zeros v123_spare) ∧
    (∀ v, size_le_capacity (push_back zeros v123 v)) ∧
    size_le_capacity (pop_back v123).2 ∧
    (∀ k v, k ≤ v123.size → size_le_capacity (insert zeros v123 (v123.begin.add k) v).1) ∧
    (∀ k r, k ≤ v123.size →
      size_le_capacity (insert_range zeros v123 (v123.begin.add k) r 0 r.length).1) ∧
    (∀ k r, k ≤ v123.size → size_le_capacity (insert_il zeros v123 (v123.begin.add k) r).1) ∧
    (∀ k, k < v123.size → size_le_capacity (erase zeros v123 (v123.begin.add k)).1) ∧
    (∀ i j, i ≤ j → j ≤ v123.size →
      size_le_capacity (erase_range zeros v123 (v123.begin.add i) (v123.begin.add j)).1) ∧
    (∀ m, size_le_capacity (reserve zeros v123 m)) ∧
    size_le_capacity (shrink_to_fit zeros v123) ∧
    (∀ k v, size_le_capacity (assign zeros v123 k v)) ∧
    (∀ r first last, size_le_capacity (assign_range zeros v123 r first last)) ∧
    (∀ il, size_le_capacity (assign_il zeros v123 il)) ∧
    size_le_capacity (clear v123) ∧
    (∀ b, size_le_capacity (operator_assign zeros v123 v123_spare b)) ∧
    (∀ il, size_le_capacity (operator_assign_il zeros v123 il)) ∧
    size_le_capacity (swap v123 v123_spare).1 ∧ size_le_capacity (swap v123 v123_spare).2 :=
  ⟨by decide, by decide, size_le_capacity_spec zeros v123 v123_spare (by decide) (by decide)⟩

/-! ## Block accesses of insert -/

theorem forUp_fst {α β : Type} (f : Int → α → α) (g : Int → α × β → β) (n : Nat) (i : Int)
    (a : α) (l : β) :
    (forUp (fun i (p : α × β) => (f i p.1, g i p)) n i (a, l)).1 = forUp f n i a := by
  induction n generalizing i a l with
  | zero => rfl
  | succ n ih => exact ih (i + 1) (f i a) (g i (a, l))

theorem forDown_fst {α β : Type} (f : Int → α → α) (g : Int → α × β → β) (n : Nat) (i : Int)
    (a : α) (l : β) :
    (forDown (fun i (p : α × β) => (f i p.1, g i p)) n i (a, l)).1 = forDown f n i a := by
  induction n generalizing i a l with
  | zero => rfl
  | succ n ih => exact ih (i - 1) (f i a) (g i (a, l))

/-- A loop whose body only appends to the log keeps every earlier entry. -/
theorem mem_log_forUp {α : Type} (body : Int → α × List access → α × List access)
    (hb : ∀ i p e, e ∈ p.2 → e ∈ (body i p).2) (n : Nat) (i : Int) (p : α × List access)
    (e : access) (he : e ∈ p.2) : e ∈ (forUp body n i p).2 := by
  induction n generalizing i p with
  | zero => exact he
  | succ n ih => exact ih (i + 1) (body i p) (hb i p e he)

theorem mem_log_forDown {α : Type} (body : Int → α × List access → α × List access)
    (hb : ∀ i p e, e ∈ p.2 → e ∈ (body i p).2) (n : Nat) (i : Int) (p : α × List access)
    (e : access) (he : e ∈ p.2) : e ∈ (forDown body n i p).2 := by
  induction n generalizing i p with
  | zero => exact he
  | succ n ih => exact ih (i - 1) (body i p) (hb i p e he)

/-- The copy loop of `reserve` logs a read of slot `a + k` of the old block in
its iteration number `k`. -/
theorem mem_log_copy_loop (u : Int → T) (old : List T) (n : Nat) (a : Int)
    (p : List T × List access) (k : Nat) (hk : k < n) :
    (⟨old.length, a + (k : Int), false⟩ : access) ∈
      (forUp (fun i (p : List T × List access) =>
        (store p.1 i (load u old i), p.2 ++ [⟨old.length, i, false⟩, ⟨p.1.length, i, true⟩]))
        n a p).2 := by
  induction n generalizing a p k with
  | zero => omega
  | succ n ih =>
    rw [forUp]
    cases k with
    | zero =>
      apply mem_log_forUp _ (fun i p e he => List.mem_append_left _ he)
      simp
    | succ k =>
      have h := ih (a + 1) (store p.1 a (load u old a),
        p.2 ++ [⟨old.length, a, false⟩, ⟨p.1.length, a, true⟩]) k (by omega)
      have hidx : a + 1 + (k : Int) = a + ((k + 1 : Nat) : Int) := by push_cast; ring
      rw [hidx] at h
      exact h

theorem reserve_logged_fst (u : Int → T) (s : vector T) (m : Nat) :
    (reserve_logged u s m).1 = reserve u s m := by
  unfold reserve_logged reserve
  by_cases h : m > s.m_capacity
  · rw [if_pos h, if_pos h]
    simp only []
    rw [forUp_fst (fun i t => store t i (load u s.m_storage i))
      (fun i p => p.2 ++ [access.mk s.m_storage.length i false, access.mk p.1.length i true] :
        Int → List T × List access → List access)]
  · rw [if_neg h, if_neg h]

theorem reserve_logged_eq (u : Int → T) (s : vector T) (m : Nat) (h : s.m_capacity < m) :
    reserve_logged u s m =
      ({ m_end := s.m_end, m_capacity := m,
         m_storage := (forUp (fun i (p : List T × List access) =>
            (store p.1 i (load u s.m_storage i),
              p.2 ++ [access.mk s.m_storage.length i false, access.mk p.1.length i true]))
            (static_cast_int s.m_end - 0).toNat 0 (newArray u m, [])).1 },
       (forUp (fun i (p : List T × List access) =>
        (store p.1 i (load u s.m_storage i),
          p.2 ++ [access.mk s.m_storage.length i false, access.mk p.1.length i true]))
        (static_cast_int s.m_end - 0).toNat 0 (newArray u m, [])).2) := by
  unfold reserve_logged
  rw [if_pos h]

theorem prod_snd_mk {α β : Type} (a : α) (b : β) : (a, b).2 = b := rfl

theorem prod_fst_mk {α β : Type} (a : α) (b : β) : (a, b).1 = a := rfl

/-- A growing `reserve` of a container with a size below `2^31` reads every slot
`j < m_end` of the old block. -/
theorem mem_reserve_log (u : Int → T) (s : vector T) (m : Nat) (h : s.m_capacity < m)
    (hb : s.m_end < 2 ^ 31) (j : Nat) (hj : j < s.m_end) :
    (⟨s.m_storage.length, (j : Int), false⟩ : access) ∈ (reserve_logged u s m).2 := by
  rw [reserve_logged_eq u s m h, prod_snd_mk, static_cast_int_toNat_of_lt s.m_end hb]
  have := mem_log_copy_loop u s.m_storage s.m_end 0 (newArray u m, []) j hj
  rw [Int.zero_add] at this
  exact this

theorem insert_logged_fst (u : Int → T) (s : vector T) (pos_ : MyForwardIterator)
    (value_ : const_reference T) :
    (insert_logged u s pos_ value_).1 = insert u s pos_ value_ := by
  unfold insert_logged insert
  simp only []
  by_cases h : s.m_end + 1 > s.m_capacity
  · rw [if_pos h, if_pos h, reserve_logged_fst,
      forDown_fst (fun i t => store t (i + 1) (load u t i))
        (fun i p => p.2 ++ [access.mk p.1.length i false, access.mk p.1.length (i + 1) true] :
          Int → List T × List access → List access)]
  · rw [if_neg h, if_neg h,
      forDown_fst (fun i t => store t (i + 1) (load u t i))
        (fun i p => p.2 ++ [access.mk p.1.length i false, access.mk p.1.length (i + 1) true] :
          Int → List T × List access → List access)]

theorem insert_range_logged_fst (u : Int → T) (s : vector T) (pos_ : MyForwardIterator)
    (range : List T) (first_ last_ : Int) :
    (insert_range_logged u s pos_ range first_ last_).1 =
      insert_range u s pos_ range first_ last_ := by
  unfold insert_range_logged insert_range
  simp only []
  have hshift := fun (t : List T) (l : List access) (n : Nat) (i : Int) =>
    forDown_fst (fun i t => store t (i + (last_ - first_)) (load u t i))
      (fun i p => p.2 ++ [access.mk p.1.length i false, access.mk p.1.length (i + (last_ - first_)) true] :
        Int → List T × List access → List access) n i t l
  have hfill := fun (q : List T × List access) (n : Nat) (i : Int) =>
    forUp_fst (fun i t => store t i (load u range (first_ + i - pos_.m_ptr)))
      (fun i p => p.2 ++ [access.mk p.1.length i true] :
        Int → List T × List access → List access) n i q.1 q.2
  by_cases h : ((s.m_end : Int) + (last_ - first_)).toNat > s.m_capacity
  · rw [if_pos h, if_pos h, reserve_logged_fst, hfill, hshift]
  · rw [if_neg h, if_neg h, hfill, hshift]

/-- On a full container with a size after the insertion below `2^31`, the
`reserve` call of `insert` copies `m_end = c + 1` slots, so it reads slot `c`
of the old block, which has `c` slots. -/
theorem insert_logged_reads_slot_c (u : Int → T) (s : vector T) (pos_ : MyForwardIterator)
    (value_ : const_reference T) (hv : Valid s) (hfull : s.m_end = s.m_capacity)
    (hb : s.m_end + 1 < 2 ^ 31) :
    (⟨s.m_capacity, (s.m_capacity : Int), false⟩ : access) ∈ (insert_logged u s pos_ value_).2 ∧
    access.in_bounds ⟨s.m_capacity, (s.m_capacity : Int), false⟩ = false := by
  have hl := hv.1
  refine ⟨?_, by simp [access.in_bounds]⟩
  unfold insert_logged
  simp only []
  rw [if_pos (by omega)]
  apply List.mem_append_left
  apply List.mem_append_left
  apply mem_log_forDown _ (fun i p e he => List.mem_append_left _ he)
  have h := mem_reserve_log u { s with m_end := s.m_end + 1 }
    (s.m_capacity + (s.m_capacity / 2) + 1) (by show s.m_capacity < _; omega) hb s.m_capacity
    (by show s.m_capacity < s.m_end + 1; omega)
  change (⟨s.m_storage.length, (s.m_capacity : Int), false⟩ : access) ∈ _ at h
  rw [hl] at h
  exact h

/-- When the range insert has to grow, with a size after the insertion below
`2^31`, its `reserve` call copies `m_end = n + m` slots, so it reads slot `c`
of the old block, which has `c` slots. -/
theorem insert_range_logged_reads_slot_c (u : Int → T) (s : vector T)
    (pos_ : MyForwardIterator) (r : List T) (hv : Valid s)
    (hgrow : s.m_end + r.length > s.m_capacity) (hb : s.m_end + r.length < 2 ^ 31) :
    (⟨s.m_capacity, (s.m_capacity : Int), false⟩ : access) ∈
      (insert_range_logged u s pos_ r 0 (r.length : Int)).2 ∧
    access.in_bounds ⟨s.m_capacity, (s.m_capacity : Int), false⟩ = false := by
  have hl := hv.1
  have hend : ((s.m_end : Int) + (r.length : Int)).toNat = s.m_end + r.length := by omega
  refine ⟨?_, by simp [access.in_bounds]⟩
  unfold insert_range_logged
  simp only [Int.sub_zero]
  rw [hend, if_pos hgrow]
  apply mem_log_forUp _ (fun i p e he => List.mem_append_left _ he)
  apply mem_log_forDown _ (fun i p e he => List.mem_append_left _ he)
  have h := mem_reserve_log u { s with m_end := s.m_end + r.length }
    (s.m_end + r.length + (s.m_capacity / 2) + 1) (by show s.m_capacity < _; omega) hb
    s.m_capacity (by show s.m_capacity < s.m_end + r.length; omega)
  change (⟨s.m_storage.length, (s.m_capacity : Int), false⟩ : access) ∈ _ at h
  rw [hl] at h
  exact h

/-- C25 fails on the code: on the full container `{1, 2, 3}` (3 slots),
`insert(begin()+1, 9)` returns what `insert` returns and its log of block
accesses holds a read at index 3 of a block of 3 slots, made by the copy loop of
the `reserve` call, so not every access is inside its block; the range insert of
`{7, 8}` at the same place makes the same read, and one at index 4.  The
`reserve` call of `push_back` on the same container, made before the size is
changed, stays inside the block. -/
theorem insert_bounds_violation :
    Valid v123 ∧ v123.size = v123.capacity ∧ v123.capacity = 3 ∧ 1 ≤ v123.size ∧
    (insert_logged zeros v123 (v123.begin.add (1 : Nat)) (.object 9)).1 =
      insert zeros v123 (v123.begin.add (1 : Nat)) (.object 9) ∧
    (⟨3, 3, false⟩ : access) ∈ (insert_logged zeros v123 (v123.begin.add (1 : Nat)) (.object 9)).2 ∧
    access.in_bounds ⟨3, 3, false⟩ = false ∧
    (insert_logged zeros v123 (v123.begin.add (1 : Nat)) (.object 9)).2.all access.in_bounds = false ∧
    (⟨3, 3, false⟩ : access) ∈
      (insert_range_logged zeros v123 (v123.begin.add (1 : Nat)) r78 0 r78.length).2 ∧
    (⟨3, 4, false⟩ : access) ∈
      (insert_range_logged zeros v123 (v123.begin.add (1 : Nat)) r78 0 r78.length).2 ∧
    (insert_range_logged zeros v123 (v123.begin.add (1 : Nat)) r78 0 r78.length).2.all
      access.in_bounds = false ∧
    (reserve_logged zeros v123 (v123.capacity + v123.capacity / 2 + 1)).2.all
      access.in_bounds = true := by
  decide

end vector

end sc
